import Mathlib

/-!
# el_malloc: an explicit-list allocator

A shallow embedding of `el_malloc.c`.  Addresses and `size_t` values are natural
numbers; every arithmetic operation the C code performs on `size_t` values or on
pointers (through `PTR_PLUS_BYTES` / `PTR_MINUS_BYTES`) is taken modulo `2^64`, so that
requests near `SIZE_MAX` behave as they do on the machine.

Memory is typed: the four fields of an `el_blockhead_t` and the single field of an
`el_blockfoot_t` are separate maps indexed by the address of the object they belong
to, so a store to one field leaves every other field as it was.  This is what the
machine does whenever the header and footer objects that are accessed occupy pairwise
disjoint byte ranges, as they do in the states of the invariant `el_wf` and in the
worked traces on typed memory below.  Where they overlap, a store to one object changes
a field of another; the section `Flat` repeats the code over a memory of bytes for the
trace in which that happens.  The global `el_ctl` is a record; the four sentinel nodes
embedded in it are header objects like any other, living at the addresses given by
`el_addrs_t`.
-/

namespace ElMalloc

/-! ## Constants of `el_malloc.h` -/

/-- Modelled from the spec: `el_malloc.h` is not among the sources.  The size of a
block header, `sizeof(el_blockhead_t)`; the value 32 is the one exhibited by the
listing in the comment of `el_print_stats` (head @ 618, size 200, foot @ 850). -/
def sizeof_head : Nat := 32

/-- Modelled from the spec: `el_malloc.h` is not among the sources.  The size of a
block footer, `sizeof(el_blockfoot_t)`; the value 8 is the one exhibited by the
listing in the comment of `el_print_stats` (foot @ 850, next head @ 858). -/
def sizeof_foot : Nat := 8

/-- Modelled from the spec: `OVERHEAD = sizeof(header) + sizeof(footer)`, the
macro `EL_BLOCK_OVERHEAD` of the absent `el_malloc.h`. -/
def EL_BLOCK_OVERHEAD : Nat := sizeof_head + sizeof_foot

/-- Modelled from the spec: the state flag Available (`el_malloc.h` is absent);
printed with `%c` as `a` in the listings of `el_malloc.c`. -/
def EL_AVAILABLE : Nat := 97

/-- Modelled from the spec: the state flag Used (`el_malloc.h` is absent);
printed with `%c` as `u` in the listings of `el_malloc.c`. -/
def EL_USED : Nat := 117

/-- Modelled from the spec: the state flag SentinelBegin (`el_malloc.h` is absent). -/
def EL_BEGIN_BLOCK : Nat := 66

/-- Modelled from the spec: the state flag SentinelEnd (`el_malloc.h` is absent). -/
def EL_END_BLOCK : Nat := 69

/-- Modelled from the spec: the size stored in sentinel nodes, `-1` converted to
`size_t` (`el_malloc.h` is absent). -/
def EL_UNINITIALIZED : Nat := 2 ^ 64 - 1

/-- The null pointer. -/
def NULL : Nat := 0

/-! ## Machine arithmetic -/

/-- Addition of two `size_t` values. -/
@[irreducible]
def wadd (a b : Nat) : Nat := (a + b) % 2 ^ 64

/-- Subtraction of two `size_t` values. -/
@[irreducible]
def wsub (a b : Nat) : Nat := (a + (2 ^ 64 - b % 2 ^ 64)) % 2 ^ 64

/-- Modelled from the spec: the macro `PTR_PLUS_BYTES(ptr, off)` of the absent
`el_malloc.h`, the address `off` bytes above `ptr`, computed on `size_t`. -/
@[reducible]
def PTR_PLUS_BYTES (ptr off : Nat) : Nat := wadd ptr off

/-- Modelled from the spec: the macro `PTR_MINUS_BYTES(ptr, off)` of the absent
`el_malloc.h`, the address `off` bytes below `ptr`, computed on `size_t`. -/
@[reducible]
def PTR_MINUS_BYTES (ptr off : Nat) : Nat := wsub ptr off

/-- Modelled from the spec: the macro `PTR_MINUS_PTR(ptr, ptq)` of the absent
`el_malloc.h`, the distance in bytes from `ptq` up to `ptr` (used for the offsets from
the heap start that the listings print). -/
@[reducible]
def PTR_MINUS_PTR (ptr ptq : Nat) : Nat := wsub ptr ptq

/-! ## Data model -/

/-- Which of the two block lists of `el_ctl` a list pointer designates. -/
inductive el_list_id where
  | avail
  | used
  deriving DecidableEq

/-- The bookkeeping fields of an `el_blocklist_t`: the pointers to its two sentinel
nodes, its length and its byte count. -/
structure el_blocklist_t where
  beg : Nat
  end_ : Nat
  length : Nat
  bytes : Nat
  deriving DecidableEq

/-- The scalar fields of the global `el_ctl`. -/
structure el_ctl_t where
  heap_bytes : Nat
  heap_start : Nat
  heap_end : Nat
  avail : el_blocklist_t
  used : el_blocklist_t
  deriving DecidableEq

/-- Addresses of the four sentinel nodes `beg_actual` / `end_actual` embedded in
`el_ctl.avail_actual` and `el_ctl.used_actual`. -/
structure el_addrs_t where
  avail_beg_actual : Nat
  avail_end_actual : Nat
  used_beg_actual : Nat
  used_end_actual : Nat
  deriving DecidableEq

/-- The allocator state: `el_ctl` together with the typed memory. -/
structure el_state where
  ctl : el_ctl_t
  size : Nat → Nat
  state : Nat → Nat
  next : Nat → Nat
  prev : Nat → Nat
  foot : Nat → Nat

/-- Address of `list->beg_actual`. -/
def el_addrs_t.beg_actual (A : el_addrs_t) : el_list_id → Nat
  | .avail => A.avail_beg_actual
  | .used => A.used_beg_actual

/-- Address of `list->end_actual`. -/
def el_addrs_t.end_actual (A : el_addrs_t) : el_list_id → Nat
  | .avail => A.avail_end_actual
  | .used => A.used_end_actual

/-- The list record designated by a list pointer. -/
def el_state.list (s : el_state) : el_list_id → el_blocklist_t
  | .avail => s.ctl.avail
  | .used => s.ctl.used

/-- Store into the list record designated by a list pointer. -/
def el_state.set_list (s : el_state) (l : el_list_id) (L : el_blocklist_t) : el_state :=
  match l with
  | .avail => { s with ctl := { s.ctl with avail := L } }
  | .used => { s with ctl := { s.ctl with used := L } }

/-- The store `list->beg = v`. -/
def el_state.set_beg (s : el_state) (l : el_list_id) (v : Nat) : el_state :=
  s.set_list l { s.list l with beg := v }

/-- The store `list->end = v`. -/
def el_state.set_end (s : el_state) (l : el_list_id) (v : Nat) : el_state :=
  s.set_list l { s.list l with end_ := v }

/-- The store `list->length = v`. -/
def el_state.set_length (s : el_state) (l : el_list_id) (v : Nat) : el_state :=
  s.set_list l { s.list l with length := v }

/-- The store `list->bytes = v`. -/
def el_state.set_bytes (s : el_state) (l : el_list_id) (v : Nat) : el_state :=
  s.set_list l { s.list l with bytes := v }

/-- The store `p->size = v` on a header. -/
def el_state.set_size (s : el_state) (p v : Nat) : el_state :=
  { s with size := Function.update s.size p v }

/-- The store `p->state = v`. -/
def el_state.set_state (s : el_state) (p v : Nat) : el_state :=
  { s with state := Function.update s.state p v }

/-- The store `p->next = v`. -/
def el_state.set_next (s : el_state) (p v : Nat) : el_state :=
  { s with next := Function.update s.next p v }

/-- The store `p->prev = v`. -/
def el_state.set_prev (s : el_state) (p v : Nat) : el_state :=
  { s with prev := Function.update s.prev p v }

/-- The store `f->size = v` on a footer. -/
def el_state.set_foot (s : el_state) (f v : Nat) : el_state :=
  { s with foot := Function.update s.foot f v }

/-! ## Pointer arithmetic functions -/

/-- The function `el_get_footer`. -/
def el_get_footer (s : el_state) (head : Nat) : Nat :=
  let size := s.size head
  PTR_PLUS_BYTES head (wadd sizeof_head size)

/-- The function `el_get_header`. -/
def el_get_header (s : el_state) (foot : Nat) : Nat :=
  let size := s.foot foot
  PTR_MINUS_BYTES foot (wadd size sizeof_head)

/-- The function `el_block_above`. -/
def el_block_above (s : el_state) (block : Nat) : Nat :=
  let higher := PTR_PLUS_BYTES block (wadd (s.size block) EL_BLOCK_OVERHEAD)
  if higher ≥ s.ctl.heap_end then NULL else higher

/-- The function `el_block_below`. -/
def el_block_below (s : el_state) (block : Nat) : Nat :=
  let prev_foot := PTR_MINUS_BYTES block sizeof_foot
  if prev_foot < s.ctl.heap_start then NULL else el_get_header s prev_foot

/-! ## Block list operations -/

/-- The function `el_init_blocklist`; `beg_actual` and `end_actual` are the
addresses of the two sentinel nodes embedded in the list. -/
def el_init_blocklist (A : el_addrs_t) (s : el_state) (list : el_list_id) : el_state :=
  -- list->beg = &(list->beg_actual);
  let s := s.set_beg list (A.beg_actual list)
  -- list->beg->state = EL_BEGIN_BLOCK;  list->beg->size = EL_UNINITIALIZED;
  let s := s.set_state (s.list list).beg EL_BEGIN_BLOCK
  let s := s.set_size (s.list list).beg EL_UNINITIALIZED
  -- list->end = &(list->end_actual);
  let s := s.set_end list (A.end_actual list)
  -- list->end->state = EL_END_BLOCK;  list->end->size = EL_UNINITIALIZED;
  let s := s.set_state (s.list list).end_ EL_END_BLOCK
  let s := s.set_size (s.list list).end_ EL_UNINITIALIZED
  -- list->beg->next = list->end;  list->beg->prev = NULL;
  let s := s.set_next (s.list list).beg (s.list list).end_
  let s := s.set_prev (s.list list).beg NULL
  -- list->end->next = NULL;  list->end->prev = list->beg;
  let s := s.set_next (s.list list).end_ NULL
  let s := s.set_prev (s.list list).end_ (s.list list).beg
  -- list->length = 0;  list->bytes = 0;
  let s := s.set_length list 0
  s.set_bytes list 0

/-- The function `el_add_block_front`. -/
def el_add_block_front (s : el_state) (list : el_list_id) (block : Nat) : el_state :=
  -- block->prev = list->beg;
  let s := s.set_prev block (s.list list).beg
  -- block->next = list->beg->next;
  let s := s.set_next block (s.next (s.list list).beg)
  -- block->prev->next = block;
  let s := s.set_next (s.prev block) block
  -- block->next->prev = block;
  let s := s.set_prev (s.next block) block
  -- list->length += 1;
  let s := s.set_length list (wadd (s.list list).length 1)
  -- list->bytes += (EL_BLOCK_OVERHEAD + block->size);
  s.set_bytes list (wadd (s.list list).bytes (wadd EL_BLOCK_OVERHEAD (s.size block)))

/-- The function `el_remove_block`. -/
def el_remove_block (s : el_state) (list : el_list_id) (block : Nat) : el_state :=
  -- block->prev->next = block->next;
  let s := s.set_next (s.prev block) (s.next block)
  -- block->next->prev = block->prev;
  let s := s.set_prev (s.next block) (s.prev block)
  -- list->length -= 1;
  let s := s.set_length list (wsub (s.list list).length 1)
  -- list->bytes -= (EL_BLOCK_OVERHEAD + block->size);
  s.set_bytes list (wsub (s.list list).bytes (wadd EL_BLOCK_OVERHEAD (s.size block)))

/-! ## Global control functions -/

/-- The function `el_init`.  `heap` is the address returned by the successful
`malloc(max_bytes)`; the result pairs the new state with the returned status. -/
def el_init (A : el_addrs_t) (heap : Nat) (s : el_state) (max_bytes : Nat) : el_state × Nat :=
  -- el_ctl.heap_bytes = max_bytes; heap_start = heap; heap_end = PTR_PLUS_BYTES(heap,max_bytes);
  let s := { s with ctl := { s.ctl with heap_bytes := max_bytes } }
  let s := { s with ctl := { s.ctl with heap_start := heap } }
  let s := { s with ctl := { s.ctl with heap_end := PTR_PLUS_BYTES heap max_bytes } }
  if s.ctl.heap_bytes < EL_BLOCK_OVERHEAD then (s, 1)
  else
    let s := el_init_blocklist A s .avail
    let s := el_init_blocklist A s .used
    -- size_t size = el_ctl.heap_bytes - EL_BLOCK_OVERHEAD;
    let size := wsub s.ctl.heap_bytes EL_BLOCK_OVERHEAD
    let ablock := s.ctl.heap_start
    let s := s.set_size ablock size
    let s := s.set_state ablock EL_AVAILABLE
    let afoot := el_get_footer s ablock
    let s := s.set_foot afoot size
    let s := el_add_block_front s .avail ablock
    (s, 0)

/-! ## Allocation -/

/-- The loop of `el_find_first_avail`: `fuel` iterations remain, `start` is the
current node and `size` the requested size. -/
def el_find_first_avail_loop (s : el_state) (size : Nat) : Nat → Nat → Nat
  | 0, _ => NULL
  | fuel + 1, start =>
    if s.size start ≥ wadd size EL_BLOCK_OVERHEAD then start
    else el_find_first_avail_loop s size fuel (s.next start)

/-- The function `el_find_first_avail`. -/
def el_find_first_avail (s : el_state) (size : Nat) : Nat :=
  let total_avail := s.ctl.avail.length
  let start := s.next s.ctl.avail.beg
  el_find_first_avail_loop s size total_avail start

/-- The function `el_split_block`; returns the new state and the new block. -/
def el_split_block (s : el_state) (block new_size : Nat) : el_state × Nat :=
  if s.size block < wadd new_size EL_BLOCK_OVERHEAD ∨ block = NULL then (s, NULL)
  else
    let size := s.size block
    let split_foot := el_get_footer s block
    let new_head := PTR_PLUS_BYTES block (wadd (wadd new_size sizeof_foot) sizeof_head)
    let new_foot := PTR_PLUS_BYTES block (wadd new_size sizeof_head)
    -- block->size = new_size;  new_foot->size = new_size;
    let s := s.set_size block new_size
    let s := s.set_foot new_foot new_size
    -- new_head->size = size - new_size - EL_BLOCK_OVERHEAD;  split_foot->size = (same)
    let s := s.set_size new_head (wsub (wsub size new_size) EL_BLOCK_OVERHEAD)
    let s := s.set_foot split_foot (wsub (wsub size new_size) EL_BLOCK_OVERHEAD)
    (s, new_head)

/-- The function `el_malloc`; returns the new state and the returned pointer. -/
def el_malloc (s : el_state) (nbytes : Nat) : el_state × Nat :=
  let first := el_find_first_avail s nbytes
  if first = NULL then (s, NULL)
  else
    let s := el_remove_block s .avail first
    let r := el_split_block s first nbytes
    let s := r.1
    let second := r.2
    let s := el_add_block_front s .used first
    let s := s.set_state first EL_USED
    let s := el_add_block_front s .avail second
    let s := s.set_state second EL_AVAILABLE
    (s, PTR_PLUS_BYTES first sizeof_head)

/-! ## De-allocation -/

/-- The function `el_merge_block_with_above`. -/
def el_merge_block_with_above (s : el_state) (lower : Nat) : el_state :=
  let above := el_block_above s lower
  if lower = NULL ∨ s.state lower ≠ EL_AVAILABLE ∨ above = NULL ∨ s.state above ≠ EL_AVAILABLE
  then s
  else
    let size_lower := s.size lower
    let size_above := s.size above
    let total := wadd size_lower size_above
    let above_foot := el_get_footer s above
    let s := el_remove_block s .avail above
    let s := el_remove_block s .avail lower
    let s := s.set_size lower (wadd total EL_BLOCK_OVERHEAD)
    let s := s.set_foot above_foot (wadd total EL_BLOCK_OVERHEAD)
    el_add_block_front s .avail lower

/-- The function `el_free`. -/
def el_free (s : el_state) (ptr : Nat) : el_state :=
  let header_to_free := PTR_MINUS_BYTES ptr sizeof_head
  if s.state header_to_free = EL_AVAILABLE then s
  else
    let before := el_block_below s header_to_free
    let s := el_remove_block s .used header_to_free
    let s := s.set_state header_to_free EL_AVAILABLE
    let s := el_add_block_front s .avail header_to_free
    let s := el_merge_block_with_above s header_to_free
    if before ≠ NULL then el_merge_block_with_above s before else s

/-! ## Diagnostic traversal -/

/-- One line of `el_print_blocklist`: header offset, state, size, footer offset and
footer size of a block (offsets are `PTR_MINUS_PTR` from `heap_start`). -/
structure el_entry where
  head_off : Nat
  state : Nat
  size : Nat
  foot_off : Nat
  foot_size : Nat
  deriving DecidableEq

/-- The loop of `el_print_blocklist`: the lines printed for `fuel` further nodes
after `block`. -/
def el_print_blocklist_loop (s : el_state) : Nat → Nat → List el_entry
  | 0, _ => []
  | fuel + 1, block =>
    let block := s.next block
    let foot := el_get_footer s block
    { head_off := PTR_MINUS_PTR block s.ctl.heap_start, state := s.state block,
      size := s.size block, foot_off := PTR_MINUS_PTR foot s.ctl.heap_start,
      foot_size := s.foot foot }
      :: el_print_blocklist_loop s fuel block

/-- The block lines printed by `el_print_blocklist` for a list, in list order (the
heading line before them shows `length` and `bytes`). -/
def el_print_blocklist (s : el_state) (list : el_list_id) : List el_entry :=
  el_print_blocklist_loop s (s.list list).length (s.list list).beg

/-- The loop of `el_print_blocklist`, keeping only the visited node addresses. -/
def el_members_loop (s : el_state) : Nat → Nat → List Nat
  | 0, _ => []
  | fuel + 1, block => s.next block :: el_members_loop s fuel (s.next block)

/-- The member nodes of a list, as `el_print_blocklist` visits them: the
`length` nodes that follow the begin sentinel. -/
def el_members (s : el_state) (list : el_list_id) : List Nat :=
  el_members_loop s (s.list list).length (s.list list).beg

/-! # Invariants and reachable states -/

/-- A doubly linked chain: following `next` from `p` visits exactly the nodes `xs`
and then reaches `e`, and `prev` leads back. -/
def el_chain (s : el_state) : Nat → List Nat → Nat → Prop
  | p, [], e => s.next p = e ∧ s.prev e = p
  | p, x :: xs, e => s.next p = x ∧ s.prev x = p ∧ el_chain s x xs e

/-- The byte count a list records for the members `xs`: overhead plus size of each. -/
def el_bytes_of (s : el_state) (xs : List Nat) : Nat :=
  (xs.map (fun b => EL_BLOCK_OVERHEAD + s.size b)).sum

/-- A well-formed block list with members `xs` (front to back): the sentinels and
the members are pairwise distinct nodes, doubly linked from `beg` to `end`, no member
is the null pointer, and `length` / `bytes` account for the members. -/
structure el_list_wf (s : el_state) (l : el_list_id) (xs : List Nat) : Prop where
  chain : el_chain s (s.list l).beg xs (s.list l).end_
  nodup : ((s.list l).beg :: xs ++ [(s.list l).end_]).Nodup
  nonnull : ∀ b ∈ xs, b ≠ NULL
  length_eq : (s.list l).length = xs.length
  bytes_eq : (s.list l).bytes = el_bytes_of s xs

/-- Physical layout: the blocks `bs`, in address order, tile the byte range from `a`
to `e` exactly; each block's footer mirrors the size in its header. -/
def el_tiles (s : el_state) : Nat → List Nat → Nat → Prop
  | a, [], e => a = e
  | a, b :: bs, e =>
    b = a ∧ s.foot (b + sizeof_head + s.size b) = s.size b ∧
      el_tiles s (b + EL_BLOCK_OVERHEAD + s.size b) bs e

/-- What is assumed of the environment: the heap returned by `malloc` lies inside
the address space, above the first eight bytes, and the four sentinel nodes of
`el_ctl` are distinct objects outside the heap. -/
structure el_env_ok (A : el_addrs_t) (heap C : Nat) : Prop where
  heap_low : sizeof_foot ≤ heap
  heap_high : heap + C < 2 ^ 64
  sentinels_nodup :
    [A.avail_beg_actual, A.avail_end_actual, A.used_beg_actual, A.used_end_actual].Nodup
  sentinels_outside : ∀ x ∈
    [A.avail_beg_actual, A.avail_end_actual, A.used_beg_actual, A.used_end_actual],
    x < heap ∨ heap + C ≤ x

/-- The structural part of the allocator invariant.  `bs` are the blocks in address
order, `av` and `us` the members of the available and the used list in list order,
and `ds` the blocks that are momentarily in neither list (in the middle of an
operation). -/
structure el_wf (A : el_addrs_t) (heap C : Nat) (s : el_state)
    (bs av us ds : List Nat) : Prop where
  env : el_env_ok A heap C
  heap_start : s.ctl.heap_start = heap
  heap_end : s.ctl.heap_end = heap + C
  heap_bytes : s.ctl.heap_bytes = C
  avail_beg : s.ctl.avail.beg = A.avail_beg_actual
  avail_end : s.ctl.avail.end_ = A.avail_end_actual
  used_beg : s.ctl.used.beg = A.used_beg_actual
  used_end : s.ctl.used.end_ = A.used_end_actual
  tiles : el_tiles s heap bs (heap + C)
  perm : (ds ++ (av ++ us)).Perm bs
  avail_chain : el_chain s A.avail_beg_actual av A.avail_end_actual
  used_chain : el_chain s A.used_beg_actual us A.used_end_actual
  avail_length : s.ctl.avail.length = av.length
  used_length : s.ctl.used.length = us.length
  avail_bytes : s.ctl.avail.bytes = el_bytes_of s av
  used_bytes : s.ctl.used.bytes = el_bytes_of s us

/-- The allocator invariant between operations: every block is a member of exactly
one list, and its state flag says which. -/
structure el_inv (A : el_addrs_t) (heap C : Nat) (s : el_state)
    (bs av us : List Nat) : Prop where
  wf : el_wf A heap C s bs av us []
  avail_state : ∀ b ∈ av, s.state b = EL_AVAILABLE
  used_state : ∀ b ∈ us, s.state b = EL_USED

/-- States reachable from a successful `el_init` of a heap of `C` bytes at address
`heap` by calls `el_malloc(n)` whose request does not wrap (`n + OVERHEAD < 2^64`) and
calls `el_free(p)` on live pointers; the list holds the live pointers, those
returned by `el_malloc` and not freed since. -/
inductive el_reach (A : el_addrs_t) (heap C : Nat) : el_state → List Nat → Prop
  | init (s0 : el_state) (h : (el_init A heap s0 C).2 = 0) :
      el_reach A heap C (el_init A heap s0 C).1 []
  | malloc (s : el_state) (live : List Nat) (n : Nat) (h : el_reach A heap C s live)
      (hn : n + EL_BLOCK_OVERHEAD < 2 ^ 64) :
      el_reach A heap C (el_malloc s n).1
        (if (el_malloc s n).2 = NULL then live else (el_malloc s n).2 :: live)
  | free (s : el_state) (live : List Nat) (p : Nat) (h : el_reach A heap C s live)
      (hp : p ∈ live) :
      el_reach A heap C (el_free s p) (live.erase p)

/-- No two blocks that are neighbours in the address order `bs` are both Available. -/
def el_no_adjacent (s : el_state) (bs : List Nat) : Prop :=
  bs.Chain' (fun l a => ¬ (s.state l = EL_AVAILABLE ∧ s.state a = EL_AVAILABLE))

/-- The state of `el_free` after the block has moved to the available list and
before the two merge attempts. -/
def el_free_moved (s : el_state) (h : Nat) : el_state :=
  el_add_block_front ((el_remove_block s .used h).set_state h EL_AVAILABLE) .avail h

/-- The state of `el_init` after the heap bounds are stored and both lists are
initialised, before the first block is written. -/
def el_init_lists (A : el_addrs_t) (heap : Nat) (s : el_state) (max_bytes : Nat) : el_state :=
  el_init_blocklist A (el_init_blocklist A
    { s with ctl := { s.ctl with heap_bytes := max_bytes, heap_start := heap,
                                 heap_end := PTR_PLUS_BYTES heap max_bytes } } .avail) .used

/-- The line `el_print_blocklist` prints for the block `b`. -/
def el_entry_of (s : el_state) (b : Nat) : el_entry :=
  { head_off := PTR_MINUS_PTR b s.ctl.heap_start, state := s.state b, size := s.size b,
    foot_off := PTR_MINUS_PTR (el_get_footer s b) s.ctl.heap_start,
    foot_size := s.foot (el_get_footer s b) }

/-! ## A concrete machine for worked traces -/

/-- Sentinel addresses of a concrete `el_ctl`: four 32-byte nodes below the heap. -/
def demo_addrs : el_addrs_t := ⟨16, 48, 80, 112⟩

/-- A machine before `el_init`: `el_ctl` zero-initialised, memory all zero. -/
def demo_boot : el_state :=
  ⟨⟨0, 0, 0, ⟨0, 0, 0, 0⟩, ⟨0, 0, 0, 0⟩⟩, fun _ => 0, fun _ => 0, fun _ => 0, fun _ => 0,
    fun _ => 0⟩

/-- The state after `el_init(1024)` with the heap at address 4096. -/
def demo_init : el_state := (el_init demo_addrs 4096 demo_boot 1024).1

/-- The request `SIZE_MAX - 39`, for which `n + EL_BLOCK_OVERHEAD` wraps to 0. -/
def demo_wrap : Nat := 2 ^ 64 - 40

/-- Trace: `el_init(1024); p1 = el_malloc(100)`. -/
def demo_first : el_state × Nat := el_malloc demo_init 100

/-- Trace: `... ; q = el_malloc(SIZE_MAX - 39)` after `demo_first`. -/
def demo_second : el_state × Nat := el_malloc demo_first.1 demo_wrap

/-- Trace: `... ; r = el_malloc(50)` after `demo_second`. -/
def demo_third : el_state × Nat := el_malloc demo_second.1 50

/-- Trace: `... ; el_free(p1)` after `demo_third`. -/
def demo_fourth : el_state := el_free demo_third.1 demo_first.2

/-- Trace: `... ; el_free(r)` after `demo_fourth`. -/
def demo_fifth : el_state := el_free demo_fourth demo_third.2

/-- Trace: `el_init(1024); p1 = el_malloc(100); p2 = el_malloc(200)`. -/
def demo_pair : el_state × Nat := el_malloc demo_first.1 200

/-- Trace: `... ; el_free(p1)` after `demo_pair`: the block of `p2` lies between two
available blocks. -/
def demo_hole : el_state := el_free demo_pair.1 demo_first.2

/-- The state inside `el_free(p1)` on `demo_first`, after the block has moved to the
available list and before the merge attempts: two adjacent available blocks. -/
def demo_moved : el_state := el_free_moved demo_first.1 4096

/-- The state after `k` calls `el_malloc(n)` in a row, starting from `s`. -/
def el_malloc_repeat (s : el_state) (n : Nat) : Nat → el_state
  | 0 => s
  | k + 1 => (el_malloc (el_malloc_repeat s n k) n).1

/-- The round trip `el_init(C); p = el_malloc(n); el_free(p)`. -/
def el_round_trip (A : el_addrs_t) (heap : Nat) (s : el_state) (C n : Nat) : el_state :=
  el_free (el_malloc (el_init A heap s C).1 n).1 (el_malloc (el_init A heap s C).1 n).2

/-! # The same code over byte-addressed memory

The typed memory above cannot show a store to one object changing a field of another.
That happens on the machine once a wrapping request has made `el_split_block` place a
footer inside a header.  The definitions of this section repeat the functions of
`el_malloc.c` statement by statement over a memory of bytes, in which every header and
footer access is a load or store of bytes at the address of the field, so overlapping
objects share their bytes.  The record `el_ctl` stays a record: the stores of the code
go through header and footer pointers, which in the trace studied below point into the
heap or at the four sentinel nodes. -/

namespace Flat

/-- Modelled from the spec: `el_malloc.h` is not among the sources.  Offset of the field
`size` in an `el_blockhead_t`.  The code uses four fields of a header, `size` (a
`size_t`), `state` (a character), `next` and `prev` (pointers); they are laid out in this
order, each `size_t` and pointer on an 8-byte boundary, which fills the 32 bytes of
`sizeof_head`. -/
def off_size : Nat := 0

/-- Modelled from the spec: offset of the one-byte field `state` in an
`el_blockhead_t` (`el_malloc.h` is absent). -/
def off_state : Nat := 8

/-- Modelled from the spec: offset of the field `next` in an `el_blockhead_t`
(`el_malloc.h` is absent). -/
def off_next : Nat := 16

/-- Modelled from the spec: offset of the field `prev` in an `el_blockhead_t`
(`el_malloc.h` is absent). -/
def off_prev : Nat := 24

/-- Load of one byte. -/
def load8 (m : Nat → Nat) (a : Nat) : Nat := m a

/-- Store of one byte (the value is truncated to a byte). -/
def store8 (m : Nat → Nat) (a v : Nat) : Nat → Nat :=
  fun x => if x = a then v % 256 else m x

/-- Load of a 64-bit little-endian word from the eight bytes at `a`. -/
def load64 (m : Nat → Nat) (a : Nat) : Nat :=
  m a + 256 * (m (wadd a 1) + 256 * (m (wadd a 2) + 256 * (m (wadd a 3) +
    256 * (m (wadd a 4) + 256 * (m (wadd a 5) + 256 * (m (wadd a 6) +
    256 * m (wadd a 7)))))))

/-- Store of a 64-bit little-endian word into the eight bytes at `a`: the byte at
distance `i < 8` above `a` receives digit `i` of `v` in base 256. -/
def store64 (m : Nat → Nat) (a v : Nat) : Nat → Nat :=
  fun x => if wsub x a < 8 then v / 256 ^ wsub x a % 256 else m x

/-- The allocator state on the machine: `el_ctl` together with the bytes of memory. -/
structure el_machine where
  ctl : el_ctl_t
  mem : Nat → Nat

/-- The list record designated by a list pointer. -/
def el_machine.list (s : el_machine) : el_list_id → el_blocklist_t
  | .avail => s.ctl.avail
  | .used => s.ctl.used

/-- Store into the list record designated by a list pointer. -/
def el_machine.set_list (s : el_machine) (l : el_list_id) (L : el_blocklist_t) : el_machine :=
  match l with
  | .avail => { s with ctl := { s.ctl with avail := L } }
  | .used => { s with ctl := { s.ctl with used := L } }

/-- The store `list->beg = v`. -/
def el_machine.set_beg (s : el_machine) (l : el_list_id) (v : Nat) : el_machine :=
  s.set_list l { s.list l with beg := v }

/-- The store `list->end = v`. -/
def el_machine.set_end (s : el_machine) (l : el_list_id) (v : Nat) : el_machine :=
  s.set_list l { s.list l with end_ := v }

/-- The store `list->length = v`. -/
def el_machine.set_length (s : el_machine) (l : el_list_id) (v : Nat) : el_machine :=
  s.set_list l { s.list l with length := v }

/-- The store `list->bytes = v`. -/
def el_machine.set_bytes (s : el_machine) (l : el_list_id) (v : Nat) : el_machine :=
  s.set_list l { s.list l with bytes := v }

/-- The load `p->size` from a header. -/
def el_machine.size (s : el_machine) (p : Nat) : Nat :=
  load64 s.mem (PTR_PLUS_BYTES p off_size)

/-- The load `p->state`. -/
def el_machine.state (s : el_machine) (p : Nat) : Nat :=
  load8 s.mem (PTR_PLUS_BYTES p off_state)

/-- The load `p->next`. -/
def el_machine.next (s : el_machine) (p : Nat) : Nat :=
  load64 s.mem (PTR_PLUS_BYTES p off_next)

/-- The load `p->prev`. -/
def el_machine.prev (s : el_machine) (p : Nat) : Nat :=
  load64 s.mem (PTR_PLUS_BYTES p off_prev)

/-- The load `f->size` from a footer, whose only field is at offset 0. -/
def el_machine.foot (s : el_machine) (f : Nat) : Nat :=
  load64 s.mem f

/-- The store `p->size = v` on a header. -/
def el_machine.set_size (s : el_machine) (p v : Nat) : el_machine :=
  { s with mem := store64 s.mem (PTR_PLUS_BYTES p off_size) v }

/-- The store `p->state = v`. -/
def el_machine.set_state (s : el_machine) (p v : Nat) : el_machine :=
  { s with mem := store8 s.mem (PTR_PLUS_BYTES p off_state) v }

/-- The store `p->next = v`. -/
def el_machine.set_next (s : el_machine) (p v : Nat) : el_machine :=
  { s with mem := store64 s.mem (PTR_PLUS_BYTES p off_next) v }

/-- The store `p->prev = v`. -/
def el_machine.set_prev (s : el_machine) (p v : Nat) : el_machine :=
  { s with mem := store64 s.mem (PTR_PLUS_BYTES p off_prev) v }

/-- The store `f->size = v` on a footer. -/
def el_machine.set_foot (s : el_machine) (f v : Nat) : el_machine :=
  { s with mem := store64 s.mem f v }

/-! ## Pointer arithmetic functions -/

/-- The function `el_get_footer`. -/
def el_get_footer (s : el_machine) (head : Nat) : Nat :=
  let size := s.size head
  PTR_PLUS_BYTES head (wadd sizeof_head size)

/-- The function `el_get_header`. -/
def el_get_header (s : el_machine) (foot : Nat) : Nat :=
  let size := s.foot foot
  PTR_MINUS_BYTES foot (wadd size sizeof_head)

/-- The function `el_block_above`. -/
def el_block_above (s : el_machine) (block : Nat) : Nat :=
  let higher := PTR_PLUS_BYTES block (wadd (s.size block) EL_BLOCK_OVERHEAD)
  if higher ≥ s.ctl.heap_end then NULL else higher

/-- The function `el_block_below`. -/
def el_block_below (s : el_machine) (block : Nat) : Nat :=
  let prev_foot := PTR_MINUS_BYTES block sizeof_foot
  if prev_foot < s.ctl.heap_start then NULL else el_get_header s prev_foot

/-! ## Block list operations -/

/-- The function `el_init_blocklist`; `beg_actual` and `end_actual` are the
addresses of the two sentinel nodes embedded in the list. -/
def el_init_blocklist (A : el_addrs_t) (s : el_machine) (list : el_list_id) : el_machine :=
  -- list->beg = &(list->beg_actual);
  let s := s.set_beg list (A.beg_actual list)
  -- list->beg->state = EL_BEGIN_BLOCK;  list->beg->size = EL_UNINITIALIZED;
  let s := s.set_state (s.list list).beg EL_BEGIN_BLOCK
  let s := s.set_size (s.list list).beg EL_UNINITIALIZED
  -- list->end = &(list->end_actual);
  let s := s.set_end list (A.end_actual list)
  -- list->end->state = EL_END_BLOCK;  list->end->size = EL_UNINITIALIZED;
  let s := s.set_state (s.list list).end_ EL_END_BLOCK
  let s := s.set_size (s.list list).end_ EL_UNINITIALIZED
  -- list->beg->next = list->end;  list->beg->prev = NULL;
  let s := s.set_next (s.list list).beg (s.list list).end_
  let s := s.set_prev (s.list list).beg NULL
  -- list->end->next = NULL;  list->end->prev = list->beg;
  let s := s.set_next (s.list list).end_ NULL
  let s := s.set_prev (s.list list).end_ (s.list list).beg
  -- list->length = 0;  list->bytes = 0;
  let s := s.set_length list 0
  s.set_bytes list 0

/-- The function `el_add_block_front`. -/
def el_add_block_front (s : el_machine) (list : el_list_id) (block : Nat) : el_machine :=
  -- block->prev = list->beg;
  let s := s.set_prev block (s.list list).beg
  -- block->next = list->beg->next;
  let s := s.set_next block (s.next (s.list list).beg)
  -- block->prev->next = block;
  let s := s.set_next (s.prev block) block
  -- block->next->prev = block;
  let s := s.set_prev (s.next block) block
  -- list->length += 1;
  let s := s.set_length list (wadd (s.list list).length 1)
  -- list->bytes += (EL_BLOCK_OVERHEAD + block->size);
  s.set_bytes list (wadd (s.list list).bytes (wadd EL_BLOCK_OVERHEAD (s.size block)))

/-- The function `el_remove_block`. -/
def el_remove_block (s : el_machine) (list : el_list_id) (block : Nat) : el_machine :=
  -- block->prev->next = block->next;
  let s := s.set_next (s.prev block) (s.next block)
  -- block->next->prev = block->prev;
  let s := s.set_prev (s.next block) (s.prev block)
  -- list->length -= 1;
  let s := s.set_length list (wsub (s.list list).length 1)
  -- list->bytes -= (EL_BLOCK_OVERHEAD + block->size);
  s.set_bytes list (wsub (s.list list).bytes (wadd EL_BLOCK_OVERHEAD (s.size block)))

/-! ## Global control functions -/

/-- The function `el_init`.  `heap` is the address returned by the successful
`malloc(max_bytes)`; the result pairs the new state with the returned status. -/
def el_init (A : el_addrs_t) (heap : Nat) (s : el_machine) (max_bytes : Nat) : el_machine × Nat :=
  -- el_ctl.heap_bytes = max_bytes; heap_start = heap; heap_end = PTR_PLUS_BYTES(heap,max_bytes);
  let s := { s with ctl := { s.ctl with heap_bytes := max_bytes } }
  let s := { s with ctl := { s.ctl with heap_start := heap } }
  let s := { s with ctl := { s.ctl with heap_end := PTR_PLUS_BYTES heap max_bytes } }
  if s.ctl.heap_bytes < EL_BLOCK_OVERHEAD then (s, 1)
  else
    let s := el_init_blocklist A s .avail
    let s := el_init_blocklist A s .used
    -- size_t size = el_ctl.heap_bytes - EL_BLOCK_OVERHEAD;
    let size := wsub s.ctl.heap_bytes EL_BLOCK_OVERHEAD
    let ablock := s.ctl.heap_start
    let s := s.set_size ablock size
    let s := s.set_state ablock EL_AVAILABLE
    let afoot := el_get_footer s ablock
    let s := s.set_foot afoot size
    let s := el_add_block_front s .avail ablock
    (s, 0)

/-! ## Allocation -/

/-- The loop of `el_find_first_avail`: `fuel` iterations remain, `start` is the
current node and `size` the requested size. -/
def el_find_first_avail_loop (s : el_machine) (size : Nat) : Nat → Nat → Nat
  | 0, _ => NULL
  | fuel + 1, start =>
    if s.size start ≥ wadd size EL_BLOCK_OVERHEAD then start
    else el_find_first_avail_loop s size fuel (s.next start)

/-- The function `el_find_first_avail`. -/
def el_find_first_avail (s : el_machine) (size : Nat) : Nat :=
  let total_avail := s.ctl.avail.length
  let start := s.next s.ctl.avail.beg
  el_find_first_avail_loop s size total_avail start

/-- The function `el_split_block`; returns the new state and the new block. -/
def el_split_block (s : el_machine) (block new_size : Nat) : el_machine × Nat :=
  if s.size block < wadd new_size EL_BLOCK_OVERHEAD ∨ block = NULL then (s, NULL)
  else
    let size := s.size block
    let split_foot := el_get_footer s block
    let new_head := PTR_PLUS_BYTES block (wadd (wadd new_size sizeof_foot) sizeof_head)
    let new_foot := PTR_PLUS_BYTES block (wadd new_size sizeof_head)
    -- block->size = new_size;  new_foot->size = new_size;
    let s := s.set_size block new_size
    let s := s.set_foot new_foot new_size
    -- new_head->size = size - new_size - EL_BLOCK_OVERHEAD;  split_foot->size = (same)
    let s := s.set_size new_head (wsub (wsub size new_size) EL_BLOCK_OVERHEAD)
    let s := s.set_foot split_foot (wsub (wsub size new_size) EL_BLOCK_OVERHEAD)
    (s, new_head)

/-- The function `el_malloc`; returns the new state and the returned pointer. -/
def el_malloc (s : el_machine) (nbytes : Nat) : el_machine × Nat :=
  let first := el_find_first_avail s nbytes
  if first = NULL then (s, NULL)
  else
    let s := el_remove_block s .avail first
    let r := el_split_block s first nbytes
    let s := r.1
    let second := r.2
    let s := el_add_block_front s .used first
    let s := s.set_state first EL_USED
    let s := el_add_block_front s .avail second
    let s := s.set_state second EL_AVAILABLE
    (s, PTR_PLUS_BYTES first sizeof_head)

/-! ## De-allocation -/

/-- The function `el_merge_block_with_above`. -/
def el_merge_block_with_above (s : el_machine) (lower : Nat) : el_machine :=
  let above := el_block_above s lower
  if lower = NULL ∨ s.state lower ≠ EL_AVAILABLE ∨ above = NULL ∨ s.state above ≠ EL_AVAILABLE
  then s
  else
    let size_lower := s.size lower
    let size_above := s.size above
    let total := wadd size_lower size_above
    let above_foot := el_get_footer s above
    let s := el_remove_block s .avail above
    let s := el_remove_block s .avail lower
    let s := s.set_size lower (wadd total EL_BLOCK_OVERHEAD)
    let s := s.set_foot above_foot (wadd total EL_BLOCK_OVERHEAD)
    el_add_block_front s .avail lower

/-- The function `el_free`. -/
def el_free (s : el_machine) (ptr : Nat) : el_machine :=
  let header_to_free := PTR_MINUS_BYTES ptr sizeof_head
  if s.state header_to_free = EL_AVAILABLE then s
  else
    let before := el_block_below s header_to_free
    let s := el_remove_block s .used header_to_free
    let s := s.set_state header_to_free EL_AVAILABLE
    let s := el_add_block_front s .avail header_to_free
    let s := el_merge_block_with_above s header_to_free
    if before ≠ NULL then el_merge_block_with_above s before else s

/-- The loop of `el_print_blocklist`, keeping only the visited node addresses. -/
def el_members_loop (s : el_machine) : Nat → Nat → List Nat
  | 0, _ => []
  | fuel + 1, block => s.next block :: el_members_loop s fuel (s.next block)

/-- The member nodes of a list, as `el_print_blocklist` visits them: the
`length` nodes that follow the begin sentinel. -/
def el_members (s : el_machine) (list : el_list_id) : List Nat :=
  el_members_loop s (s.list list).length (s.list list).beg

/-! ### A trace in which a footer is stored inside a header -/

/-- A machine before `el_init`: `el_ctl` zero-initialised, every byte zero. -/
def trace_boot : el_machine := ⟨⟨0, 0, 0, ⟨0, 0, 0, 0⟩, ⟨0, 0, 0, 0⟩⟩, fun _ => 0⟩

/-- The state after `el_init(1024)` with the heap at address 4096 and the sentinel
nodes at 16, 48, 80 and 112. -/
def trace_init : el_machine := (el_init demo_addrs 4096 trace_boot 1024).1

/-- Trace: `el_init(1024); p0 = el_malloc(100)`. -/
def trace_first : el_machine × Nat := el_malloc trace_init 100

/-- Trace: `... ; p1 = el_malloc(SIZE_MAX - 23)` after `trace_first`; the sum
`size + EL_BLOCK_OVERHEAD` wraps to 16. -/
def trace_second : el_machine × Nat := el_malloc trace_first.1 (2 ^ 64 - 24)

/-- Trace: `... ; el_free(p0)` after `trace_second`. -/
def trace_third : el_machine := el_free trace_second.1 trace_first.2

/-- Trace: `... ; el_free(p1)` after `trace_third`. -/
def trace_fourth : el_machine := el_free trace_third trace_second.2

/-- Trace: `... ; el_free(p1)` once more after `trace_fourth`. -/
def trace_fifth : el_machine := el_free trace_fourth trace_second.2

end Flat

/-! # Theorems -/

/-! ## Reading the memory after a store -/

@[simp] theorem set_size_proj (s : el_state) (p v : Nat) :
    (s.set_size p v).size = Function.update s.size p v ∧ (s.set_size p v).state = s.state ∧
    (s.set_size p v).next = s.next ∧ (s.set_size p v).prev = s.prev ∧
    (s.set_size p v).foot = s.foot ∧ (s.set_size p v).ctl = s.ctl :=
  ⟨rfl, rfl, rfl, rfl, rfl, rfl⟩

@[simp] theorem set_state_proj (s : el_state) (p v : Nat) :
    (s.set_state p v).size = s.size ∧ (s.set_state p v).state = Function.update s.state p v ∧
    (s.set_state p v).next = s.next ∧ (s.set_state p v).prev = s.prev ∧
    (s.set_state p v).foot = s.foot ∧ (s.set_state p v).ctl = s.ctl :=
  ⟨rfl, rfl, rfl, rfl, rfl, rfl⟩

@[simp] theorem set_next_proj (s : el_state) (p v : Nat) :
    (s.set_next p v).size = s.size ∧ (s.set_next p v).state = s.state ∧
    (s.set_next p v).next = Function.update s.next p v ∧ (s.set_next p v).prev = s.prev ∧
    (s.set_next p v).foot = s.foot ∧ (s.set_next p v).ctl = s.ctl :=
  ⟨rfl, rfl, rfl, rfl, rfl, rfl⟩

@[simp] theorem set_prev_proj (s : el_state) (p v : Nat) :
    (s.set_prev p v).size = s.size ∧ (s.set_prev p v).state = s.state ∧
    (s.set_prev p v).next = s.next ∧ (s.set_prev p v).prev = Function.update s.prev p v ∧
    (s.set_prev p v).foot = s.foot ∧ (s.set_prev p v).ctl = s.ctl :=
  ⟨rfl, rfl, rfl, rfl, rfl, rfl⟩

@[simp] theorem set_foot_proj (s : el_state) (p v : Nat) :
    (s.set_foot p v).size = s.size ∧ (s.set_foot p v).state = s.state ∧
    (s.set_foot p v).next = s.next ∧ (s.set_foot p v).prev = s.prev ∧
    (s.set_foot p v).foot = Function.update s.foot p v ∧ (s.set_foot p v).ctl = s.ctl :=
  ⟨rfl, rfl, rfl, rfl, rfl, rfl⟩

@[simp] theorem set_list_proj (s : el_state) (l : el_list_id) (L : el_blocklist_t) :
    (s.set_list l L).size = s.size ∧ (s.set_list l L).state = s.state ∧
    (s.set_list l L).next = s.next ∧ (s.set_list l L).prev = s.prev ∧
    (s.set_list l L).foot = s.foot ∧ (s.set_list l L).ctl.heap_start = s.ctl.heap_start ∧
    (s.set_list l L).ctl.heap_end = s.ctl.heap_end ∧
    (s.set_list l L).ctl.heap_bytes = s.ctl.heap_bytes := by
  cases l <;> exact ⟨rfl, rfl, rfl, rfl, rfl, rfl, rfl, rfl⟩

@[simp] theorem set_list_list (s : el_state) (L : el_blocklist_t) :
    (s.set_list .avail L).ctl.avail = L ∧ (s.set_list .avail L).ctl.used = s.ctl.used ∧
    (s.set_list .used L).ctl.used = L ∧ (s.set_list .used L).ctl.avail = s.ctl.avail :=
  ⟨rfl, rfl, rfl, rfl⟩

@[simp] theorem set_length_proj (s : el_state) (l : el_list_id) (v : Nat) :
    (s.set_length l v).size = s.size ∧ (s.set_length l v).state = s.state ∧
    (s.set_length l v).next = s.next ∧ (s.set_length l v).prev = s.prev ∧
    (s.set_length l v).foot = s.foot ∧ (s.set_length l v).ctl.heap_start = s.ctl.heap_start ∧
    (s.set_length l v).ctl.heap_end = s.ctl.heap_end ∧
    (s.set_length l v).ctl.heap_bytes = s.ctl.heap_bytes := by
  cases l <;> exact ⟨rfl, rfl, rfl, rfl, rfl, rfl, rfl, rfl⟩

@[simp] theorem set_bytes_proj (s : el_state) (l : el_list_id) (v : Nat) :
    (s.set_bytes l v).size = s.size ∧ (s.set_bytes l v).state = s.state ∧
    (s.set_bytes l v).next = s.next ∧ (s.set_bytes l v).prev = s.prev ∧
    (s.set_bytes l v).foot = s.foot ∧ (s.set_bytes l v).ctl.heap_start = s.ctl.heap_start ∧
    (s.set_bytes l v).ctl.heap_end = s.ctl.heap_end ∧
    (s.set_bytes l v).ctl.heap_bytes = s.ctl.heap_bytes := by
  cases l <;> exact ⟨rfl, rfl, rfl, rfl, rfl, rfl, rfl, rfl⟩

@[simp] theorem set_beg_proj (s : el_state) (l : el_list_id) (v : Nat) :
    (s.set_beg l v).size = s.size ∧ (s.set_beg l v).state = s.state ∧
    (s.set_beg l v).next = s.next ∧ (s.set_beg l v).prev = s.prev ∧
    (s.set_beg l v).foot = s.foot ∧ (s.set_beg l v).ctl.heap_start = s.ctl.heap_start ∧
    (s.set_beg l v).ctl.heap_end = s.ctl.heap_end ∧
    (s.set_beg l v).ctl.heap_bytes = s.ctl.heap_bytes := by
  cases l <;> exact ⟨rfl, rfl, rfl, rfl, rfl, rfl, rfl, rfl⟩

@[simp] theorem set_end_proj (s : el_state) (l : el_list_id) (v : Nat) :
    (s.set_end l v).size = s.size ∧ (s.set_end l v).state = s.state ∧
    (s.set_end l v).next = s.next ∧ (s.set_end l v).prev = s.prev ∧
    (s.set_end l v).foot = s.foot ∧ (s.set_end l v).ctl.heap_start = s.ctl.heap_start ∧
    (s.set_end l v).ctl.heap_end = s.ctl.heap_end ∧
    (s.set_end l v).ctl.heap_bytes = s.ctl.heap_bytes := by
  cases l <;> exact ⟨rfl, rfl, rfl, rfl, rfl, rfl, rfl, rfl⟩

@[simp] theorem set_length_list (s : el_state) (v : Nat) :
    (s.set_length .avail v).ctl.avail = { s.ctl.avail with length := v } ∧
    (s.set_length .avail v).ctl.used = s.ctl.used ∧
    (s.set_length .used v).ctl.used = { s.ctl.used with length := v } ∧
    (s.set_length .used v).ctl.avail = s.ctl.avail :=
  ⟨rfl, rfl, rfl, rfl⟩

@[simp] theorem set_bytes_list (s : el_state) (v : Nat) :
    (s.set_bytes .avail v).ctl.avail = { s.ctl.avail with bytes := v } ∧
    (s.set_bytes .avail v).ctl.used = s.ctl.used ∧
    (s.set_bytes .used v).ctl.used = { s.ctl.used with bytes := v } ∧
    (s.set_bytes .used v).ctl.avail = s.ctl.avail :=
  ⟨rfl, rfl, rfl, rfl⟩

@[simp] theorem set_beg_list (s : el_state) (v : Nat) :
    (s.set_beg .avail v).ctl.avail = { s.ctl.avail with beg := v } ∧
    (s.set_beg .avail v).ctl.used = s.ctl.used ∧
    (s.set_beg .used v).ctl.used = { s.ctl.used with beg := v } ∧
    (s.set_beg .used v).ctl.avail = s.ctl.avail :=
  ⟨rfl, rfl, rfl, rfl⟩

@[simp] theorem set_end_list (s : el_state) (v : Nat) :
    (s.set_end .avail v).ctl.avail = { s.ctl.avail with end_ := v } ∧
    (s.set_end .avail v).ctl.used = s.ctl.used ∧
    (s.set_end .used v).ctl.used = { s.ctl.used with end_ := v } ∧
    (s.set_end .used v).ctl.avail = s.ctl.avail :=
  ⟨rfl, rfl, rfl, rfl⟩

@[simp] theorem store_list (s : el_state) (l : el_list_id) (p v : Nat) :
    (s.set_size p v).list l = s.list l ∧ (s.set_state p v).list l = s.list l ∧
    (s.set_next p v).list l = s.list l ∧ (s.set_prev p v).list l = s.list l ∧
    (s.set_foot p v).list l = s.list l := by
  cases l <;> exact ⟨rfl, rfl, rfl, rfl, rfl⟩

@[simp] theorem list_avail (s : el_state) : s.list .avail = s.ctl.avail := rfl

@[simp] theorem list_used (s : el_state) : s.list .used = s.ctl.used := rfl

/-! ## The list primitives, field by field -/

theorem update_next_self (f : Nat → Nat) (a b v : Nat) (h : b = a → f b = v) :
    Function.update f a v b = f b := by
  by_cases hb : b = a
  · rw [Function.update_apply, if_pos hb, h hb]
  · rw [Function.update_noteq hb]

theorem el_remove_block_next (s : el_state) (l : el_list_id) (b : Nat) :
    (el_remove_block s l b).next = Function.update s.next (s.prev b) (s.next b) := by
  simp [el_remove_block]

theorem el_remove_block_prev (s : el_state) (l : el_list_id) (b : Nat) :
    (el_remove_block s l b).prev = Function.update s.prev (s.next b) (s.prev b) := by
  simp only [el_remove_block, set_bytes_proj, set_length_proj, set_prev_proj, set_next_proj]
  rw [update_next_self _ _ _ _ (fun _ => rfl)]

@[simp] theorem el_remove_block_frame (s : el_state) (l : el_list_id) (b : Nat) :
    (el_remove_block s l b).size = s.size ∧ (el_remove_block s l b).state = s.state ∧
    (el_remove_block s l b).foot = s.foot ∧
    (el_remove_block s l b).ctl.heap_start = s.ctl.heap_start ∧
    (el_remove_block s l b).ctl.heap_end = s.ctl.heap_end ∧
    (el_remove_block s l b).ctl.heap_bytes = s.ctl.heap_bytes := by
  simp [el_remove_block]

@[simp] theorem el_remove_block_avail_list (s : el_state) (b : Nat) :
    (el_remove_block s .avail b).ctl.avail.beg = s.ctl.avail.beg ∧
    (el_remove_block s .avail b).ctl.avail.end_ = s.ctl.avail.end_ ∧
    (el_remove_block s .avail b).ctl.avail.length = wsub s.ctl.avail.length 1 ∧
    (el_remove_block s .avail b).ctl.avail.bytes =
      wsub s.ctl.avail.bytes (wadd EL_BLOCK_OVERHEAD (s.size b)) ∧
    (el_remove_block s .avail b).ctl.used = s.ctl.used := by
  simp [el_remove_block]

@[simp] theorem el_remove_block_used_list (s : el_state) (b : Nat) :
    (el_remove_block s .used b).ctl.used.beg = s.ctl.used.beg ∧
    (el_remove_block s .used b).ctl.used.end_ = s.ctl.used.end_ ∧
    (el_remove_block s .used b).ctl.used.length = wsub s.ctl.used.length 1 ∧
    (el_remove_block s .used b).ctl.used.bytes =
      wsub s.ctl.used.bytes (wadd EL_BLOCK_OVERHEAD (s.size b)) ∧
    (el_remove_block s .used b).ctl.avail = s.ctl.avail := by
  simp [el_remove_block]

theorem el_add_block_front_next (s : el_state) (l : el_list_id) (b : Nat) :
    (el_add_block_front s l b).next =
      Function.update (Function.update s.next b (s.next (s.list l).beg)) (s.list l).beg b := by
  simp [el_add_block_front]

theorem el_add_block_front_prev (s : el_state) (l : el_list_id) (b : Nat)
    (hb : b ≠ (s.list l).beg) :
    (el_add_block_front s l b).prev =
      Function.update (Function.update s.prev b (s.list l).beg) (s.next (s.list l).beg) b := by
  simp only [el_add_block_front, set_bytes_proj, set_length_proj, set_prev_proj, set_next_proj,
    store_list]
  rw [Function.update_same, Function.update_noteq hb, Function.update_same]

@[simp] theorem el_add_block_front_frame (s : el_state) (l : el_list_id) (b : Nat) :
    (el_add_block_front s l b).size = s.size ∧ (el_add_block_front s l b).state = s.state ∧
    (el_add_block_front s l b).foot = s.foot ∧
    (el_add_block_front s l b).ctl.heap_start = s.ctl.heap_start ∧
    (el_add_block_front s l b).ctl.heap_end = s.ctl.heap_end ∧
    (el_add_block_front s l b).ctl.heap_bytes = s.ctl.heap_bytes := by
  simp [el_add_block_front]

@[simp] theorem el_add_block_front_avail_list (s : el_state) (b : Nat) :
    (el_add_block_front s .avail b).ctl.avail.beg = s.ctl.avail.beg ∧
    (el_add_block_front s .avail b).ctl.avail.end_ = s.ctl.avail.end_ ∧
    (el_add_block_front s .avail b).ctl.avail.length = wadd s.ctl.avail.length 1 ∧
    (el_add_block_front s .avail b).ctl.avail.bytes =
      wadd s.ctl.avail.bytes (wadd EL_BLOCK_OVERHEAD (s.size b)) ∧
    (el_add_block_front s .avail b).ctl.used = s.ctl.used := by
  simp [el_add_block_front]

@[simp] theorem el_add_block_front_used_list (s : el_state) (b : Nat) :
    (el_add_block_front s .used b).ctl.used.beg = s.ctl.used.beg ∧
    (el_add_block_front s .used b).ctl.used.end_ = s.ctl.used.end_ ∧
    (el_add_block_front s .used b).ctl.used.length = wadd s.ctl.used.length 1 ∧
    (el_add_block_front s .used b).ctl.used.bytes =
      wadd s.ctl.used.bytes (wadd EL_BLOCK_OVERHEAD (s.size b)) ∧
    (el_add_block_front s .used b).ctl.avail = s.ctl.avail := by
  simp [el_add_block_front]

/-! ## Machine arithmetic without wrap-around -/

theorem wadd_eq {a b : Nat} (h : a + b < 2 ^ 64) : wadd a b = a + b := by
  unfold wadd; exact Nat.mod_eq_of_lt h

theorem wsub_eq {a b : Nat} (hb : b ≤ a) (ha : a < 2 ^ 64) : wsub a b = a - b := by
  unfold wsub; omega

/-! ## Doubly linked chains -/

theorem el_chain_congr {s t : el_state} :
    ∀ (xs : List Nat) (p e : Nat), el_chain s p xs e →
      (∀ y ∈ p :: xs, t.next y = s.next y) → (∀ y ∈ xs ++ [e], t.prev y = s.prev y) →
      el_chain t p xs e := by
  intro xs
  induction xs with
  | nil =>
    intro p e h hn hp
    exact ⟨(hn p (by simp)).trans h.1, (hp e (by simp)).trans h.2⟩
  | cons x xs ih =>
    intro p e h hn hp
    refine ⟨(hn p (by simp)).trans h.1, (hp x (by simp)).trans h.2.1, ?_⟩
    exact ih x e h.2.2 (fun y hy => hn y (List.mem_cons_of_mem _ hy))
      (fun y hy => hp y (by simp at hy ⊢; tauto))

theorem el_chain_append {s : el_state} :
    ∀ (l1 : List Nat) (p x : Nat) (l2 : List Nat) (e : Nat),
      el_chain s p (l1 ++ x :: l2) e ↔ el_chain s p l1 x ∧ el_chain s x l2 e := by
  intro l1
  induction l1 with
  | nil => intro p x l2 e; simp [el_chain, and_assoc]
  | cons z l1 ih => intro p x l2 e; simp [el_chain, ih, and_assoc]

theorem el_chain_next_mem {s : el_state} {x e : Nat} {l : List Nat}
    (h : el_chain s x l e) : s.next x ∈ l ++ [e] := by
  cases l with
  | nil => simp [h.1]
  | cons y l => simp [h.1]

theorem el_chain_prev_mem {s : el_state} :
    ∀ (l : List Nat) (p x : Nat), el_chain s p l x → s.prev x ∈ p :: l := by
  intro l
  induction l with
  | nil => intro p x h; simp [h.2]
  | cons y l ih =>
    intro p x h
    exact List.mem_cons_of_mem _ (ih y x h.2.2)

/-- Unlinking `x` as `el_remove_block` does keeps the rest of the chain. -/
theorem el_chain_unlink {s t : el_state} {x : Nat}
    (hn : t.next = Function.update s.next (s.prev x) (s.next x))
    (hp : t.prev = Function.update s.prev (s.next x) (s.prev x)) :
    ∀ (l1 : List Nat) (p : Nat) (l2 : List Nat) (e : Nat),
      el_chain s p l1 x → el_chain s x l2 e → (p :: (l1 ++ x :: l2) ++ [e]).Nodup →
      el_chain t p (l1 ++ l2) e := by
  intro l1
  induction l1 with
  | nil =>
    intro p l2 e h1 h2 hd
    have hpx : s.prev x = p := h1.2
    simp only [List.nil_append] at hd ⊢
    cases l2 with
    | nil =>
      have hnx : s.next x = e := h2.1
      refine ⟨?_, ?_⟩
      · rw [hn, hpx, hnx, Function.update_same]
      · rw [hp, hpx, hnx, Function.update_same]
    | cons c l2 =>
      have hnx : s.next x = c := h2.1
      refine ⟨?_, ?_, ?_⟩
      · rw [hn, hpx, hnx, Function.update_same]
      · rw [hp, hpx, hnx, Function.update_same]
      · apply el_chain_congr l2 c e h2.2.2
        · intro y hy
          rw [hn, hpx, Function.update_noteq]
          rintro rfl
          simp only [List.cons_append, List.nodup_cons, List.mem_cons, List.mem_append,
            List.mem_singleton] at hd hy
          tauto
        · intro y hy
          rw [hp, hnx, Function.update_noteq]
          rintro rfl
          simp only [List.cons_append, List.nodup_cons, List.mem_cons, List.mem_append,
            List.mem_singleton, List.nodup_append, List.not_mem_nil, or_false] at hd hy
          tauto
  | cons z l1 ih =>
    intro p l2 e h1 h2 hd
    have hpm : s.prev x ∈ z :: l1 := el_chain_prev_mem l1 z x h1.2.2
    have hnm : s.next x ∈ l2 ++ [e] := el_chain_next_mem h2
    have hd2 : (z :: (l1 ++ x :: l2) ++ [e]).Nodup := by
      simp only [List.cons_append, List.nodup_cons] at hd ⊢
      exact hd.2
    refine ⟨?_, ?_, ih z l2 e h1.2.2 h2 hd2⟩
    · rw [hn, Function.update_noteq, h1.1]
      intro h
      rw [← h] at hpm
      simp only [List.cons_append, List.nodup_cons, List.mem_cons, List.mem_append,
        List.mem_singleton] at hd hpm
      tauto
    · rw [hp, Function.update_noteq, h1.2.1]
      intro h
      rw [← h] at hnm
      simp only [List.cons_append, List.nodup_cons, List.mem_cons, List.mem_append,
        List.mem_singleton] at hd hnm
      tauto

/-- Linking `b` right after `p` as `el_add_block_front` does. -/
theorem el_chain_link {s t : el_state} {p b : Nat} {xs : List Nat} {e : Nat}
    (hn : t.next = Function.update (Function.update s.next b (s.next p)) p b)
    (hp : t.prev = Function.update (Function.update s.prev b p) (s.next p) b)
    (h : el_chain s p xs e) (hb : b ∉ p :: xs ++ [e]) (hd : (p :: xs ++ [e]).Nodup) :
    el_chain t p (b :: xs) e := by
  have hnm : s.next p ∈ xs ++ [e] := el_chain_next_mem h
  have hbp : b ≠ p := by
    rintro rfl; simp at hb
  have hbn : b ≠ s.next p := by
    intro h'; rw [← h'] at hnm
    simp only [List.cons_append, List.mem_cons, List.mem_append, List.mem_singleton] at hb hnm
    tauto
  refine ⟨?_, ?_, ?_⟩
  · rw [hn, Function.update_same]
  · rw [hp, Function.update_noteq hbn, Function.update_same]
  · cases xs with
    | nil =>
      have hpe : s.next p = e := h.1
      refine ⟨?_, ?_⟩
      · rw [hn, Function.update_noteq hbp, Function.update_same, hpe]
      · rw [hp, hpe, Function.update_same]
    | cons y ys =>
      have hpy : s.next p = y := h.1
      refine ⟨?_, ?_, ?_⟩
      · rw [hn, Function.update_noteq hbp, Function.update_same, hpy]
      · rw [hp, hpy, Function.update_same]
      · apply el_chain_congr ys y e h.2.2
        · intro z hz
          rw [hn, Function.update_noteq, Function.update_noteq]
          · rintro rfl
            simp only [List.cons_append, List.mem_cons, List.mem_append, List.mem_singleton]
              at hb hz
            tauto
          · rintro rfl
            simp only [List.cons_append, List.nodup_cons, List.mem_cons, List.mem_append,
              List.mem_singleton] at hd hz
            tauto
        · intro z hz
          rw [hp, hpy, Function.update_noteq, Function.update_noteq]
          · rintro rfl
            simp only [List.cons_append, List.mem_cons, List.mem_append, List.mem_singleton]
              at hb hz
            tauto
          · rintro rfl
            simp only [List.cons_append, List.nodup_cons, List.mem_cons, List.mem_append,
              List.mem_singleton, List.nodup_append, List.not_mem_nil, or_false] at hd hz
            tauto

/-- Stores to `next` and `prev` of nodes outside a chain leave it intact. -/
theorem el_chain_frame {s t : el_state} {p : Nat} {xs : List Nat} {e : Nat}
    (h : el_chain s p xs e)
    (hn : ∀ y ∈ p :: xs, t.next y = s.next y) (hp : ∀ y ∈ xs ++ [e], t.prev y = s.prev y) :
    el_chain t p xs e :=
  el_chain_congr xs p e h hn hp

/-! ## Physical layout -/

theorem el_tiles_append {s : el_state} :
    ∀ (l1 : List Nat) (a : Nat) (l2 : List Nat) (e : Nat),
      el_tiles s a (l1 ++ l2) e ↔ ∃ m, el_tiles s a l1 m ∧ el_tiles s m l2 e := by
  intro l1
  induction l1 with
  | nil => intro a l2 e; simp [el_tiles]
  | cons b l1 ih =>
    intro a l2 e
    rw [List.cons_append]
    simp only [el_tiles]
    rw [ih]
    constructor
    · rintro ⟨h1, h2, m, h3, h4⟩
      exact ⟨m, ⟨h1, h2, h3⟩, h4⟩
    · rintro ⟨m, ⟨h1, h2, h3⟩, h4⟩
      exact ⟨h1, h2, m, h3, h4⟩

theorem el_tiles_le {s : el_state} :
    ∀ (bs : List Nat) (a e : Nat), el_tiles s a bs e → a ≤ e := by
  intro bs
  induction bs with
  | nil => intro a e h; exact le_of_eq h
  | cons b bs ih =>
    intro a e h
    have := ih _ _ h.2.2
    have := h.1
    omega

theorem el_tiles_mem {s : el_state} :
    ∀ (bs : List Nat) (a e : Nat), el_tiles s a bs e → ∀ b ∈ bs,
      a ≤ b ∧ b + EL_BLOCK_OVERHEAD + s.size b ≤ e ∧
        s.foot (b + sizeof_head + s.size b) = s.size b := by
  intro bs
  induction bs with
  | nil => intro a e _ b hb; simp at hb
  | cons c bs ih =>
    intro a e h b hb
    rcases List.mem_cons.1 hb with rfl | hb
    · have := el_tiles_le _ _ _ h.2.2
      exact ⟨le_of_eq h.1.symm, this, h.2.1⟩
    · have h3 := ih _ _ h.2.2 b hb
      have h1 := h.1
      refine ⟨?_, h3.2.1, h3.2.2⟩
      have := h3.1
      omega

theorem el_tiles_split {s : el_state} (b1 : List Nat) (a b : Nat) (b2 : List Nat) (e : Nat) :
    el_tiles s a (b1 ++ b :: b2) e ↔
      el_tiles s a b1 b ∧ s.foot (b + sizeof_head + s.size b) = s.size b ∧
        el_tiles s (b + EL_BLOCK_OVERHEAD + s.size b) b2 e := by
  rw [el_tiles_append]
  constructor
  · rintro ⟨m, h1, h2, h3, h4⟩
    subst h2
    exact ⟨h1, h3, h4⟩
  · rintro ⟨h1, h3, h4⟩
    exact ⟨b, h1, rfl, h3, h4⟩

theorem el_tiles_frame {s t : el_state} :
    ∀ (bs : List Nat) (a e : Nat), el_tiles s a bs e →
      (∀ b, a ≤ b → b < e → t.size b = s.size b) →
      (∀ x, a ≤ x → x < e → t.foot x = s.foot x) → el_tiles t a bs e := by
  intro bs
  induction bs with
  | nil => intro a e h _ _; exact h
  | cons b bs ih =>
    intro a e h hs hf
    obtain ⟨h1, h2, h3⟩ := h
    have hle := el_tiles_le _ _ _ h3
    have hsb : t.size b = s.size b := hs b (le_of_eq h1.symm) (by
      simp only [EL_BLOCK_OVERHEAD, sizeof_head, sizeof_foot] at hle; omega)
    refine ⟨h1, ?_, ?_⟩
    · rw [hsb, hf _ _ _, h2]
      · simp only [sizeof_head]; omega
      · simp only [EL_BLOCK_OVERHEAD, sizeof_head, sizeof_foot] at hle ⊢; omega
    · rw [hsb]
      apply ih _ _ h3
      · intro c hc1 hc2
        exact hs c (by simp only [EL_BLOCK_OVERHEAD, sizeof_head, sizeof_foot] at hc1; omega) hc2
      · intro c hc1 hc2
        exact hf c (by simp only [EL_BLOCK_OVERHEAD, sizeof_head, sizeof_foot] at hc1; omega) hc2

theorem el_bytes_of_nil (s : el_state) : el_bytes_of s [] = 0 := rfl

theorem el_bytes_of_cons (s : el_state) (b : Nat) (xs : List Nat) :
    el_bytes_of s (b :: xs) = EL_BLOCK_OVERHEAD + s.size b + el_bytes_of s xs := by
  simp [el_bytes_of]

theorem el_bytes_of_append (s : el_state) (xs ys : List Nat) :
    el_bytes_of s (xs ++ ys) = el_bytes_of s xs + el_bytes_of s ys := by
  simp [el_bytes_of]

theorem el_bytes_of_perm (s : el_state) {xs ys : List Nat} (h : xs.Perm ys) :
    el_bytes_of s xs = el_bytes_of s ys := by
  unfold el_bytes_of
  exact (h.map _).sum_eq

theorem el_bytes_of_congr {s t : el_state} {xs : List Nat}
    (h : ∀ b ∈ xs, t.size b = s.size b) : el_bytes_of t xs = el_bytes_of s xs := by
  unfold el_bytes_of
  congr 1
  apply List.map_congr_left
  intro b hb
  rw [h b hb]

theorem el_bytes_of_length (s : el_state) (xs : List Nat) :
    xs.length ≤ el_bytes_of s xs := by
  induction xs with
  | nil => simp [el_bytes_of]
  | cons b xs ih =>
    rw [el_bytes_of_cons]
    simp only [List.length_cons, EL_BLOCK_OVERHEAD, sizeof_head, sizeof_foot]
    omega

theorem el_tiles_bytes {s : el_state} :
    ∀ (bs : List Nat) (a e : Nat), el_tiles s a bs e → a + el_bytes_of s bs = e := by
  intro bs
  induction bs with
  | nil => intro a e h; simpa [el_bytes_of] using h
  | cons b bs ih =>
    intro a e h
    have := ih _ _ h.2.2
    have := h.1
    rw [el_bytes_of_cons]
    omega

theorem el_tiles_nodup {s : el_state} :
    ∀ (bs : List Nat) (a e : Nat), el_tiles s a bs e → bs.Nodup := by
  intro bs
  induction bs with
  | nil => intro a e _; exact List.nodup_nil
  | cons b bs ih =>
    intro a e h
    refine List.nodup_cons.2 ⟨?_, ih _ _ h.2.2⟩
    intro hb
    have := (el_tiles_mem _ _ _ h.2.2 b hb).1
    simp only [EL_BLOCK_OVERHEAD, sizeof_head, sizeof_foot] at this
    omega

/-! ## Consequences of the structural invariant -/

section
variable {A : el_addrs_t} {heap C : Nat} {s : el_state} {bs av us ds : List Nat}

theorem el_wf.mem_bs (W : el_wf A heap C s bs av us ds) {b : Nat}
    (hb : b ∈ ds ++ (av ++ us)) : b ∈ bs :=
  W.perm.mem_iff.1 hb

theorem el_wf.block_range (W : el_wf A heap C s bs av us ds) {b : Nat} (hb : b ∈ bs) :
    heap ≤ b ∧ b + EL_BLOCK_OVERHEAD + s.size b ≤ heap + C :=
  ⟨(el_tiles_mem _ _ _ W.tiles b hb).1, (el_tiles_mem _ _ _ W.tiles b hb).2.1⟩

theorem el_wf.nodup_members (W : el_wf A heap C s bs av us ds) :
    (ds ++ (av ++ us)).Nodup :=
  W.perm.nodup_iff.2 (el_tiles_nodup _ _ _ W.tiles)

theorem el_wf.bytes_total (W : el_wf A heap C s bs av us ds) :
    el_bytes_of s ds + (el_bytes_of s av + el_bytes_of s us) = C := by
  have h1 := el_tiles_bytes _ _ _ W.tiles
  have h2 := el_bytes_of_perm s W.perm
  rw [el_bytes_of_append, el_bytes_of_append] at h2
  omega

theorem el_wf.sentinel_not_block (W : el_wf A heap C s bs av us ds) {x : Nat}
    (hx : x ∈ [A.avail_beg_actual, A.avail_end_actual, A.used_beg_actual, A.used_end_actual]) :
    x ∉ bs := by
  intro hb
  have h1 := W.block_range hb
  have h2 := W.env.sentinels_outside x hx
  simp only [EL_BLOCK_OVERHEAD, sizeof_head, sizeof_foot] at h1
  omega

theorem el_wf.sentinels_not_block (W : el_wf A heap C s bs av us ds) :
    A.avail_beg_actual ∉ bs ∧ A.avail_end_actual ∉ bs ∧ A.used_beg_actual ∉ bs ∧
      A.used_end_actual ∉ bs :=
  ⟨W.sentinel_not_block (by simp), W.sentinel_not_block (by simp),
    W.sentinel_not_block (by simp), W.sentinel_not_block (by simp)⟩

theorem el_wf.sentinels_ne (W : el_wf A heap C s bs av us ds) :
    A.avail_beg_actual ≠ A.avail_end_actual ∧ A.avail_beg_actual ≠ A.used_beg_actual ∧
    A.avail_beg_actual ≠ A.used_end_actual ∧ A.avail_end_actual ≠ A.used_beg_actual ∧
    A.avail_end_actual ≠ A.used_end_actual ∧ A.used_beg_actual ≠ A.used_end_actual := by
  have hs := W.env.sentinels_nodup
  simp only [List.nodup_cons, List.mem_cons, List.mem_singleton, List.not_mem_nil,
    List.nodup_nil, not_or, or_false, not_false_eq_true, and_true] at hs
  exact ⟨hs.1.1, hs.1.2.1, hs.1.2.2, hs.2.1.1, hs.2.1.2, hs.2.2⟩

theorem el_wf.members_facts (W : el_wf A heap C s bs av us ds) :
    ds.Nodup ∧ av.Nodup ∧ us.Nodup ∧ (∀ x ∈ ds, x ∉ av ∧ x ∉ us) ∧ (∀ x ∈ av, x ∉ us) ∧
      (∀ x ∈ ds, x ∈ bs) ∧ (∀ x ∈ av, x ∈ bs) ∧ (∀ x ∈ us, x ∈ bs) := by
  have hd := W.nodup_members
  rw [List.nodup_append, List.nodup_append] at hd
  obtain ⟨h1, ⟨h2, h3, h4⟩, h5⟩ := hd
  refine ⟨h1, h2, h3, ?_, ?_, ?_, ?_, ?_⟩
  · intro x hx
    exact ⟨fun h => h5 hx (List.mem_append_left _ h), fun h => h5 hx (List.mem_append_right _ h)⟩
  · intro x hx hx2
    exact h4 hx hx2
  · intro x hx
    exact W.mem_bs (List.mem_append_left _ hx)
  · intro x hx
    exact W.mem_bs (List.mem_append_right _ (List.mem_append_left _ hx))
  · intro x hx
    exact W.mem_bs (List.mem_append_right _ (List.mem_append_right _ hx))

theorem mem_sandwich {y p e : Nat} {xs : List Nat} :
    y ∈ p :: xs ++ [e] ↔ y = p ∨ y ∈ xs ∨ y = e := by
  simp

theorem nodup_sandwich {p e : Nat} {xs : List Nat} (h1 : xs.Nodup) (h2 : p ∉ xs)
    (h3 : e ∉ xs) (h4 : p ≠ e) : (p :: xs ++ [e]).Nodup := by
  rw [List.cons_append]
  refine List.nodup_cons.2 ⟨?_, ?_⟩
  · intro h
    rcases List.mem_append.1 h with h | h
    · exact h2 h
    · exact h4 (List.mem_singleton.1 h)
  · refine List.nodup_append.2 ⟨h1, List.nodup_singleton _, ?_⟩
    intro a ha hae
    rw [List.mem_singleton] at hae
    subst hae
    exact h3 ha

theorem el_wf.avail_nodes_nodup (W : el_wf A heap C s bs av us ds) :
    (A.avail_beg_actual :: av ++ [A.avail_end_actual]).Nodup := by
  obtain ⟨_, h2, _, _, _, _, h7, _⟩ := W.members_facts
  obtain ⟨n1, n2, _, _⟩ := W.sentinels_not_block
  exact nodup_sandwich h2 (fun h => n1 (h7 _ h)) (fun h => n2 (h7 _ h)) W.sentinels_ne.1

theorem el_wf.used_nodes_nodup (W : el_wf A heap C s bs av us ds) :
    (A.used_beg_actual :: us ++ [A.used_end_actual]).Nodup := by
  obtain ⟨_, _, h3, _, _, _, _, h8⟩ := W.members_facts
  obtain ⟨_, _, n3, n4⟩ := W.sentinels_not_block
  exact nodup_sandwich h3 (fun h => n3 (h8 _ h)) (fun h => n4 (h8 _ h)) W.sentinels_ne.2.2.2.2.2

/-- No node of the available chain is a node of the used chain. -/
theorem el_wf.nodes_disjoint (W : el_wf A heap C s bs av us ds) {y : Nat}
    (h1 : y ∈ A.avail_beg_actual :: av ++ [A.avail_end_actual])
    (h2 : y ∈ A.used_beg_actual :: us ++ [A.used_end_actual]) : False := by
  obtain ⟨_, _, _, _, h5, _, h7, h8⟩ := W.members_facts
  obtain ⟨n1, n2, n3, n4⟩ := W.sentinels_not_block
  obtain ⟨e1, e2, e3, e4, e5, e6⟩ := W.sentinels_ne
  rw [mem_sandwich] at h1 h2
  rcases h1 with rfl | h1 | rfl <;> rcases h2 with h2 | h2 | h2
  · exact e2 h2
  · exact n1 (h8 _ h2)
  · exact e3 h2
  · subst h2; exact n3 (h7 _ h1)
  · exact h5 _ h1 h2
  · subst h2; exact n4 (h7 _ h1)
  · exact e4 h2
  · exact n2 (h8 _ h2)
  · exact e5 h2

/-- A block that is in neither list is no node of either chain. -/
theorem el_wf.detached_not_node (W : el_wf A heap C s bs av us ds) {b : Nat} (hb : b ∈ ds) :
    b ∉ A.avail_beg_actual :: av ++ [A.avail_end_actual] ∧
    b ∉ A.used_beg_actual :: us ++ [A.used_end_actual] := by
  obtain ⟨_, _, _, h4, _, h6, _, _⟩ := W.members_facts
  obtain ⟨n1, n2, n3, n4⟩ := W.sentinels_not_block
  have hbs := h6 b hb
  rw [mem_sandwich, mem_sandwich]
  refine ⟨?_, ?_⟩
  · rintro (rfl | h | rfl)
    · exact n1 hbs
    · exact (h4 b hb).1 h
    · exact n2 hbs
  · rintro (rfl | h | rfl)
    · exact n3 hbs
    · exact (h4 b hb).2 h
    · exact n4 hbs

theorem el_wf.length_bound (W : el_wf A heap C s bs av us ds) :
    av.length ≤ C ∧ us.length ≤ C ∧ el_bytes_of s av ≤ C ∧ el_bytes_of s us ≤ C ∧
      el_bytes_of s ds ≤ C := by
  have h := W.bytes_total
  have h1 := el_bytes_of_length s av
  have h2 := el_bytes_of_length s us
  omega

theorem el_wf.C_bound (W : el_wf A heap C s bs av us ds) : C + 8 < 2 ^ 64 := by
  have h1 := W.env.heap_low
  have h2 := W.env.heap_high
  simp only [sizeof_foot] at h1
  omega

/-- The invariant does not depend on the state flags. -/
theorem el_wf.congr {t : el_state} (W : el_wf A heap C s bs av us ds)
    (hc : t.ctl = s.ctl) (hsz : t.size = s.size) (hn : t.next = s.next)
    (hp : t.prev = s.prev) (hf : t.foot = s.foot) : el_wf A heap C t bs av us ds where
  env := W.env
  heap_start := by rw [hc]; exact W.heap_start
  heap_end := by rw [hc]; exact W.heap_end
  heap_bytes := by rw [hc]; exact W.heap_bytes
  avail_beg := by rw [hc]; exact W.avail_beg
  avail_end := by rw [hc]; exact W.avail_end
  used_beg := by rw [hc]; exact W.used_beg
  used_end := by rw [hc]; exact W.used_end
  tiles := el_tiles_frame _ _ _ W.tiles (fun b _ _ => by rw [hsz]) (fun x _ _ => by rw [hf])
  perm := W.perm
  avail_chain := el_chain_frame W.avail_chain (fun y _ => by rw [hn]) (fun y _ => by rw [hp])
  used_chain := el_chain_frame W.used_chain (fun y _ => by rw [hn]) (fun y _ => by rw [hp])
  avail_length := by rw [hc]; exact W.avail_length
  used_length := by rw [hc]; exact W.used_length
  avail_bytes := by rw [hc, W.avail_bytes]; exact (el_bytes_of_congr (fun b _ => by rw [hsz])).symm
  used_bytes := by rw [hc, W.used_bytes]; exact (el_bytes_of_congr (fun b _ => by rw [hsz])).symm

end

/-! ## The list primitives preserve the structural invariant -/

section
variable {A : el_addrs_t} {heap C : Nat} {s : el_state} {bs av us ds : List Nat}

theorem el_bytes_of_eq_of_size {s t : el_state} (h : t.size = s.size) (xs : List Nat) :
    el_bytes_of t xs = el_bytes_of s xs :=
  el_bytes_of_congr (fun b _ => by rw [h])

theorem perm_detach (ds l1 l2 us : List Nat) (x : Nat) :
    ((x :: ds) ++ ((l1 ++ l2) ++ us)).Perm (ds ++ ((l1 ++ x :: l2) ++ us)) := by
  have e1 : ds ++ ((l1 ++ x :: l2) ++ us) = (ds ++ l1) ++ x :: (l2 ++ us) := by simp
  have e2 : (x :: ds) ++ ((l1 ++ l2) ++ us) = x :: ((ds ++ l1) ++ (l2 ++ us)) := by simp
  rw [e1, e2]
  exact List.perm_middle.symm

theorem perm_detach_used (ds av u1 u2 : List Nat) (x : Nat) :
    ((x :: ds) ++ (av ++ (u1 ++ u2))).Perm (ds ++ (av ++ (u1 ++ x :: u2))) := by
  have e1 : ds ++ (av ++ (u1 ++ x :: u2)) = (ds ++ av ++ u1) ++ x :: u2 := by simp
  have e2 : (x :: ds) ++ (av ++ (u1 ++ u2)) = x :: ((ds ++ av ++ u1) ++ u2) := by simp
  rw [e1, e2]
  exact List.perm_middle.symm

theorem el_wf.remove_avail {l1 l2 : List Nat} {x : Nat}
    (W : el_wf A heap C s bs (l1 ++ x :: l2) us ds) :
    el_wf A heap C (el_remove_block s .avail x) bs (l1 ++ l2) us (x :: ds) := by
  have hch := (el_chain_append l1 _ x l2 _).1 W.avail_chain
  have hpm := el_chain_prev_mem _ _ _ hch.1
  have hnm := el_chain_next_mem hch.2
  have hb := W.length_bound
  have hC := W.C_bound
  have hx : x ∈ bs := W.mem_bs (by simp)
  have hxr := W.block_range hx
  refine
    { env := W.env
      heap_start := by simp [W.heap_start]
      heap_end := by simp [W.heap_end]
      heap_bytes := by simp [W.heap_bytes]
      avail_beg := by simp [W.avail_beg]
      avail_end := by simp [W.avail_end]
      used_beg := by simp [W.used_beg]
      used_end := by simp [W.used_end]
      tiles := el_tiles_frame _ _ _ W.tiles (by simp) (by simp)
      perm := (perm_detach ds l1 l2 us x).trans W.perm
      avail_chain := el_chain_unlink (el_remove_block_next _ _ _) (el_remove_block_prev _ _ _)
        l1 _ l2 _ hch.1 hch.2 W.avail_nodes_nodup
      used_chain := ?_
      avail_length := ?_
      used_length := by simp [W.used_length]
      avail_bytes := ?_
      used_bytes := ?_ }
  · apply el_chain_frame W.used_chain
    · intro y hy
      rw [el_remove_block_next, Function.update_noteq]
      rintro rfl
      exact W.nodes_disjoint (mem_sandwich.2 (by
        rcases List.mem_cons.1 hpm with h | h
        · exact Or.inl h
        · exact Or.inr (Or.inl (by simp [h])))) (by
        rw [List.cons_append]; exact List.mem_append_left _ hy)
    · intro y hy
      rw [el_remove_block_prev, Function.update_noteq]
      rintro rfl
      exact W.nodes_disjoint (mem_sandwich.2 (by
        rcases List.mem_append.1 hnm with h | h
        · exact Or.inr (Or.inl (by simp [h]))
        · exact Or.inr (Or.inr (List.mem_singleton.1 h)))) (List.mem_cons_of_mem _ hy)
  · have := W.avail_length
    simp only [el_remove_block_avail_list, this, List.length_append, List.length_cons] at hb ⊢
    rw [wsub_eq (by omega) (by omega)]
    omega
  · have := W.avail_bytes
    simp only [EL_BLOCK_OVERHEAD, sizeof_head, sizeof_foot] at hxr
    simp only [el_remove_block_avail_list, this, el_bytes_of_append, el_bytes_of_cons,
      el_bytes_of_eq_of_size (el_remove_block_frame s .avail x).1,
      EL_BLOCK_OVERHEAD, sizeof_head, sizeof_foot] at hb ⊢
    rw [wadd_eq (by omega), wsub_eq (by omega) (by omega)]
    omega
  · have := W.used_bytes
    simp only [el_remove_block_avail_list, this,
      el_bytes_of_eq_of_size (el_remove_block_frame s .avail x).1]

theorem el_wf.remove_used {u1 u2 : List Nat} {x : Nat}
    (W : el_wf A heap C s bs av (u1 ++ x :: u2) ds) :
    el_wf A heap C (el_remove_block s .used x) bs av (u1 ++ u2) (x :: ds) := by
  have hch := (el_chain_append u1 _ x u2 _).1 W.used_chain
  have hpm := el_chain_prev_mem _ _ _ hch.1
  have hnm := el_chain_next_mem hch.2
  have hb := W.length_bound
  have hC := W.C_bound
  have hx : x ∈ bs := W.mem_bs (by simp)
  have hxr := W.block_range hx
  refine
    { env := W.env
      heap_start := by simp [W.heap_start]
      heap_end := by simp [W.heap_end]
      heap_bytes := by simp [W.heap_bytes]
      avail_beg := by simp [W.avail_beg]
      avail_end := by simp [W.avail_end]
      used_beg := by simp [W.used_beg]
      used_end := by simp [W.used_end]
      tiles := el_tiles_frame _ _ _ W.tiles (by simp) (by simp)
      perm := (perm_detach_used ds av u1 u2 x).trans W.perm
      used_chain := el_chain_unlink (el_remove_block_next _ _ _) (el_remove_block_prev _ _ _)
        u1 _ u2 _ hch.1 hch.2 W.used_nodes_nodup
      avail_chain := ?_
      used_length := ?_
      avail_length := by simp [W.avail_length]
      used_bytes := ?_
      avail_bytes := ?_ }
  · apply el_chain_frame W.avail_chain
    · intro y hy
      rw [el_remove_block_next, Function.update_noteq]
      rintro rfl
      exact W.nodes_disjoint (by
        rw [List.cons_append]; exact List.mem_append_left _ hy) (mem_sandwich.2 (by
        rcases List.mem_cons.1 hpm with h | h
        · exact Or.inl h
        · exact Or.inr (Or.inl (by simp [h]))))
    · intro y hy
      rw [el_remove_block_prev, Function.update_noteq]
      rintro rfl
      exact W.nodes_disjoint (List.mem_cons_of_mem _ hy) (mem_sandwich.2 (by
        rcases List.mem_append.1 hnm with h | h
        · exact Or.inr (Or.inl (by simp [h]))
        · exact Or.inr (Or.inr (List.mem_singleton.1 h))))
  · have := W.used_length
    simp only [el_remove_block_used_list, this, List.length_append, List.length_cons] at hb ⊢
    rw [wsub_eq (by omega) (by omega)]
    omega
  · have := W.avail_bytes
    simp only [el_remove_block_used_list, this,
      el_bytes_of_eq_of_size (el_remove_block_frame s .used x).1]
  · have := W.used_bytes
    simp only [EL_BLOCK_OVERHEAD, sizeof_head, sizeof_foot] at hxr
    simp only [el_remove_block_used_list, this, el_bytes_of_append, el_bytes_of_cons,
      el_bytes_of_eq_of_size (el_remove_block_frame s .used x).1,
      EL_BLOCK_OVERHEAD, sizeof_head, sizeof_foot] at hb ⊢
    rw [wadd_eq (by omega), wsub_eq (by omega) (by omega)]
    omega

end

section
variable {A : el_addrs_t} {heap C : Nat} {s : el_state} {bs av us ds : List Nat}

theorem el_wf.perm_detached {ds2 : List Nat} (W : el_wf A heap C s bs av us ds)
    (h : ds2.Perm ds) : el_wf A heap C s bs av us ds2 :=
  { W with perm := (h.append_right _).trans W.perm }

theorem el_wf.add_avail {b : Nat} (W : el_wf A heap C s bs av us (b :: ds)) :
    el_wf A heap C (el_add_block_front s .avail b) bs (b :: av) us ds := by
  have hnm := el_chain_next_mem W.avail_chain
  have hbt := W.bytes_total
  have hb := W.length_bound
  have hC := W.C_bound
  have hdn := W.detached_not_node (List.mem_cons_self b ds)
  have hbb : b ≠ (s.list .avail).beg := by
    rw [list_avail, W.avail_beg]
    rintro rfl
    exact hdn.1 (mem_sandwich.2 (Or.inl rfl))
  have hN : (el_add_block_front s .avail b).next =
      Function.update (Function.update s.next b (s.next A.avail_beg_actual))
        A.avail_beg_actual b := by
    rw [el_add_block_front_next, list_avail, W.avail_beg]
  have hP : (el_add_block_front s .avail b).prev =
      Function.update (Function.update s.prev b A.avail_beg_actual)
        (s.next A.avail_beg_actual) b := by
    rw [el_add_block_front_prev _ _ _ hbb, list_avail, W.avail_beg]
  refine
    { env := W.env
      heap_start := by simp [W.heap_start]
      heap_end := by simp [W.heap_end]
      heap_bytes := by simp [W.heap_bytes]
      avail_beg := by simp [W.avail_beg]
      avail_end := by simp [W.avail_end]
      used_beg := by simp [W.used_beg]
      used_end := by simp [W.used_end]
      tiles := el_tiles_frame _ _ _ W.tiles (by simp) (by simp)
      perm := ?_
      avail_chain := el_chain_link hN hP W.avail_chain hdn.1 W.avail_nodes_nodup
      used_chain := ?_
      avail_length := ?_
      used_length := by simp [W.used_length]
      avail_bytes := ?_
      used_bytes := ?_ }
  · have e1 : ds ++ ((b :: av) ++ us) = ds ++ b :: (av ++ us) := by simp
    rw [e1]
    exact List.perm_middle.trans W.perm
  · apply el_chain_frame W.used_chain
    · intro y hy
      have hy2 : y ∈ A.used_beg_actual :: us ++ [A.used_end_actual] := by
        rw [List.cons_append]; exact List.mem_append_left _ hy
      rw [hN, Function.update_noteq, Function.update_noteq]
      · rintro rfl; exact hdn.2 hy2
      · rintro rfl; exact W.nodes_disjoint (mem_sandwich.2 (Or.inl rfl)) hy2
    · intro y hy
      have hy2 : y ∈ A.used_beg_actual :: us ++ [A.used_end_actual] :=
        List.mem_cons_of_mem _ hy
      rw [hP, Function.update_noteq, Function.update_noteq]
      · rintro rfl; exact hdn.2 hy2
      · rintro rfl
        exact W.nodes_disjoint (List.mem_cons_of_mem _ hnm) hy2
  · have := W.avail_length
    simp only [el_add_block_front_avail_list, this, List.length_cons]
    rw [wadd_eq (by omega)]
  · rw [el_bytes_of_cons] at hbt
    rw [(el_add_block_front_avail_list s b).2.2.2.1,
      el_bytes_of_eq_of_size (el_add_block_front_frame s .avail b).1, el_bytes_of_cons,
      W.avail_bytes]
    simp only [EL_BLOCK_OVERHEAD, sizeof_head, sizeof_foot] at hbt ⊢
    have e1 : wadd (32 + 8) (s.size b) = 32 + 8 + s.size b := wadd_eq (by omega)
    rw [e1, wadd_eq (by omega)]
    omega
  · have := W.used_bytes
    simp only [el_add_block_front_avail_list, this,
      el_bytes_of_eq_of_size (el_add_block_front_frame s .avail b).1]

theorem el_wf.add_used {b : Nat} (W : el_wf A heap C s bs av us (b :: ds)) :
    el_wf A heap C (el_add_block_front s .used b) bs av (b :: us) ds := by
  have hnm := el_chain_next_mem W.used_chain
  have hbt := W.bytes_total
  have hb := W.length_bound
  have hC := W.C_bound
  have hdn := W.detached_not_node (List.mem_cons_self b ds)
  have hbb : b ≠ (s.list .used).beg := by
    rw [list_used, W.used_beg]
    rintro rfl
    exact hdn.2 (mem_sandwich.2 (Or.inl rfl))
  have hN : (el_add_block_front s .used b).next =
      Function.update (Function.update s.next b (s.next A.used_beg_actual))
        A.used_beg_actual b := by
    rw [el_add_block_front_next, list_used, W.used_beg]
  have hP : (el_add_block_front s .used b).prev =
      Function.update (Function.update s.prev b A.used_beg_actual)
        (s.next A.used_beg_actual) b := by
    rw [el_add_block_front_prev _ _ _ hbb, list_used, W.used_beg]
  refine
    { env := W.env
      heap_start := by simp [W.heap_start]
      heap_end := by simp [W.heap_end]
      heap_bytes := by simp [W.heap_bytes]
      avail_beg := by simp [W.avail_beg]
      avail_end := by simp [W.avail_end]
      used_beg := by simp [W.used_beg]
      used_end := by simp [W.used_end]
      tiles := el_tiles_frame _ _ _ W.tiles (by simp) (by simp)
      perm := ?_
      used_chain := el_chain_link hN hP W.used_chain hdn.2 W.used_nodes_nodup
      avail_chain := ?_
      used_length := ?_
      avail_length := by simp [W.avail_length]
      used_bytes := ?_
      avail_bytes := ?_ }
  · have e1 : ds ++ (av ++ (b :: us)) = (ds ++ av) ++ b :: us := by simp
    have e2 : (b :: ds) ++ (av ++ us) = b :: ((ds ++ av) ++ us) := by simp
    have := W.perm
    rw [e2] at this
    rw [e1]
    exact List.perm_middle.trans this
  · apply el_chain_frame W.avail_chain
    · intro y hy
      have hy2 : y ∈ A.avail_beg_actual :: av ++ [A.avail_end_actual] := by
        rw [List.cons_append]; exact List.mem_append_left _ hy
      rw [hN, Function.update_noteq, Function.update_noteq]
      · rintro rfl; exact hdn.1 hy2
      · rintro rfl; exact W.nodes_disjoint hy2 (mem_sandwich.2 (Or.inl rfl))
    · intro y hy
      have hy2 : y ∈ A.avail_beg_actual :: av ++ [A.avail_end_actual] :=
        List.mem_cons_of_mem _ hy
      rw [hP, Function.update_noteq, Function.update_noteq]
      · rintro rfl; exact hdn.1 hy2
      · rintro rfl
        exact W.nodes_disjoint hy2 (List.mem_cons_of_mem _ hnm)
  · have := W.used_length
    simp only [el_add_block_front_used_list, this, List.length_cons]
    rw [wadd_eq (by omega)]
  · have := W.avail_bytes
    simp only [el_add_block_front_used_list, this,
      el_bytes_of_eq_of_size (el_add_block_front_frame s .used b).1]
  · rw [el_bytes_of_cons] at hbt
    rw [(el_add_block_front_used_list s b).2.2.2.1,
      el_bytes_of_eq_of_size (el_add_block_front_frame s .used b).1, el_bytes_of_cons,
      W.used_bytes]
    simp only [EL_BLOCK_OVERHEAD, sizeof_head, sizeof_foot] at hbt ⊢
    have e1 : wadd (32 + 8) (s.size b) = 32 + 8 + s.size b := wadd_eq (by omega)
    rw [e1, wadd_eq (by omega)]
    omega

end

section
variable {A : el_addrs_t} {heap C : Nat} {s : el_state} {bs av us ds : List Nat}

theorem el_wf.set_state (W : el_wf A heap C s bs av us ds) (p v : Nat) :
    el_wf A heap C (s.set_state p v) bs av us ds :=
  W.congr (set_state_proj s p v).2.2.2.2.2 (set_state_proj s p v).1
    (set_state_proj s p v).2.2.1 (set_state_proj s p v).2.2.2.1 (set_state_proj s p v).2.2.2.2.1

theorem erase_of_split {l1 l2 : List Nat} {x : Nat} (h : (l1 ++ x :: l2).Nodup) :
    (l1 ++ x :: l2).erase x = l1 ++ l2 := by
  have hx : x ∉ l1 := by
    intro hx
    rw [List.nodup_append] at h
    exact h.2.2 hx (List.mem_cons_self _ _)
  rw [List.erase_append_right _ hx, List.erase_cons_head]

theorem el_wf.remove_avail_mem {x : Nat} (W : el_wf A heap C s bs av us ds) (hx : x ∈ av) :
    el_wf A heap C (el_remove_block s .avail x) bs (av.erase x) us (x :: ds) := by
  obtain ⟨l1, l2, rfl⟩ := List.append_of_mem hx
  rw [erase_of_split W.members_facts.2.1]
  exact W.remove_avail

theorem el_wf.remove_used_mem {x : Nat} (W : el_wf A heap C s bs av us ds) (hx : x ∈ us) :
    el_wf A heap C (el_remove_block s .used x) bs av (us.erase x) (x :: ds) := by
  obtain ⟨l1, l2, rfl⟩ := List.append_of_mem hx
  rw [erase_of_split W.members_facts.2.2.1]
  exact W.remove_used

/-- The blocks before `f` end at or before `f`, those after start past its end. -/
theorem el_wf.around {b1 b2 : List Nat} {f : Nat}
    (W : el_wf A heap C s (b1 ++ f :: b2) av us ds) :
    el_tiles s heap b1 f ∧ s.foot (f + sizeof_head + s.size f) = s.size f ∧
    el_tiles s (f + EL_BLOCK_OVERHEAD + s.size f) b2 (heap + C) ∧
    (∀ b ∈ b1, b + EL_BLOCK_OVERHEAD + s.size b ≤ f) ∧
    (∀ b ∈ b2, f + EL_BLOCK_OVERHEAD + s.size f ≤ b) ∧
    heap ≤ f ∧ f + EL_BLOCK_OVERHEAD + s.size f ≤ heap + C := by
  obtain ⟨h1, h2, h3⟩ := (el_tiles_split b1 heap f b2 (heap + C)).1 W.tiles
  refine ⟨h1, h2, h3, fun b hb => (el_tiles_mem _ _ _ h1 b hb).2.1,
    fun b hb => (el_tiles_mem _ _ _ h3 b hb).1, el_tiles_le _ _ _ h1, el_tiles_le _ _ _ h3⟩

theorem perm_split_block {X b1 b2 : List Nat} {f g : Nat}
    (h : (f :: X).Perm (b1 ++ f :: b2)) : (f :: g :: X).Perm (b1 ++ f :: g :: b2) := by
  have e1 : b1 ++ f :: g :: b2 = (b1 ++ [f]) ++ g :: b2 := by simp
  have e2 : b1 ++ f :: b2 = (b1 ++ [f]) ++ b2 := by simp
  rw [e1]
  rw [e2] at h
  exact ((List.Perm.swap g f X).trans (h.cons g)).trans List.perm_middle.symm

/-- The stores of `el_split_block` preserve the structural invariant: the block `f`,
momentarily in neither list, is cut into `f` and a new block right above it. -/
theorem el_wf.split_stores {b1 b2 : List Nat} {f n : Nat} {t : el_state}
    (W : el_wf A heap C s (b1 ++ f :: b2) av us (f :: ds))
    (hn : n + EL_BLOCK_OVERHEAD ≤ s.size f)
    (hc : t.ctl = s.ctl) (hx : t.next = s.next) (hp : t.prev = s.prev)
    (hsz : t.size = Function.update (Function.update s.size f n)
      (f + EL_BLOCK_OVERHEAD + n) (s.size f - n - EL_BLOCK_OVERHEAD))
    (hf : t.foot = Function.update (Function.update s.foot (f + sizeof_head + n) n)
      (f + sizeof_head + s.size f) (s.size f - n - EL_BLOCK_OVERHEAD)) :
    el_wf A heap C t (b1 ++ f :: (f + EL_BLOCK_OVERHEAD + n) :: b2) av us
      (f :: (f + EL_BLOCK_OVERHEAD + n) :: ds) := by
  obtain ⟨h1, h2, h3, h4, h5, h6, h7⟩ := W.around
  obtain ⟨_, _, _, m4, _, _, m7, m8⟩ := W.members_facts
  simp only [EL_BLOCK_OVERHEAD, sizeof_head, sizeof_foot] at *
  have hsame : ∀ b, b ∈ b1 ++ f :: b2 → b ≠ f → t.size b = s.size b := by
    intro b hb hbf
    rw [hsz, Function.update_noteq, Function.update_noteq hbf]
    rintro rfl
    rcases List.mem_append.1 hb with hb | hb
    · have := h4 _ hb; omega
    · rcases List.mem_cons.1 hb with hb | hb
      · omega
      · have := h5 _ hb; omega
  have hav : ∀ b ∈ av, t.size b = s.size b := fun b hb =>
    hsame b (m7 b hb) (fun h => (m4 f (List.mem_cons_self _ _)).1 (h ▸ hb))
  have hus : ∀ b ∈ us, t.size b = s.size b := fun b hb =>
    hsame b (m8 b hb) (fun h => (m4 f (List.mem_cons_self _ _)).2 (h ▸ hb))
  have hsf : t.size f = n := by
    rw [hsz, Function.update_noteq (by omega), Function.update_same]
  have hsg : t.size (f + (32 + 8) + n) = s.size f - n - (32 + 8) := by
    rw [hsz, Function.update_same]
  refine
    { env := W.env
      heap_start := by rw [hc]; exact W.heap_start
      heap_end := by rw [hc]; exact W.heap_end
      heap_bytes := by rw [hc]; exact W.heap_bytes
      avail_beg := by rw [hc]; exact W.avail_beg
      avail_end := by rw [hc]; exact W.avail_end
      used_beg := by rw [hc]; exact W.used_beg
      used_end := by rw [hc]; exact W.used_end
      tiles := ?_
      perm := perm_split_block W.perm
      avail_chain := el_chain_frame W.avail_chain (fun y _ => by rw [hx]) (fun y _ => by rw [hp])
      used_chain := el_chain_frame W.used_chain (fun y _ => by rw [hx]) (fun y _ => by rw [hp])
      avail_length := by rw [hc]; exact W.avail_length
      used_length := by rw [hc]; exact W.used_length
      avail_bytes := by rw [hc, W.avail_bytes]; exact (el_bytes_of_congr hav).symm
      used_bytes := by rw [hc, W.used_bytes]; exact (el_bytes_of_congr hus).symm }
  rw [el_tiles_split]
  refine ⟨?_, ?_, ?_, ?_, ?_⟩
  · apply el_tiles_frame _ _ _ h1
    · intro b hb1 hb2
      rw [hsz, Function.update_noteq (by omega), Function.update_noteq (by omega)]
    · intro x hx1 hx2
      rw [hf, Function.update_noteq (by omega), Function.update_noteq (by omega)]
  · simp only [sizeof_head]
    rw [hsf, hf, Function.update_noteq (by omega), Function.update_same]
  · simp only [EL_BLOCK_OVERHEAD, sizeof_head, sizeof_foot]
    rw [hsf]
  · simp only [sizeof_head]
    rw [hsg, hf]
    have e : f + (32 + 8) + n + 32 + (s.size f - n - (32 + 8)) = f + 32 + s.size f := by omega
    rw [e, Function.update_same]
  · simp only [EL_BLOCK_OVERHEAD, sizeof_head, sizeof_foot]
    rw [hsg]
    have e : f + (32 + 8) + n + (32 + 8) + (s.size f - n - (32 + 8)) =
        f + (32 + 8) + s.size f := by omega
    rw [e]
    apply el_tiles_frame _ _ _ h3
    · intro b hb1 hb2
      rw [hsz, Function.update_noteq (by omega), Function.update_noteq (by omega)]
    · intro x hx1 hx2
      rw [hf, Function.update_noteq (by omega), Function.update_noteq (by omega)]

theorem perm_merge_block {X b1 b2 : List Nat} {l a : Nat}
    (h : (l :: a :: X).Perm (b1 ++ l :: a :: b2)) : (l :: X).Perm (b1 ++ l :: b2) := by
  have e1 : b1 ++ l :: a :: b2 = (b1 ++ [l]) ++ a :: b2 := by simp
  have e2 : b1 ++ l :: b2 = (b1 ++ [l]) ++ b2 := by simp
  rw [e1] at h
  rw [e2]
  exact List.Perm.cons_inv (((List.Perm.swap l a X).trans h).trans List.perm_middle)

/-- The size stores of `el_merge_block_with_above` preserve the structural invariant:
the adjacent blocks `l` and `a`, momentarily in neither list, become the one block `l`. -/
theorem el_wf.merge_stores {b1 b2 : List Nat} {l a : Nat} {t : el_state}
    (W : el_wf A heap C s (b1 ++ l :: a :: b2) av us (l :: a :: ds))
    (hc : t.ctl = s.ctl) (hx : t.next = s.next) (hp : t.prev = s.prev)
    (hsz : t.size = Function.update s.size l (s.size l + s.size a + EL_BLOCK_OVERHEAD))
    (hf : t.foot = Function.update s.foot (a + sizeof_head + s.size a)
      (s.size l + s.size a + EL_BLOCK_OVERHEAD)) :
    el_wf A heap C t (b1 ++ l :: b2) av us (l :: ds) := by
  obtain ⟨h1, h2, h3, h4, h5, h6, h7⟩ := W.around
  obtain ⟨_, _, _, m4, _, _, m7, m8⟩ := W.members_facts
  obtain ⟨ha, haf, h3⟩ := h3
  have hae := el_tiles_le _ _ _ h3
  simp only [EL_BLOCK_OVERHEAD, sizeof_head, sizeof_foot] at *
  have hav : ∀ b ∈ av, t.size b = s.size b := fun b hb => by
    rw [hsz, Function.update_noteq]
    rintro rfl
    exact (m4 b (List.mem_cons_self _ _)).1 hb
  have hus : ∀ b ∈ us, t.size b = s.size b := fun b hb => by
    rw [hsz, Function.update_noteq]
    rintro rfl
    exact (m4 b (List.mem_cons_self _ _)).2 hb
  have hsl : t.size l = s.size l + s.size a + (32 + 8) := by
    rw [hsz, Function.update_same]
  refine
    { env := W.env
      heap_start := by rw [hc]; exact W.heap_start
      heap_end := by rw [hc]; exact W.heap_end
      heap_bytes := by rw [hc]; exact W.heap_bytes
      avail_beg := by rw [hc]; exact W.avail_beg
      avail_end := by rw [hc]; exact W.avail_end
      used_beg := by rw [hc]; exact W.used_beg
      used_end := by rw [hc]; exact W.used_end
      tiles := ?_
      perm := perm_merge_block W.perm
      avail_chain := el_chain_frame W.avail_chain (fun y _ => by rw [hx]) (fun y _ => by rw [hp])
      used_chain := el_chain_frame W.used_chain (fun y _ => by rw [hx]) (fun y _ => by rw [hp])
      avail_length := by rw [hc]; exact W.avail_length
      used_length := by rw [hc]; exact W.used_length
      avail_bytes := by rw [hc, W.avail_bytes]; exact (el_bytes_of_congr hav).symm
      used_bytes := by rw [hc, W.used_bytes]; exact (el_bytes_of_congr hus).symm }
  rw [el_tiles_split]
  refine ⟨?_, ?_, ?_⟩
  · apply el_tiles_frame _ _ _ h1
    · intro b hb1 hb2
      rw [hsz, Function.update_noteq (by omega)]
    · intro x hx1 hx2
      rw [hf, Function.update_noteq (by omega)]
  · simp only [sizeof_head]
    rw [hsl, hf]
    have e : l + 32 + (s.size l + s.size a + (32 + 8)) = a + 32 + s.size a := by omega
    rw [e, Function.update_same]
  · simp only [EL_BLOCK_OVERHEAD, sizeof_head, sizeof_foot]
    rw [hsl]
    have e : l + (32 + 8) + (s.size l + s.size a + (32 + 8)) = a + (32 + 8) + s.size a := by
      omega
    rw [e]
    apply el_tiles_frame _ _ _ h3
    · intro b hb1 hb2
      rw [hsz, Function.update_noteq (by omega)]
    · intro x hx1 hx2
      rw [hf, Function.update_noteq (by omega)]

end

/-! ## `el_init_blocklist`, `el_split_block`, field by field -/

theorem el_init_blocklist_mem (A : el_addrs_t) (s : el_state) (l : el_list_id) :
    (el_init_blocklist A s l).next =
      Function.update (Function.update s.next (A.beg_actual l) (A.end_actual l))
        (A.end_actual l) NULL ∧
    (el_init_blocklist A s l).prev =
      Function.update (Function.update s.prev (A.beg_actual l) NULL)
        (A.end_actual l) (A.beg_actual l) ∧
    (el_init_blocklist A s l).size =
      Function.update (Function.update s.size (A.beg_actual l) EL_UNINITIALIZED)
        (A.end_actual l) EL_UNINITIALIZED ∧
    (el_init_blocklist A s l).state =
      Function.update (Function.update s.state (A.beg_actual l) EL_BEGIN_BLOCK)
        (A.end_actual l) EL_END_BLOCK ∧
    (el_init_blocklist A s l).foot = s.foot ∧
    (el_init_blocklist A s l).ctl.heap_start = s.ctl.heap_start ∧
    (el_init_blocklist A s l).ctl.heap_end = s.ctl.heap_end ∧
    (el_init_blocklist A s l).ctl.heap_bytes = s.ctl.heap_bytes := by
  cases l <;> simp [el_init_blocklist]

theorem el_init_blocklist_avail (A : el_addrs_t) (s : el_state) :
    (el_init_blocklist A s .avail).ctl.avail =
      ⟨A.avail_beg_actual, A.avail_end_actual, 0, 0⟩ ∧
    (el_init_blocklist A s .avail).ctl.used = s.ctl.used := by
  simp [el_init_blocklist, el_addrs_t.beg_actual, el_addrs_t.end_actual]

theorem el_init_blocklist_used (A : el_addrs_t) (s : el_state) :
    (el_init_blocklist A s .used).ctl.used =
      ⟨A.used_beg_actual, A.used_end_actual, 0, 0⟩ ∧
    (el_init_blocklist A s .used).ctl.avail = s.ctl.avail := by
  simp [el_init_blocklist, el_addrs_t.beg_actual, el_addrs_t.end_actual]

theorem el_split_block_fields (s : el_state) (f n : Nat)
    (h1 : n + EL_BLOCK_OVERHEAD ≤ s.size f) (h2 : f ≠ NULL)
    (h3 : f + EL_BLOCK_OVERHEAD + s.size f < 2 ^ 64) :
    (el_split_block s f n).2 = f + EL_BLOCK_OVERHEAD + n ∧
    (el_split_block s f n).1.ctl = s.ctl ∧
    (el_split_block s f n).1.next = s.next ∧
    (el_split_block s f n).1.prev = s.prev ∧
    (el_split_block s f n).1.state = s.state ∧
    (el_split_block s f n).1.size = Function.update (Function.update s.size f n)
      (f + EL_BLOCK_OVERHEAD + n) (s.size f - n - EL_BLOCK_OVERHEAD) ∧
    (el_split_block s f n).1.foot =
      Function.update (Function.update s.foot (f + sizeof_head + n) n)
        (f + sizeof_head + s.size f) (s.size f - n - EL_BLOCK_OVERHEAD) := by
  simp only [EL_BLOCK_OVERHEAD, sizeof_head, sizeof_foot] at *
  have e1 : wadd n (32 + 8) = n + (32 + 8) := wadd_eq (by omega)
  have e2 : wadd n 8 = n + 8 := wadd_eq (by omega)
  have e3 : wadd (n + 8) 32 = n + 8 + 32 := wadd_eq (by omega)
  have e4 : wadd f (n + 8 + 32) = f + (32 + 8) + n := by rw [wadd_eq (by omega)]; omega
  have e5 : wadd n 32 = n + 32 := wadd_eq (by omega)
  have e6 : wadd f (n + 32) = f + 32 + n := by rw [wadd_eq (by omega)]; omega
  have e7 : wadd 32 (s.size f) = 32 + s.size f := wadd_eq (by omega)
  have e8 : wadd f (32 + s.size f) = f + 32 + s.size f := by rw [wadd_eq (by omega)]; omega
  have e9 : wsub (s.size f) n = s.size f - n := wsub_eq (by omega) (by omega)
  have e10 : wsub (s.size f - n) (32 + 8) = s.size f - n - (32 + 8) :=
    wsub_eq (by omega) (by omega)
  have hc : ¬ (s.size f < n + (32 + 8) ∨ f = NULL) := by
    rintro (h | h)
    · omega
    · exact h2 h
  simp only [PTR_PLUS_BYTES, PTR_MINUS_BYTES, PTR_MINUS_PTR, el_split_block, EL_BLOCK_OVERHEAD, sizeof_head, sizeof_foot, el_get_footer, e1, e2,
    e3, e4, e5, e6, e7, e8, e9, e10, if_neg hc, set_size_proj, set_foot_proj, and_self]

/-! ## First fit -/

theorem el_find_first_avail_loop_chain (s : el_state) (n : Nat) :
    ∀ (xs : List Nat) (p e : Nat), el_chain s p xs e →
      (el_find_first_avail_loop s n xs.length (s.next p) = NULL ∧
          ∀ b ∈ xs, s.size b < wadd n EL_BLOCK_OVERHEAD) ∨
      (∃ l1 l2, xs = l1 ++ el_find_first_avail_loop s n xs.length (s.next p) :: l2 ∧
          wadd n EL_BLOCK_OVERHEAD ≤ s.size (el_find_first_avail_loop s n xs.length (s.next p)) ∧
          ∀ b ∈ l1, s.size b < wadd n EL_BLOCK_OVERHEAD) := by
  intro xs
  induction xs with
  | nil => intro p e _; left; simp [el_find_first_avail_loop]
  | cons x xs ih =>
    intro p e hc
    obtain ⟨hx, _, hc⟩ := hc
    simp only [List.length_cons, el_find_first_avail_loop, hx]
    by_cases hs : wadd n EL_BLOCK_OVERHEAD ≤ s.size x
    · right
      simp only [ge_iff_le, hs, if_true]
      exact ⟨[], xs, rfl, trivial, by simp⟩
    · simp only [ge_iff_le, hs, if_false]
      rcases ih x e hc with ⟨h0, hall⟩ | ⟨l1, l2, hsplit, hsz, hall⟩
      · left
        refine ⟨h0, ?_⟩
        intro b hb
        rcases List.mem_cons.1 hb with rfl | hb
        · omega
        · exact hall b hb
      · right
        refine ⟨x :: l1, l2, ?_, hsz, ?_⟩
        · rw [List.cons_append, ← hsplit]
        · intro b hb
          rcases List.mem_cons.1 hb with rfl | hb
          · omega
          · exact hall b hb

section
variable {A : el_addrs_t} {heap C : Nat} {s : el_state} {bs av us : List Nat}

theorem el_wf.block_pos {ds : List Nat} (W : el_wf A heap C s bs av us ds) {b : Nat}
    (hb : b ∈ bs) : b ≠ NULL ∧ 8 ≤ b ∧ b + EL_BLOCK_OVERHEAD + s.size b < 2 ^ 64 := by
  have h1 := W.block_range hb
  have h2 := W.env.heap_low
  have h3 := W.env.heap_high
  simp only [sizeof_foot, NULL] at *
  refine ⟨by omega, by omega, by omega⟩

/-- What `el_malloc` does in a state that satisfies the invariant, for a request
that does not wrap. -/
theorem el_malloc_spec (I : el_inv A heap C s bs av us) {n : Nat}
    (hn : n + EL_BLOCK_OVERHEAD < 2 ^ 64) :
    (el_find_first_avail s n = NULL ∧ (∀ b ∈ av, s.size b < n + EL_BLOCK_OVERHEAD) ∧
        el_malloc s n = (s, NULL)) ∨
    (∃ l1 l2 b1 b2 f, el_find_first_avail s n = f ∧ av = l1 ++ f :: l2 ∧
        bs = b1 ++ f :: b2 ∧ n + EL_BLOCK_OVERHEAD ≤ s.size f ∧
        (∀ b ∈ l1, s.size b < n + EL_BLOCK_OVERHEAD) ∧
        (el_malloc s n).2 = f + sizeof_head ∧
        el_inv A heap C (el_malloc s n).1 (b1 ++ f :: (f + EL_BLOCK_OVERHEAD + n) :: b2)
          ((f + EL_BLOCK_OVERHEAD + n) :: (l1 ++ l2)) (f :: us) ∧
        (el_malloc s n).1.size f = n ∧
        (el_malloc s n).1.size (f + EL_BLOCK_OVERHEAD + n) = s.size f - n - EL_BLOCK_OVERHEAD ∧
        (∀ b ∈ bs, b ≠ f → (el_malloc s n).1.size b = s.size b)) := by
  have W := I.wf
  have hfe : el_find_first_avail s n =
      el_find_first_avail_loop s n av.length (s.next A.avail_beg_actual) := by
    simp only [el_find_first_avail, W.avail_length, W.avail_beg]
  have e40 : wadd n EL_BLOCK_OVERHEAD = n + EL_BLOCK_OVERHEAD := wadd_eq hn
  have hfind := el_find_first_avail_loop_chain s n av _ _ W.avail_chain
  rw [← hfe, e40] at hfind
  rcases hfind with ⟨h0, hall⟩ | ⟨l1, l2, hsplit, hsz, hall⟩
  · left
    refine ⟨h0, hall, ?_⟩
    simp only [PTR_PLUS_BYTES, PTR_MINUS_BYTES, PTR_MINUS_PTR, el_malloc, h0, if_true]
  · right
    generalize hff : el_find_first_avail s n = f at hsplit hsz
    subst hsplit
    have hfbs : f ∈ bs := W.mem_bs (by simp)
    obtain ⟨b1, b2, rfl⟩ := List.append_of_mem hfbs
    obtain ⟨hf0, hf8, hfhi⟩ := W.block_pos hfbs
    refine ⟨l1, l2, b1, b2, f, rfl, rfl, rfl, hsz, hall, ?_⟩
    -- the five steps of the allocation
    have W1 := W.remove_avail
    have hs1 : (el_remove_block s .avail f).size = s.size := (el_remove_block_frame _ _ _).1
    have hst1 : (el_remove_block s .avail f).state = s.state := (el_remove_block_frame _ _ _).2.1
    obtain ⟨r2, rc, rn, rp, rst, rsz, rf⟩ := el_split_block_fields (el_remove_block s .avail f) f n
      (by rw [hs1]; exact hsz) hf0 (by rw [hs1]; exact hfhi)
    rw [hs1] at rsz
    have rf2 := rf
    rw [hs1, (el_remove_block_frame s .avail f).2.2.1] at rf2
    have W2 := W1.split_stores (t := (el_split_block (el_remove_block s .avail f) f n).1)
      (by rw [hs1]; exact hsz) rc rn rp (by rw [hs1]; exact rsz) rf
    have W3 := W2.add_used
    have W4 := W3.set_state f EL_USED
    have W4b := W4.add_avail
    have W5 := W4b.set_state (f + EL_BLOCK_OVERHEAD + n) EL_AVAILABLE
    have hm : el_malloc s n = ((el_add_block_front ((el_add_block_front
      (el_split_block (el_remove_block s .avail f) f n).1 .used f).set_state f EL_USED) .avail
      (f + EL_BLOCK_OVERHEAD + n)).set_state (f + EL_BLOCK_OVERHEAD + n) EL_AVAILABLE,
      f + sizeof_head) := by
      have e32 : wadd f sizeof_head = f + sizeof_head := wadd_eq (by
        simp only [EL_BLOCK_OVERHEAD, sizeof_head, sizeof_foot] at hfhi ⊢; omega)
      simp only [PTR_PLUS_BYTES, PTR_MINUS_BYTES, PTR_MINUS_PTR, el_malloc, hff, if_neg hf0, r2, e32]
    rw [hm]
    have hsize : ((el_add_block_front ((el_add_block_front
        (el_split_block (el_remove_block s .avail f) f n).1 .used f).set_state f EL_USED) .avail
        (f + EL_BLOCK_OVERHEAD + n)).set_state (f + EL_BLOCK_OVERHEAD + n) EL_AVAILABLE).size =
        Function.update (Function.update s.size f n)
          (f + EL_BLOCK_OVERHEAD + n) (s.size f - n - EL_BLOCK_OVERHEAD) := by
      simp only [set_state_proj, el_add_block_front_frame, rsz]
    have hstate : ((el_add_block_front ((el_add_block_front
        (el_split_block (el_remove_block s .avail f) f n).1 .used f).set_state f EL_USED) .avail
        (f + EL_BLOCK_OVERHEAD + n)).set_state (f + EL_BLOCK_OVERHEAD + n) EL_AVAILABLE).state =
        Function.update (Function.update s.state f EL_USED)
          (f + EL_BLOCK_OVERHEAD + n) EL_AVAILABLE := by
      simp only [set_state_proj, el_add_block_front_frame, rst, hst1]
    have hne : f ≠ f + EL_BLOCK_OVERHEAD + n := by
      simp only [EL_BLOCK_OVERHEAD, sizeof_head, sizeof_foot]; omega
    obtain ⟨_, m2, m3, _, m5, _, _, _⟩ := W5.members_facts
    refine ⟨rfl, ⟨W5, ?_, ?_⟩, ?_, ?_, ?_⟩
    · intro b hb
      rw [hstate]
      rcases List.mem_cons.1 hb with rfl | hb2
      · rw [Function.update_same]
      · have hb1 : b ≠ f + EL_BLOCK_OVERHEAD + n := by
          rintro rfl; exact (List.nodup_cons.1 m2).1 hb2
        have hb3 : b ≠ f := by
          rintro rfl; exact m5 _ hb (List.mem_cons_self _ _)
        rw [Function.update_noteq hb1, Function.update_noteq hb3]
        exact I.avail_state b (by
          rcases List.mem_append.1 hb2 with h | h
          · exact List.mem_append_left _ h
          · exact List.mem_append_right _ (List.mem_cons_of_mem _ h))
    · intro b hb
      rw [hstate]
      have hb1 : b ≠ f + EL_BLOCK_OVERHEAD + n := by
        rintro rfl; exact m5 _ (List.mem_cons_self _ _) hb
      rw [Function.update_noteq hb1]
      rcases List.mem_cons.1 hb with rfl | hb2
      · rw [Function.update_same]
      · have hb3 : b ≠ f := by
          rintro rfl; exact (List.nodup_cons.1 m3).1 hb2
        rw [Function.update_noteq hb3]
        exact I.used_state b hb2
    · rw [hsize, Function.update_noteq hne, Function.update_same]
    · rw [hsize, Function.update_same]
    · intro b hb hbf
      have hb1 : b ≠ f + EL_BLOCK_OVERHEAD + n := by
        rintro rfl
        obtain ⟨_, _, _, h4, h5, _, _⟩ := W.around
        simp only [EL_BLOCK_OVERHEAD, sizeof_head, sizeof_foot] at *
        rcases List.mem_append.1 hb with hb | hb
        · have := h4 _ hb; omega
        · rcases List.mem_cons.1 hb with hb | hb
          · omega
          · have := h5 _ hb; omega
      rw [hsize, Function.update_noteq hb1, Function.update_noteq hbf]

end

/-! ## Physical neighbours -/

section
variable {A : el_addrs_t} {heap C : Nat} {s : el_state} {bs av us ds : List Nat}

theorem el_block_above_last {b1 : List Nat} {l : Nat}
    (W : el_wf A heap C s (b1 ++ [l]) av us ds) : el_block_above s l = NULL := by
  obtain ⟨_, _, h3, _, _, h6, h7⟩ := W.around
  have hh := W.env.heap_high
  have h3 : l + EL_BLOCK_OVERHEAD + s.size l = heap + C := h3
  simp only [EL_BLOCK_OVERHEAD, sizeof_head, sizeof_foot] at *
  have e1 : wadd (s.size l) (32 + 8) = s.size l + (32 + 8) := wadd_eq (by omega)
  have e2 : wadd l (s.size l + (32 + 8)) = l + (s.size l + (32 + 8)) := wadd_eq (by omega)
  simp only [PTR_PLUS_BYTES, PTR_MINUS_BYTES, PTR_MINUS_PTR, el_block_above, EL_BLOCK_OVERHEAD, sizeof_head, sizeof_foot, e1, e2, W.heap_end]
  rw [if_pos (by omega)]

theorem el_block_above_next {b1 b2 : List Nat} {l a : Nat}
    (W : el_wf A heap C s (b1 ++ l :: a :: b2) av us ds) :
    el_block_above s l = a ∧ a = l + EL_BLOCK_OVERHEAD + s.size l := by
  obtain ⟨_, _, h3, _, _, h6, h7⟩ := W.around
  have hh := W.env.heap_high
  obtain ⟨ha, _, h3⟩ := h3
  have hae := el_tiles_le _ _ _ h3
  simp only [EL_BLOCK_OVERHEAD, sizeof_head, sizeof_foot] at *
  have e1 : wadd (s.size l) (32 + 8) = s.size l + (32 + 8) := wadd_eq (by omega)
  have e2 : wadd l (s.size l + (32 + 8)) = l + (s.size l + (32 + 8)) := wadd_eq (by omega)
  simp only [PTR_PLUS_BYTES, PTR_MINUS_BYTES, PTR_MINUS_PTR, el_block_above, EL_BLOCK_OVERHEAD, sizeof_head, sizeof_foot, e1, e2, W.heap_end]
  rw [if_neg (by omega)]
  exact ⟨by omega, ha⟩

theorem el_block_below_first {b2 : List Nat} {h : Nat}
    (W : el_wf A heap C s (h :: b2) av us ds) : el_block_below s h = NULL := by
  have hh := W.env.heap_high
  have hl := W.env.heap_low
  have h1 : h = heap := W.tiles.1
  simp only [sizeof_foot] at hl
  have e1 : wsub h sizeof_foot = h - 8 := by
    simp only [sizeof_foot]; exact wsub_eq (by omega) (by omega)
  simp only [PTR_PLUS_BYTES, PTR_MINUS_BYTES, PTR_MINUS_PTR, el_block_below, e1, W.heap_start]
  rw [if_pos (by omega)]

theorem el_block_below_prev {b1 b2 : List Nat} {l h : Nat}
    (W : el_wf A heap C s (b1 ++ l :: h :: b2) av us ds) : el_block_below s h = l := by
  obtain ⟨_, hf, h3, _, _, h6, h7⟩ := W.around
  have hh := W.env.heap_high
  obtain ⟨ha, _, h3⟩ := h3
  have hae := el_tiles_le _ _ _ h3
  simp only [EL_BLOCK_OVERHEAD, sizeof_head, sizeof_foot] at *
  have e1 : wsub h sizeof_foot = l + 32 + s.size l := by
    simp only [sizeof_foot]; rw [wsub_eq (by omega) (by omega)]; omega
  have e2 : wadd (s.size l) 32 = s.size l + 32 := wadd_eq (by omega)
  have e3 : wsub (l + 32 + s.size l) (s.size l + 32) = l := by
    rw [wsub_eq (by omega) (by omega)]; omega
  simp only [PTR_PLUS_BYTES, PTR_MINUS_BYTES, PTR_MINUS_PTR, el_block_below, el_get_header, e1, W.heap_start, hf, e2, e3, sizeof_head]
  rw [if_neg (by omega)]

end

/-! ## Coalescing -/

section
variable {A : el_addrs_t} {heap C : Nat} {s : el_state} {bs av us : List Nat}

theorem el_used_ne_avail : EL_USED ≠ EL_AVAILABLE := by decide

theorem el_inv.mem_cases (I : el_inv A heap C s bs av us) {b : Nat} (hb : b ∈ bs) :
    (b ∈ av ∧ s.state b = EL_AVAILABLE) ∨ (b ∈ us ∧ s.state b = EL_USED) := by
  have := I.wf.perm.mem_iff.2 hb
  simp only [List.nil_append] at this
  rcases List.mem_append.1 this with h | h
  · exact Or.inl ⟨h, I.avail_state b h⟩
  · exact Or.inr ⟨h, I.used_state b h⟩

theorem el_inv.state_avail_iff (I : el_inv A heap C s bs av us) {b : Nat} (hb : b ∈ bs) :
    s.state b = EL_AVAILABLE ↔ b ∈ av := by
  constructor
  · intro h
    rcases I.mem_cases hb with h1 | h1
    · exact h1.1
    · rw [h1.2] at h; exact absurd h el_used_ne_avail
  · exact I.avail_state b

/-- The merge does nothing when the conditions of its guard fail. -/
theorem el_merge_noop_state {l : Nat} (h : s.state l ≠ EL_AVAILABLE) :
    el_merge_block_with_above s l = s := by
  simp only [el_merge_block_with_above]
  rw [if_pos (Or.inr (Or.inl h))]

theorem el_merge_noop_last {b1 : List Nat} {l : Nat}
    (I : el_inv A heap C s (b1 ++ [l]) av us) : el_merge_block_with_above s l = s := by
  simp [el_merge_block_with_above, el_block_above_last I.wf]

theorem el_merge_noop_above {b1 b2 : List Nat} {l a : Nat}
    (I : el_inv A heap C s (b1 ++ l :: a :: b2) av us) (ha : s.state a ≠ EL_AVAILABLE) :
    el_merge_block_with_above s l = s := by
  simp only [el_merge_block_with_above, (el_block_above_next I.wf).1]
  rw [if_pos (Or.inr (Or.inr (Or.inr ha)))]

/-- The merge of two adjacent available blocks. -/
theorem el_merge_do {b1 b2 : List Nat} {l a : Nat}
    (I : el_inv A heap C s (b1 ++ l :: a :: b2) av us) (hl : l ∈ av) (ha : a ∈ av) :
    el_inv A heap C (el_merge_block_with_above s l) (b1 ++ l :: b2)
      (l :: (av.erase a).erase l) us ∧
    (el_merge_block_with_above s l).size =
      Function.update s.size l (s.size l + s.size a + EL_BLOCK_OVERHEAD) ∧
    (el_merge_block_with_above s l).state = s.state ∧
    (el_merge_block_with_above s l).foot (el_get_footer (el_merge_block_with_above s l) l) =
      s.size l + s.size a + EL_BLOCK_OVERHEAD := by
  have W := I.wf
  obtain ⟨hab, haeq⟩ := el_block_above_next W
  obtain ⟨_, _, h3, _, _, h6, h7⟩ := W.around
  obtain ⟨ha1, haf, h3⟩ := h3
  have hae := el_tiles_le _ _ _ h3
  have hh := W.env.heap_high
  have hl8 := W.env.heap_low
  have hla : l ≠ a := by
    simp only [EL_BLOCK_OVERHEAD, sizeof_head, sizeof_foot] at haeq; omega
  have hl2 : l ∈ av.erase a := (List.mem_erase_of_ne hla).2 hl
  have W1 := W.remove_avail_mem ha
  have W2 := W1.remove_avail_mem hl2
  have hsz1 : (el_remove_block (el_remove_block s .avail a) .avail l).size = s.size := by
    rw [(el_remove_block_frame _ _ _).1, (el_remove_block_frame _ _ _).1]
  have hft1 : (el_remove_block (el_remove_block s .avail a) .avail l).foot = s.foot := by
    rw [(el_remove_block_frame _ _ _).2.2.1, (el_remove_block_frame _ _ _).2.2.1]
  have hst1 : (el_remove_block (el_remove_block s .avail a) .avail l).state = s.state := by
    rw [(el_remove_block_frame _ _ _).2.1, (el_remove_block_frame _ _ _).2.1]
  have e1 : wadd (s.size l) (s.size a) = s.size l + s.size a := wadd_eq (by
    simp only [EL_BLOCK_OVERHEAD, sizeof_head, sizeof_foot] at *; omega)
  have e2 : wadd (s.size l + s.size a) EL_BLOCK_OVERHEAD =
      s.size l + s.size a + EL_BLOCK_OVERHEAD := wadd_eq (by
    simp only [EL_BLOCK_OVERHEAD, sizeof_head, sizeof_foot] at *; omega)
  have e3 : el_get_footer s a = a + sizeof_head + s.size a := by
    simp only [EL_BLOCK_OVERHEAD, sizeof_head, sizeof_foot] at *
    have e4 : wadd 32 (s.size a) = 32 + s.size a := wadd_eq (by omega)
    simp only [PTR_PLUS_BYTES, PTR_MINUS_BYTES, PTR_MINUS_PTR, el_get_footer, sizeof_head, e4]
    rw [wadd_eq (by omega)]; omega
  have hcond : ¬ (l = NULL ∨ s.state l ≠ EL_AVAILABLE ∨ a = NULL ∨ s.state a ≠ EL_AVAILABLE) := by
    have hl0 := (W.block_pos (W.members_facts.2.2.2.2.2.2.1 l hl)).1
    have ha0 := (W.block_pos (W.members_facts.2.2.2.2.2.2.1 a ha)).1
    have s1 := I.avail_state l hl
    have s2 := I.avail_state a ha
    tauto
  have hm : el_merge_block_with_above s l =
      el_add_block_front (((el_remove_block (el_remove_block s .avail a) .avail l).set_size l
        (s.size l + s.size a + EL_BLOCK_OVERHEAD)).set_foot (a + sizeof_head + s.size a)
        (s.size l + s.size a + EL_BLOCK_OVERHEAD)) .avail l := by
    simp only [el_merge_block_with_above, hab, if_neg hcond, e1, e2, e3]
  have W3 := (W2.perm_detached (List.Perm.refl _)).merge_stores
    (t := ((el_remove_block (el_remove_block s .avail a) .avail l).set_size l
        (s.size l + s.size a + EL_BLOCK_OVERHEAD)).set_foot (a + sizeof_head + s.size a)
        (s.size l + s.size a + EL_BLOCK_OVERHEAD))
    (by simp only [set_foot_proj, set_size_proj])
    (by simp only [set_foot_proj, set_size_proj])
    (by simp only [set_foot_proj, set_size_proj])
    (by simp only [set_foot_proj, set_size_proj, hsz1])
    (by simp only [set_foot_proj, set_size_proj, hsz1, hft1])
  have W4 := W3.add_avail
  rw [hm]
  have hsize : (el_add_block_front (((el_remove_block (el_remove_block s .avail a) .avail l).set_size l
        (s.size l + s.size a + EL_BLOCK_OVERHEAD)).set_foot (a + sizeof_head + s.size a)
        (s.size l + s.size a + EL_BLOCK_OVERHEAD)) .avail l).size =
      Function.update s.size l (s.size l + s.size a + EL_BLOCK_OVERHEAD) := by
    simp only [el_add_block_front_frame, set_foot_proj, set_size_proj, hsz1]
  have hstate : (el_add_block_front (((el_remove_block (el_remove_block s .avail a) .avail l).set_size l
        (s.size l + s.size a + EL_BLOCK_OVERHEAD)).set_foot (a + sizeof_head + s.size a)
        (s.size l + s.size a + EL_BLOCK_OVERHEAD)) .avail l).state = s.state := by
    simp only [el_add_block_front_frame, set_foot_proj, set_size_proj, hst1]
  refine ⟨⟨W4, ?_, ?_⟩, hsize, hstate, ?_⟩
  · intro b hb
    rw [hstate]
    rcases List.mem_cons.1 hb with rfl | hb
    · exact I.avail_state _ hl
    · exact I.avail_state _ (List.mem_of_mem_erase (List.mem_of_mem_erase hb))
  · intro b hb
    rw [hstate]
    exact I.used_state b hb
  · have hfoot : (el_add_block_front (((el_remove_block (el_remove_block s .avail a) .avail
        l).set_size l (s.size l + s.size a + EL_BLOCK_OVERHEAD)).set_foot
        (a + sizeof_head + s.size a) (s.size l + s.size a + EL_BLOCK_OVERHEAD)) .avail l).foot =
        Function.update s.foot (a + sizeof_head + s.size a)
          (s.size l + s.size a + EL_BLOCK_OVERHEAD) := by
      simp only [el_add_block_front_frame, set_foot_proj, set_size_proj, hft1]
    have e5 : wadd sizeof_head (s.size l + s.size a + EL_BLOCK_OVERHEAD) =
        sizeof_head + (s.size l + s.size a + EL_BLOCK_OVERHEAD) := wadd_eq (by
      simp only [EL_BLOCK_OVERHEAD, sizeof_head, sizeof_foot] at *; omega)
    have e6 : wadd l (sizeof_head + (s.size l + s.size a + EL_BLOCK_OVERHEAD)) =
        a + sizeof_head + s.size a := by
      rw [wadd_eq (by simp only [EL_BLOCK_OVERHEAD, sizeof_head, sizeof_foot] at *; omega)]
      simp only [EL_BLOCK_OVERHEAD, sizeof_head, sizeof_foot] at *; omega
    simp only [PTR_PLUS_BYTES, PTR_MINUS_BYTES, PTR_MINUS_PTR, el_get_footer, hsize, hfoot, Function.update_same, e5, e6]

end

/-! ## De-allocation -/

section
variable {A : el_addrs_t} {heap C : Nat} {s : el_state} {bs av us : List Nat}

theorem el_free_moved_spec (I : el_inv A heap C s bs av us) {h : Nat} (hh : h ∈ us) :
    el_inv A heap C (el_free_moved s h) bs (h :: av) (us.erase h) ∧
    (el_free_moved s h).size = s.size ∧ (el_free_moved s h).foot = s.foot ∧
    (el_free_moved s h).state = Function.update s.state h EL_AVAILABLE := by
  have W := I.wf
  have W1 := W.remove_used_mem hh
  have W2 := W1.set_state h EL_AVAILABLE
  have W3 := W2.add_avail
  have hstate : (el_free_moved s h).state = Function.update s.state h EL_AVAILABLE := by
    simp only [PTR_PLUS_BYTES, PTR_MINUS_BYTES, PTR_MINUS_PTR, el_free_moved, el_add_block_front_frame, set_state_proj, el_remove_block_frame]
  have hsize : (el_free_moved s h).size = s.size := by
    simp only [PTR_PLUS_BYTES, PTR_MINUS_BYTES, PTR_MINUS_PTR, el_free_moved, el_add_block_front_frame, set_state_proj, el_remove_block_frame]
  have hfoot : (el_free_moved s h).foot = s.foot := by
    simp only [PTR_PLUS_BYTES, PTR_MINUS_BYTES, PTR_MINUS_PTR, el_free_moved, el_add_block_front_frame, set_state_proj, el_remove_block_frame]
  obtain ⟨_, _, m3, _, m5, _, _, _⟩ := W.members_facts
  refine ⟨⟨W3, ?_, ?_⟩, hsize, hfoot, hstate⟩
  · intro b hb
    rw [hstate]
    rcases List.mem_cons.1 hb with rfl | hb2
    · rw [Function.update_same]
    · rw [Function.update_noteq]
      · exact I.avail_state b hb2
      · rintro rfl; exact m5 _ hb2 hh
  · intro b hb
    rw [hstate, Function.update_noteq]
    · exact I.used_state b (List.mem_of_mem_erase hb)
    · rintro rfl
      exact (List.Nodup.not_mem_erase m3) hb

theorem el_free_eq (I : el_inv A heap C s bs av us) {h : Nat} (hh : h ∈ us) :
    el_free s (h + sizeof_head) =
      if el_block_below s h ≠ NULL then
        el_merge_block_with_above (el_merge_block_with_above (el_free_moved s h) h)
          (el_block_below s h)
      else el_merge_block_with_above (el_free_moved s h) h := by
  have W := I.wf
  have hb := W.block_pos (W.members_facts.2.2.2.2.2.2.2 h hh)
  have e1 : wsub (h + sizeof_head) sizeof_head = h := by
    simp only [EL_BLOCK_OVERHEAD, sizeof_head, sizeof_foot] at *
    rw [wsub_eq (by omega) (by omega)]; omega
  have hst : s.state h ≠ EL_AVAILABLE := by
    rw [I.used_state h hh]; exact el_used_ne_avail
  simp only [PTR_PLUS_BYTES, PTR_MINUS_BYTES, PTR_MINUS_PTR, el_free, e1, if_neg hst, el_free_moved]

end

/-! ## Initialisation -/

theorem el_init_lists_fields (A : el_addrs_t) (heap : Nat) (s : el_state) (C : Nat) :
    (el_init_lists A heap s C).ctl.heap_start = heap ∧
    (el_init_lists A heap s C).ctl.heap_end = wadd heap C ∧
    (el_init_lists A heap s C).ctl.heap_bytes = C ∧
    (el_init_lists A heap s C).ctl.avail = ⟨A.avail_beg_actual, A.avail_end_actual, 0, 0⟩ ∧
    (el_init_lists A heap s C).ctl.used = ⟨A.used_beg_actual, A.used_end_actual, 0, 0⟩ ∧
    (el_init_lists A heap s C).foot = s.foot ∧
    (el_init_lists A heap s C).next =
      Function.update (Function.update (Function.update (Function.update s.next
        A.avail_beg_actual A.avail_end_actual) A.avail_end_actual NULL)
        A.used_beg_actual A.used_end_actual) A.used_end_actual NULL ∧
    (el_init_lists A heap s C).prev =
      Function.update (Function.update (Function.update (Function.update s.prev
        A.avail_beg_actual NULL) A.avail_end_actual A.avail_beg_actual)
        A.used_beg_actual NULL) A.used_end_actual A.used_beg_actual := by
  simp only [PTR_PLUS_BYTES, PTR_MINUS_BYTES, PTR_MINUS_PTR, el_init_lists, el_init_blocklist_mem, el_init_blocklist_avail,
    el_init_blocklist_used, el_addrs_t.beg_actual, el_addrs_t.end_actual, and_self]

theorem el_init_eq (A : el_addrs_t) (heap : Nat) (s : el_state) (C : Nat)
    (h1 : EL_BLOCK_OVERHEAD ≤ C) (h2 : heap + C < 2 ^ 64) :
    el_init A heap s C =
      (el_add_block_front ((((el_init_lists A heap s C).set_size heap
        (C - EL_BLOCK_OVERHEAD)).set_state heap EL_AVAILABLE).set_foot
        (heap + sizeof_head + (C - EL_BLOCK_OVERHEAD)) (C - EL_BLOCK_OVERHEAD)) .avail heap, 0) := by
  have hc : ¬ C < EL_BLOCK_OVERHEAD := by omega
  have e1 : wsub C EL_BLOCK_OVERHEAD = C - EL_BLOCK_OVERHEAD := wsub_eq h1 (by omega)
  have e2 : wadd sizeof_head (C - EL_BLOCK_OVERHEAD) = sizeof_head + (C - EL_BLOCK_OVERHEAD) :=
    wadd_eq (by simp only [EL_BLOCK_OVERHEAD, sizeof_head, sizeof_foot] at *; omega)
  have e3 : wadd heap (sizeof_head + (C - EL_BLOCK_OVERHEAD)) =
      heap + sizeof_head + (C - EL_BLOCK_OVERHEAD) := by
    rw [wadd_eq (by simp only [EL_BLOCK_OVERHEAD, sizeof_head, sizeof_foot] at *; omega)]
    omega
  simp only [PTR_PLUS_BYTES, PTR_MINUS_BYTES, PTR_MINUS_PTR, el_init, if_neg hc, el_init_blocklist_mem, el_get_footer, set_size_proj,
    set_state_proj, Function.update_same, e1, e2, e3, el_init_lists]

theorem el_init_spec {A : el_addrs_t} {heap C : Nat} (s : el_state) (E : el_env_ok A heap C)
    (h1 : EL_BLOCK_OVERHEAD ≤ C) :
    (el_init A heap s C).2 = 0 ∧
    el_inv A heap C (el_init A heap s C).1 [heap] [heap] [] ∧
    (el_init A heap s C).1.size heap = C - EL_BLOCK_OVERHEAD := by
  rw [el_init_eq A heap s C h1 E.heap_high]
  obtain ⟨f1, f2, f3, f4, f5, f6, f7, f8⟩ := el_init_lists_fields A heap s C
  have hs := E.sentinels_nodup
  simp only [List.nodup_cons, List.mem_cons, List.mem_singleton, List.not_mem_nil,
    List.nodup_nil, not_or, or_false, not_false_eq_true, and_true] at hs
  obtain ⟨⟨n1, n2, n3⟩, ⟨n4, n5⟩, n6⟩ := hs
  have W0 : el_wf A heap C ((((el_init_lists A heap s C).set_size heap
      (C - EL_BLOCK_OVERHEAD)).set_state heap EL_AVAILABLE).set_foot
      (heap + sizeof_head + (C - EL_BLOCK_OVERHEAD)) (C - EL_BLOCK_OVERHEAD)) [heap] [] [] [heap] :=
    { env := E
      heap_start := by simp only [set_foot_proj, set_state_proj, set_size_proj, f1]
      heap_end := by
        simp only [set_foot_proj, set_state_proj, set_size_proj, f2]
        exact wadd_eq E.heap_high
      heap_bytes := by simp only [set_foot_proj, set_state_proj, set_size_proj, f3]
      avail_beg := by simp only [set_foot_proj, set_state_proj, set_size_proj, f4]
      avail_end := by simp only [set_foot_proj, set_state_proj, set_size_proj, f4]
      used_beg := by simp only [set_foot_proj, set_state_proj, set_size_proj, f5]
      used_end := by simp only [set_foot_proj, set_state_proj, set_size_proj, f5]
      tiles := by
        refine ⟨rfl, ?_, ?_⟩
        · simp only [set_foot_proj, set_state_proj, set_size_proj, Function.update_same]
        · simp only [set_foot_proj, set_state_proj, set_size_proj, Function.update_same]
          show heap + EL_BLOCK_OVERHEAD + (C - EL_BLOCK_OVERHEAD) = heap + C
          omega
      perm := List.Perm.refl _
      avail_chain := by
        refine ⟨?_, ?_⟩
        · simp only [set_foot_proj, set_state_proj, set_size_proj, f7]
          rw [Function.update_noteq n3, Function.update_noteq n2, Function.update_noteq n1,
            Function.update_same]
        · simp only [set_foot_proj, set_state_proj, set_size_proj, f8]
          rw [Function.update_noteq n5, Function.update_noteq n4, Function.update_same]
      used_chain := by
        refine ⟨?_, ?_⟩
        · simp only [set_foot_proj, set_state_proj, set_size_proj, f7]
          rw [Function.update_noteq n6, Function.update_same]
        · simp only [set_foot_proj, set_state_proj, set_size_proj, f8]
          rw [Function.update_same]
      avail_length := by simp only [set_foot_proj, set_state_proj, set_size_proj, f4]; rfl
      used_length := by simp only [set_foot_proj, set_state_proj, set_size_proj, f5]; rfl
      avail_bytes := by simp only [set_foot_proj, set_state_proj, set_size_proj, f4]; rfl
      used_bytes := by simp only [set_foot_proj, set_state_proj, set_size_proj, f5]; rfl }
  refine ⟨rfl, ⟨W0.add_avail, ?_, ?_⟩, ?_⟩
  · intro b hb
    rw [List.mem_singleton] at hb
    subst hb
    simp only [el_add_block_front_frame, set_foot_proj, set_state_proj, Function.update_same]
  · intro b hb
    simp at hb
  · simp only [el_add_block_front_frame, set_foot_proj, set_state_proj, set_size_proj,
      Function.update_same]

section
variable {A : el_addrs_t} {heap C : Nat} {s : el_state} {bs av us : List Nat}

/-- A merge attempt preserves the invariant; the blocks up to and including `l`
stay where they are. -/
theorem el_merge_inv {b1 b2 : List Nat} {l : Nat}
    (I : el_inv A heap C s (b1 ++ l :: b2) av us) :
    ∃ b2n avn, el_inv A heap C (el_merge_block_with_above s l) (b1 ++ l :: b2n) avn us ∧
      (l ∈ av → l ∈ avn) := by
  by_cases hl : s.state l = EL_AVAILABLE
  · cases b2 with
    | nil =>
      rw [el_merge_noop_last I]
      exact ⟨[], av, I, id⟩
    | cons a b2 =>
      by_cases ha : s.state a = EL_AVAILABLE
      · have hl2 := (I.state_avail_iff (by simp)).1 hl
        have ha2 := (I.state_avail_iff (by simp)).1 ha
        exact ⟨b2, _, (el_merge_do I hl2 ha2).1, fun _ => List.mem_cons_self _ _⟩
      · rw [el_merge_noop_above I ha]
        exact ⟨a :: b2, av, I, id⟩
  · rw [el_merge_noop_state hl]
    exact ⟨b2, av, I, id⟩

/-- Freeing a live block preserves the invariant. -/
theorem el_free_inv (I : el_inv A heap C s bs av us) {h : Nat} (hh : h ∈ us) :
    ∃ bsn avn, el_inv A heap C (el_free s (h + sizeof_head)) bsn avn (us.erase h) := by
  have hbs : h ∈ bs := I.wf.members_facts.2.2.2.2.2.2.2 h hh
  obtain ⟨b1, b2, rfl⟩ := List.append_of_mem hbs
  obtain ⟨I0, -, -, -⟩ := el_free_moved_spec I hh
  obtain ⟨b2n, av1, I1, hav1⟩ := el_merge_inv I0
  have hh1 := hav1 (List.mem_cons_self _ _)
  rw [el_free_eq I hh]
  rcases List.eq_nil_or_concat b1 with rfl | ⟨L, l, rfl⟩
  · have W0 : el_wf A heap C s (h :: b2) av us [] := by simpa using I.wf
    rw [el_block_below_first W0]
    rw [if_neg (by simp)]
    exact ⟨_, _, I1⟩
  · have e1 : L.concat l ++ h :: b2 = L ++ l :: h :: b2 := by simp
    have e2 : L.concat l ++ h :: b2n = L ++ l :: h :: b2n := by simp
    rw [e1] at I
    rw [e2] at I1
    rw [el_block_below_prev I.wf]
    have hl0 : l ≠ NULL := (I.wf.block_pos (by simp)).1
    rw [if_pos hl0]
    obtain ⟨b3, av2, I2, -⟩ := el_merge_inv I1
    exact ⟨_, _, I2⟩

/-- Every reachable state satisfies the invariant, and the live pointers are the
payload addresses of the used blocks. -/
theorem el_reach_inv {s : el_state} {live : List Nat} (E : el_env_ok A heap C)
    (R : el_reach A heap C s live) :
    ∃ bs av us, el_inv A heap C s bs av us ∧ live.Perm (us.map (fun b => b + sizeof_head)) := by
  induction R with
  | init s0 h =>
    have hC : EL_BLOCK_OVERHEAD ≤ C := by
      by_contra hc
      have hc2 : C < EL_BLOCK_OVERHEAD := by omega
      simp only [PTR_PLUS_BYTES, PTR_MINUS_BYTES, PTR_MINUS_PTR, el_init, if_pos hc2] at h
      exact absurd h (by decide)
    exact ⟨[heap], [heap], [], (el_init_spec s0 E hC).2.1, List.Perm.refl _⟩
  | malloc s live n _ hn ih =>
    obtain ⟨bs, av, us, I, hp⟩ := ih
    rcases el_malloc_spec I hn with ⟨_, _, h3⟩ | ⟨l1, l2, b1, b2, f, _, _, _, _, _, h6, h7, _⟩
    · rw [h3]
      simp only [if_true]
      exact ⟨bs, av, us, I, hp⟩
    · have hne : (el_malloc s n).2 ≠ NULL := by
        rw [h6]; simp [NULL, sizeof_head]
      rw [if_neg hne, h6]
      exact ⟨_, _, _, h7, by simpa using hp⟩
  | free s live p _ hp ih =>
    obtain ⟨bs, av, us, I, hperm⟩ := ih
    have hp2 : p ∈ us.map (fun b => b + sizeof_head) := hperm.mem_iff.1 hp
    obtain ⟨h, hh, rfl⟩ := List.mem_map.1 hp2
    obtain ⟨bsn, avn, In⟩ := el_free_inv I hh
    refine ⟨bsn, avn, us.erase h, In, ?_⟩
    have hinj : Function.Injective (fun b : Nat => b + sizeof_head) := by
      intro a b hab
      simpa using hab
    have := hperm.erase (h + sizeof_head)
    rw [← List.map_erase hinj] at this
    exact this

end

/-! ## The diagnostic traversal of a well-formed list -/

theorem el_members_loop_chain (s : el_state) :
    ∀ (xs : List Nat) (p e : Nat), el_chain s p xs e → el_members_loop s xs.length p = xs := by
  intro xs
  induction xs with
  | nil => intro p e _; rfl
  | cons x xs ih =>
    intro p e h
    simp only [List.length_cons, el_members_loop, h.1, ih x e h.2.2]

theorem el_print_blocklist_loop_chain (s : el_state) :
    ∀ (xs : List Nat) (p e : Nat), el_chain s p xs e →
      el_print_blocklist_loop s xs.length p = xs.map (el_entry_of s) := by
  intro xs
  induction xs with
  | nil => intro p e _; rfl
  | cons x xs ih =>
    intro p e h
    simp only [PTR_PLUS_BYTES, PTR_MINUS_BYTES, PTR_MINUS_PTR, List.length_cons, el_print_blocklist_loop, h.1, ih x e h.2.2, List.map_cons,
      el_entry_of]

section
variable {A : el_addrs_t} {heap C : Nat} {s : el_state} {bs av us ds : List Nat}

theorem el_wf.members (W : el_wf A heap C s bs av us ds) :
    el_members s .avail = av ∧ el_members s .used = us := by
  constructor
  · simp only [el_members, list_avail, W.avail_length, W.avail_beg]
    exact el_members_loop_chain s av _ _ W.avail_chain
  · simp only [el_members, list_used, W.used_length, W.used_beg]
    exact el_members_loop_chain s us _ _ W.used_chain

theorem el_wf.print (W : el_wf A heap C s bs av us ds) :
    el_print_blocklist s .avail = av.map (el_entry_of s) ∧
    el_print_blocklist s .used = us.map (el_entry_of s) := by
  constructor
  · simp only [el_print_blocklist, list_avail, W.avail_length, W.avail_beg]
    exact el_print_blocklist_loop_chain s av _ _ W.avail_chain
  · simp only [el_print_blocklist, list_used, W.used_length, W.used_beg]
    exact el_print_blocklist_loop_chain s us _ _ W.used_chain

/-- The printed line of a block of the layout: offsets are relative to the heap
start and the footer mirrors the header. -/
theorem el_wf.entry (W : el_wf A heap C s bs av us ds) {b : Nat} (hb : b ∈ bs) :
    el_entry_of s b =
      ⟨b - heap, s.state b, s.size b, b - heap + sizeof_head + s.size b, s.size b⟩ := by
  have h1 := W.block_range hb
  have h2 := (el_tiles_mem _ _ _ W.tiles b hb).2.2
  have hh := W.env.heap_high
  simp only [EL_BLOCK_OVERHEAD, sizeof_head, sizeof_foot] at *
  have e1 : wsub b heap = b - heap := wsub_eq (by omega) (by omega)
  have e2 : wadd 32 (s.size b) = 32 + s.size b := wadd_eq (by omega)
  have e3 : wadd b (32 + s.size b) = b + 32 + s.size b := by rw [wadd_eq (by omega)]; omega
  have e4 : wsub (b + 32 + s.size b) heap = b - heap + 32 + s.size b := by
    rw [wsub_eq (by omega) (by omega)]; omega
  simp only [PTR_PLUS_BYTES, PTR_MINUS_BYTES, PTR_MINUS_PTR, el_entry_of, el_get_footer, sizeof_head, W.heap_start, e1, e2, e3, e4, h2]

theorem el_wf.ctl_eq {t : el_state} {avt ust dst bst : List Nat}
    (W : el_wf A heap C s bs av us ds) (V : el_wf A heap C t bst avt ust dst)
    (h1 : avt.length = av.length) (h2 : ust.length = us.length)
    (h3 : el_bytes_of t avt = el_bytes_of s av) (h4 : el_bytes_of t ust = el_bytes_of s us) :
    t.ctl = s.ctl := by
  have a1 := W.heap_start; have a2 := W.heap_end; have a3 := W.heap_bytes
  have a4 := W.avail_beg; have a5 := W.avail_end; have a6 := W.used_beg; have a7 := W.used_end
  have a8 := W.avail_length; have a9 := W.used_length
  have a10 := W.avail_bytes; have a11 := W.used_bytes
  have c1 := V.heap_start; have c2 := V.heap_end; have c3 := V.heap_bytes
  have c4 := V.avail_beg; have c5 := V.avail_end; have c6 := V.used_beg; have c7 := V.used_end
  have c8 := V.avail_length; have c9 := V.used_length
  have c10 := V.avail_bytes; have c11 := V.used_bytes
  rcases s with ⟨⟨sb, ss, se, ⟨x1, x2, x3, x4⟩, ⟨y1, y2, y3, y4⟩⟩, _, _, _, _, _⟩
  rcases t with ⟨⟨tb, ts, te, ⟨p1, p2, p3, p4⟩, ⟨q1, q2, q3, q4⟩⟩, _, _, _, _, _⟩
  simp only at a1 a2 a3 a4 a5 a6 a7 a8 a9 a10 a11 c1 c2 c3 c4 c5 c6 c7 c8 c9 c10 c11
  simp only [el_ctl_t.mk.injEq, el_blocklist_t.mk.injEq]
  refine ⟨by omega, by omega, by omega, ⟨by omega, by omega, by omega, by omega⟩,
    ⟨by omega, by omega, by omega, by omega⟩⟩

end

section
variable {A : el_addrs_t} {heap C : Nat} {s : el_state} {bs av us : List Nat}

theorem el_inv.list_wf (I : el_inv A heap C s bs av us) : el_list_wf s .avail av where
  chain := by
    rw [list_avail, I.wf.avail_beg, I.wf.avail_end]; exact I.wf.avail_chain
  nodup := by
    rw [list_avail, I.wf.avail_beg, I.wf.avail_end]; exact I.wf.avail_nodes_nodup
  nonnull := fun b hb => (I.wf.block_pos (I.wf.members_facts.2.2.2.2.2.2.1 b hb)).1
  length_eq := by rw [list_avail]; exact I.wf.avail_length
  bytes_eq := by rw [list_avail]; exact I.wf.avail_bytes

theorem singleton_split {x f : Nat} {l1 l2 : List Nat} (h : [x] = l1 ++ f :: l2) :
    l1 = [] ∧ f = x ∧ l2 = [] := by
  cases l1 with
  | nil =>
    simp only [List.nil_append, List.cons.injEq] at h
    exact ⟨rfl, h.1.symm, h.2.symm⟩
  | cons z l1 =>
    simp only [List.cons_append, List.cons.injEq] at h
    have := h.2
    cases l1 <;> simp at this

/-- First-fit search over a well-formed list. -/
theorem el_find_first_avail_spec {xs : List Nat} {n : Nat} (W : el_list_wf s .avail xs)
    (hn : n + EL_BLOCK_OVERHEAD < 2 ^ 64) :
    (el_find_first_avail s n = NULL ∧ ∀ b ∈ xs, s.size b < n + EL_BLOCK_OVERHEAD) ∨
    (el_find_first_avail s n ≠ NULL ∧ ∃ l1 l2, xs = l1 ++ el_find_first_avail s n :: l2 ∧
      n + EL_BLOCK_OVERHEAD ≤ s.size (el_find_first_avail s n) ∧
      ∀ b ∈ l1, s.size b < n + EL_BLOCK_OVERHEAD) := by
  have hfe : el_find_first_avail s n =
      el_find_first_avail_loop s n xs.length (s.next (s.list .avail).beg) := by
    have := W.length_eq
    rw [list_avail] at this
    simp only [el_find_first_avail, this, list_avail]
  have e40 : wadd n EL_BLOCK_OVERHEAD = n + EL_BLOCK_OVERHEAD := wadd_eq hn
  have hfind := el_find_first_avail_loop_chain s n xs _ _ W.chain
  rw [← hfe, e40] at hfind
  rcases hfind with h | ⟨l1, l2, h1, h2, h3⟩
  · exact Or.inl h
  · refine Or.inr ⟨?_, l1, l2, h1, h2, h3⟩
    apply W.nonnull
    rw [h1]
    simp

end

/-! ## Invariants of the reachable states (requests that do not wrap) -/

section
variable {A : el_addrs_t} {heap C : Nat}

/-- Conservation holds in every state reached by requests that do not wrap. -/
theorem el_conservation_in_range {s : el_state} {live : List Nat} (E : el_env_ok A heap C)
    (R : el_reach A heap C s live) :
    s.ctl.avail.bytes + s.ctl.used.bytes = C ∧ s.ctl.heap_bytes = C := by
  obtain ⟨bs, av, us, I, -⟩ := el_reach_inv E R
  have h := I.wf.bytes_total
  rw [el_bytes_of_nil, zero_add] at h
  rw [I.wf.avail_bytes, I.wf.used_bytes]
  exact ⟨h, I.wf.heap_bytes⟩

/-- The footer of every listed block mirrors its header in every state reached by
requests that do not wrap. -/
theorem el_size_mirroring_in_range {s : el_state} {live : List Nat} (E : el_env_ok A heap C)
    (R : el_reach A heap C s live) :
    ∀ b ∈ el_members s .avail ++ el_members s .used, s.foot (el_get_footer s b) = s.size b := by
  obtain ⟨bs, av, us, I, -⟩ := el_reach_inv E R
  rw [I.wf.members.1, I.wf.members.2]
  intro b hb
  have hbs : b ∈ bs := I.wf.mem_bs (by simpa using hb)
  have h := I.wf.entry hbs
  simp only [PTR_PLUS_BYTES, PTR_MINUS_BYTES, PTR_MINUS_PTR, el_entry_of, el_entry.mk.injEq] at h
  exact h.2.2.2.2

end

/-! ## Double free, single-block heaps and the round trip -/

theorem el_merge_block_with_above_state (s : el_state) (lower : Nat) :
    (el_merge_block_with_above s lower).state = s.state := by
  unfold el_merge_block_with_above
  simp only []
  split <;> simp

theorem el_free_state_self (s : el_state) (ptr : Nat) :
    (el_free s ptr).state (wsub ptr sizeof_head) = EL_AVAILABLE := by
  unfold el_free
  simp only []
  split
  · assumption
  · split <;> simp [el_merge_block_with_above_state]

section
variable {A : el_addrs_t} {heap C : Nat}

/-- The state and the listing of a heap that is one available block. -/
theorem el_inv.single {s : el_state} (I : el_inv A heap C s [heap] [heap] [])
    (hC : EL_BLOCK_OVERHEAD ≤ C) :
    s.size heap = C - EL_BLOCK_OVERHEAD ∧
    s.ctl.avail = ⟨A.avail_beg_actual, A.avail_end_actual, 1, C⟩ ∧
    s.ctl.used = ⟨A.used_beg_actual, A.used_end_actual, 0, 0⟩ ∧
    s.ctl.heap_start = heap ∧ s.ctl.heap_end = heap + C ∧ s.ctl.heap_bytes = C ∧
    el_print_blocklist s .used = [] ∧
    el_print_blocklist s .avail =
      [⟨0, EL_AVAILABLE, C - EL_BLOCK_OVERHEAD, C - sizeof_foot, C - EL_BLOCK_OVERHEAD⟩] := by
  have W := I.wf
  have ht : heap + EL_BLOCK_OVERHEAD + s.size heap = heap + C := W.tiles.2.2
  have hsz : s.size heap = C - EL_BLOCK_OVERHEAD := by omega
  have hst := I.avail_state heap (List.mem_singleton.2 rfl)
  have a4 := W.avail_beg; have a5 := W.avail_end; have a6 := W.used_beg; have a7 := W.used_end
  have a8 := W.avail_length; have a9 := W.used_length
  have a10 := W.avail_bytes; have a11 := W.used_bytes
  simp only [el_bytes_of, List.map_cons, List.map_nil, List.sum_cons, List.sum_nil,
    List.length_cons, List.length_nil, hsz] at a8 a9 a10 a11
  refine ⟨hsz, ?_, ?_, W.heap_start, W.heap_end, W.heap_bytes, ?_, ?_⟩
  · rcases hs : s.ctl.avail with ⟨x1, x2, x3, x4⟩
    rw [hs] at a4 a5 a8 a10
    simp only at a4 a5 a8 a10
    simp only [el_blocklist_t.mk.injEq]
    exact ⟨a4, a5, by omega, by omega⟩
  · rcases hs : s.ctl.used with ⟨x1, x2, x3, x4⟩
    rw [hs] at a6 a7 a9 a11
    simp only at a6 a7 a9 a11
    simp only [el_blocklist_t.mk.injEq]
    exact ⟨a6, a7, a9, a11⟩
  · rw [W.print.2]; rfl
  · rw [W.print.1, List.map_cons, List.map_nil, W.entry (List.mem_singleton.2 rfl), hst, hsz]
    simp only [EL_BLOCK_OVERHEAD, sizeof_head, sizeof_foot] at hC ⊢
    simp only [List.cons.injEq, el_entry.mk.injEq, and_true, true_and]
    omega

/-- What `el_round_trip` leaves when the request fits with room for a split. -/
theorem el_round_trip_inv (s0 : el_state) (n : Nat) (E : el_env_ok A heap C)
    (hn : n + 2 * EL_BLOCK_OVERHEAD ≤ C) :
    (el_malloc (el_init A heap s0 C).1 n).2 = heap + sizeof_head ∧
    el_inv A heap C (el_round_trip A heap s0 C n) [heap] [heap] [] := by
  have hC : EL_BLOCK_OVERHEAD ≤ C := by omega
  have hh := E.heap_high
  obtain ⟨_, I1, hs1⟩ := el_init_spec s0 E hC
  have hn2 : n + EL_BLOCK_OVERHEAD < 2 ^ 64 := by
    simp only [EL_BLOCK_OVERHEAD, sizeof_head, sizeof_foot] at *; omega
  rcases el_malloc_spec I1 hn2 with ⟨_, h2, _⟩ |
    ⟨l1, l2, b1, b2, f, _, e1, e2, _, _, h6, I2, z1, z2, _⟩
  · have := h2 heap (List.mem_singleton.2 rfl)
    omega
  · obtain ⟨rfl, rfl, rfl⟩ := singleton_split e1
    obtain ⟨rfl, -, rfl⟩ := singleton_split e2
    simp only [List.nil_append] at I2
    refine ⟨h6, ?_⟩
    have hmem : f ∈ [f] := List.mem_singleton.2 rfl
    have hfe : el_round_trip A f s0 C n =
        el_free (el_malloc (el_init A f s0 C).1 n).1 (f + sizeof_head) := by
      rw [el_round_trip, h6]
    rw [hfe, el_free_eq I2 hmem, el_block_below_first I2.wf, if_neg (by simp)]
    obtain ⟨I3, y1, _, _⟩ := el_free_moved_spec I2 hmem
    have hne : f ≠ f + EL_BLOCK_OVERHEAD + n := by
      simp only [EL_BLOCK_OVERHEAD, sizeof_head, sizeof_foot]; omega
    have e3 : [f].erase f = [] := by simp
    rw [e3] at I3
    have I3b : el_inv A f C (el_free_moved (el_malloc (el_init A f s0 C).1 n).1 f)
        ([] ++ f :: (f + EL_BLOCK_OVERHEAD + n) :: []) [f, f + EL_BLOCK_OVERHEAD + n] [] := I3
    obtain ⟨I4, _, _, _⟩ := el_merge_do I3b (List.mem_cons_self _ _)
      (List.mem_cons_of_mem _ (List.mem_singleton.2 rfl))
    have e4 : ([f, f + EL_BLOCK_OVERHEAD + n].erase (f + EL_BLOCK_OVERHEAD + n)).erase f = [] := by
      rw [List.erase_cons_tail (by simpa using hne), List.erase_cons_head,
        List.erase_cons_head]
    rw [e4] at I4
    exact I4

end

/-! ## Two allocations, freed in either order (requests that do not wrap) -/

section
variable {A : el_addrs_t} {heap C : Nat}

theorem pair_split {x y f : Nat} {l1 l2 : List Nat} (h : [x, y] = l1 ++ f :: l2)
    (hxy : x ≠ f) : l1 = [x] ∧ f = y ∧ l2 = [] := by
  cases l1 with
  | nil =>
    simp only [List.nil_append, List.cons.injEq] at h
    exact absurd h.1 hxy
  | cons z l1 =>
    simp only [List.cons_append, List.cons.injEq] at h
    obtain ⟨rfl, h3⟩ := h
    obtain ⟨rfl, rfl, rfl⟩ := singleton_split h3
    exact ⟨rfl, rfl, rfl⟩

/-- The layout after two successful allocations from a fresh heap: the two used
blocks at the bottom, one available block above them. -/
theorem el_two_allocations_inv (s0 : el_state) (n1 n2 : Nat) (E : el_env_ok A heap C)
    (hC : EL_BLOCK_OVERHEAD ≤ C)
    (h1 : n1 + EL_BLOCK_OVERHEAD < 2 ^ 64) (h2 : n2 + EL_BLOCK_OVERHEAD < 2 ^ 64)
    (hp1 : (el_malloc (el_init A heap s0 C).1 n1).2 ≠ NULL)
    (hp2 : (el_malloc (el_malloc (el_init A heap s0 C).1 n1).1 n2).2 ≠ NULL) :
    (el_malloc (el_init A heap s0 C).1 n1).2 = heap + sizeof_head ∧
    (el_malloc (el_malloc (el_init A heap s0 C).1 n1).1 n2).2 =
      heap + EL_BLOCK_OVERHEAD + n1 + sizeof_head ∧
    el_inv A heap C (el_malloc (el_init A heap s0 C).1 n1).1
      [heap, heap + EL_BLOCK_OVERHEAD + n1] [heap + EL_BLOCK_OVERHEAD + n1] [heap] ∧
    (el_malloc (el_init A heap s0 C).1 n1).1.size (heap + EL_BLOCK_OVERHEAD + n1) =
      C - EL_BLOCK_OVERHEAD - n1 - EL_BLOCK_OVERHEAD ∧
    el_inv A heap C (el_malloc (el_malloc (el_init A heap s0 C).1 n1).1 n2).1
      [heap, heap + EL_BLOCK_OVERHEAD + n1,
        heap + EL_BLOCK_OVERHEAD + n1 + EL_BLOCK_OVERHEAD + n2]
      [heap + EL_BLOCK_OVERHEAD + n1 + EL_BLOCK_OVERHEAD + n2]
      [heap + EL_BLOCK_OVERHEAD + n1, heap] := by
  obtain ⟨_, I0, hs0⟩ := el_init_spec s0 E hC
  rcases el_malloc_spec I0 h1 with ⟨_, _, h3⟩ |
    ⟨l1, l2, b1, b2, f, _, e1, e2, _, _, h6, I1, _, z2, _⟩
  · rw [h3] at hp1; exact absurd rfl hp1
  obtain ⟨rfl, rfl, rfl⟩ := singleton_split e1
  obtain ⟨rfl, -, rfl⟩ := singleton_split e2
  simp only [List.nil_append, List.append_nil] at I1
  rcases el_malloc_spec I1 h2 with ⟨_, _, h3⟩ |
    ⟨l1, l2, b1, b2, g, _, e1, e2, _, _, g6, I2, _, _, _⟩
  · rw [h3] at hp2; exact absurd rfl hp2
  obtain ⟨rfl, rfl, rfl⟩ := singleton_split e1
  have hne : f ≠ f + EL_BLOCK_OVERHEAD + n1 := by
    simp only [EL_BLOCK_OVERHEAD, sizeof_head, sizeof_foot]; omega
  obtain ⟨rfl, -, rfl⟩ := pair_split e2 hne
  simp only [List.nil_append, List.append_nil, List.singleton_append] at I2
  rw [hs0] at z2
  exact ⟨h6, g6, I1, z2, I2⟩

end

section
variable {A : el_addrs_t} {heap C : Nat}

/-- Two used blocks below one available block, freed bottom first. -/
theorem el_free_low_then_mid {s : el_state} {f r1 r2 : Nat}
    (I : el_inv A heap C s [f, r1, r2] [r2] [r1, f]) :
    el_inv A heap C (el_free (el_free s (f + sizeof_head)) (r1 + sizeof_head)) [f] [f] [] := by
  have hnd := I.wf.nodup_members
  simp only [List.nil_append, List.cons_append, List.nodup_cons, List.mem_cons,
    List.mem_singleton, List.not_mem_nil, List.nodup_nil, not_or, or_false,
    not_false_eq_true, and_true] at hnd
  obtain ⟨⟨h21, h2f⟩, h1f⟩ := hnd
  -- first free: the block at the bottom, whose upper neighbour is in use
  have hf : f ∈ [r1, f] := by simp
  have W0 : el_wf A heap C s (f :: [r1, r2]) [r2] [r1, f] [] := I.wf
  rw [el_free_eq I hf, el_block_below_first W0, if_neg (by simp)]
  obtain ⟨J, _, _, jst⟩ := el_free_moved_spec I hf
  have e1 : [r1, f].erase f = [r1] := by
    simp [List.erase_cons, h1f]
  rw [e1] at J
  have J2 : el_inv A heap C (el_free_moved s f) ([] ++ f :: r1 :: [r2]) [f, r2] [r1] := J
  have hr1 : (el_free_moved s f).state r1 ≠ EL_AVAILABLE := by
    rw [J.used_state r1 (by simp)]; exact el_used_ne_avail
  rw [el_merge_noop_above J2 hr1]
  -- second free: the block in the middle, between two available blocks
  have hr : r1 ∈ [r1] := by simp
  have J3 : el_inv A heap C (el_free_moved s f) ([] ++ f :: r1 :: [r2]) [f, r2] [r1] := J
  rw [el_free_eq J hr, (el_block_below_prev J3.wf)]
  have hf0 : f ≠ NULL := (I.wf.block_pos (by simp)).1
  rw [if_pos hf0]
  obtain ⟨K, _, _, _⟩ := el_free_moved_spec J hr
  have e2 : [r1].erase r1 = [] := by simp
  rw [e2] at K
  have K2 : el_inv A heap C (el_free_moved (el_free_moved s f) r1) ([f] ++ r1 :: r2 :: [])
      [r1, f, r2] [] := K
  obtain ⟨L, _, _, _⟩ := el_merge_do K2 (by simp) (by simp)
  have e3 : ([r1, f, r2].erase r2).erase r1 = [f] := by
    simp [List.erase_cons, h1f, Ne.symm h21, Ne.symm h2f]
  rw [e3] at L
  have L2 : el_inv A heap C
      (el_merge_block_with_above (el_free_moved (el_free_moved s f) r1) r1)
      ([] ++ f :: r1 :: []) [r1, f] [] := L
  obtain ⟨M, _, _, _⟩ := el_merge_do L2 (by simp) (by simp)
  have e4 : ([r1, f].erase r1).erase f = [] := by
    simp [List.erase_cons]
  rw [e4] at M
  exact M

/-- Two used blocks below one available block, freed top first. -/
theorem el_free_mid_then_low {s : el_state} {f r1 r2 : Nat}
    (I : el_inv A heap C s [f, r1, r2] [r2] [r1, f]) :
    el_inv A heap C (el_free (el_free s (r1 + sizeof_head)) (f + sizeof_head)) [f] [f] [] := by
  have hnd := I.wf.nodup_members
  simp only [List.nil_append, List.cons_append, List.nodup_cons, List.mem_cons,
    List.mem_singleton, List.not_mem_nil, List.nodup_nil, not_or, or_false,
    not_false_eq_true, and_true] at hnd
  obtain ⟨⟨h21, h2f⟩, h1f⟩ := hnd
  -- first free: the block in the middle merges with the available block above it
  have hr : r1 ∈ [r1, f] := by simp
  have I2 : el_inv A heap C s ([] ++ f :: r1 :: [r2]) [r2] [r1, f] := I
  rw [el_free_eq I hr, (el_block_below_prev I2.wf)]
  have hf0 : f ≠ NULL := (I.wf.block_pos (by simp)).1
  rw [if_pos hf0]
  obtain ⟨J, _, _, _⟩ := el_free_moved_spec I hr
  have e1 : [r1, f].erase r1 = [f] := by simp [List.erase_cons]
  rw [e1] at J
  have J2 : el_inv A heap C (el_free_moved s r1) ([f] ++ r1 :: r2 :: []) [r1, r2] [f] := J
  obtain ⟨K, _, kst, _⟩ := el_merge_do J2 (by simp) (by simp)
  have e2 : ([r1, r2].erase r2).erase r1 = [] := by
    simp [List.erase_cons, Ne.symm h21]
  rw [e2] at K
  have hfs : (el_merge_block_with_above (el_free_moved s r1) r1).state f ≠ EL_AVAILABLE := by
    rw [K.used_state f (by simp)]; exact el_used_ne_avail
  rw [el_merge_noop_state hfs]
  -- second free: the block at the bottom merges with the block above it
  have K2 : el_inv A heap C (el_merge_block_with_above (el_free_moved s r1) r1)
      [f, r1] [r1] [f] := K
  have hf : f ∈ [f] := by simp
  have W0 : el_wf A heap C (el_merge_block_with_above (el_free_moved s r1) r1)
      (f :: [r1]) [r1] [f] [] := K2.wf
  rw [el_free_eq K2 hf, el_block_below_first W0, if_neg (by simp)]
  obtain ⟨L, _, _, _⟩ := el_free_moved_spec K2 hf
  have e3 : [f].erase f = [] := by simp
  rw [e3] at L
  have L2 : el_inv A heap C
      (el_free_moved (el_merge_block_with_above (el_free_moved s r1) r1) f)
      ([] ++ f :: r1 :: []) [f, r1] [] := L
  obtain ⟨M, _, _, _⟩ := el_merge_do L2 (by simp) (by simp)
  have e4 : ([f, r1].erase r1).erase f = [] := by
    simp [List.erase_cons, Ne.symm h1f]
  rw [e4] at M
  exact M

/-- The two-allocation scenario for requests that do not wrap: after `el_init(C)`,
when `p1 = el_malloc(n1)` and `p2 = el_malloc(n2)` both succeed, the available list
after the first allocation is the one block of size `C - OVERHEAD - n1 - OVERHEAD`,
and freeing both pointers in either order leaves an empty used list and the single
available block of size `C - OVERHEAD` at offset 0. -/
theorem el_two_allocations_in_range (s0 : el_state) (n1 n2 : Nat) (E : el_env_ok A heap C)
    (hC : EL_BLOCK_OVERHEAD ≤ C)
    (h1 : n1 + EL_BLOCK_OVERHEAD < 2 ^ 64) (h2 : n2 + EL_BLOCK_OVERHEAD < 2 ^ 64)
    (hp1 : (el_malloc (el_init A heap s0 C).1 n1).2 ≠ NULL)
    (hp2 : (el_malloc (el_malloc (el_init A heap s0 C).1 n1).1 n2).2 ≠ NULL) :
    el_members (el_malloc (el_init A heap s0 C).1 n1).1 .avail =
      [heap + EL_BLOCK_OVERHEAD + n1] ∧
    (el_malloc (el_init A heap s0 C).1 n1).1.size (heap + EL_BLOCK_OVERHEAD + n1) =
      C - EL_BLOCK_OVERHEAD - n1 - EL_BLOCK_OVERHEAD ∧
    ∀ t,
      t = el_free (el_free (el_malloc (el_malloc (el_init A heap s0 C).1 n1).1 n2).1
            (el_malloc (el_init A heap s0 C).1 n1).2)
            (el_malloc (el_malloc (el_init A heap s0 C).1 n1).1 n2).2 ∨
      t = el_free (el_free (el_malloc (el_malloc (el_init A heap s0 C).1 n1).1 n2).1
            (el_malloc (el_malloc (el_init A heap s0 C).1 n1).1 n2).2)
            (el_malloc (el_init A heap s0 C).1 n1).2 →
      el_members t .used = [] ∧ el_members t .avail = [heap] ∧
      t.size heap = C - EL_BLOCK_OVERHEAD ∧
      el_print_blocklist t .avail =
        [⟨0, EL_AVAILABLE, C - EL_BLOCK_OVERHEAD, C - sizeof_foot, C - EL_BLOCK_OVERHEAD⟩] := by
  obtain ⟨q1, q2, I1, z, I2⟩ := el_two_allocations_inv s0 n1 n2 E hC h1 h2 hp1 hp2
  refine ⟨I1.wf.members.1, z, ?_⟩
  have key : ∀ t, el_inv A heap C t [heap] [heap] [] →
      el_members t .used = [] ∧ el_members t .avail = [heap] ∧
      t.size heap = C - EL_BLOCK_OVERHEAD ∧
      el_print_blocklist t .avail =
        [⟨0, EL_AVAILABLE, C - EL_BLOCK_OVERHEAD, C - sizeof_foot, C - EL_BLOCK_OVERHEAD⟩] := by
    intro t J
    obtain ⟨t1, _, _, _, _, _, _, t8⟩ := J.single hC
    exact ⟨J.wf.members.2, J.wf.members.1, t1, t8⟩
  rintro t (rfl | rfl)
  · rw [q1, q2]
    exact key _ (el_free_low_then_mid I2)
  · rw [q1, q2]
    exact key _ (el_free_mid_then_low I2)

end

/-! ## No two adjacent available blocks (requests that do not wrap) -/

section
variable {A : el_addrs_t} {heap C : Nat} {s : el_state} {av us : List Nat}

theorem el_no_adjacent_congr {t : el_state} :
    ∀ (bs : List Nat), (∀ x ∈ bs, t.state x = s.state x) →
      el_no_adjacent s bs → el_no_adjacent t bs := by
  intro bs
  induction bs with
  | nil => intro _ _; exact List.chain'_nil
  | cons b bs ih =>
    intro h P
    rw [el_no_adjacent, List.chain'_cons'] at P ⊢
    refine ⟨fun y hy => ?_, ih (fun x hx => h x (List.mem_cons_of_mem _ hx)) P.2⟩
    have hy2 : y ∈ bs := List.mem_of_mem_head? hy
    rw [h b (List.mem_cons_self _ _), h y (List.mem_cons_of_mem _ hy2)]
    exact P.1 y hy

/-- The first merge attempt of `el_free`: the freed block `h` and the block above. -/
theorem el_merge_above_around {b1 b2 : List Nat} {h : Nat}
    (I : el_inv A heap C s (b1 ++ h :: b2) av us) (hh : h ∈ av)
    (P : ∀ a b3, b2 = a :: b3 → s.state a = EL_AVAILABLE →
      ∀ y ∈ b3.head?, s.state y ≠ EL_AVAILABLE) :
    ∃ R av1, el_inv A heap C (el_merge_block_with_above s h) (b1 ++ h :: R) av1 us ∧
      h ∈ av1 ∧ R <:+ b2 ∧ (el_merge_block_with_above s h).state = s.state ∧
      (∀ y ∈ R.head?, s.state y ≠ EL_AVAILABLE) ∧
      s.size h ≤ (el_merge_block_with_above s h).size h := by
  cases b2 with
  | nil =>
    rw [el_merge_noop_last I]
    exact ⟨[], av, I, hh, List.suffix_refl _, rfl, fun y hy => by simp at hy, le_refl _⟩
  | cons a b3 =>
    by_cases ha : s.state a = EL_AVAILABLE
    · have ha2 := (I.state_avail_iff (by simp)).1 ha
      obtain ⟨J, jsz, jst, _⟩ := el_merge_do I hh ha2
      refine ⟨b3, _, J, List.mem_cons_self _ _, List.suffix_cons _ _, jst, P a b3 rfl ha, ?_⟩
      rw [jsz, Function.update_same]
      omega
    · rw [el_merge_noop_above I ha]
      refine ⟨a :: b3, av, I, hh, List.suffix_refl _, rfl, fun y hy => ?_, le_refl _⟩
      simp only [List.head?_cons, Option.mem_def, Option.some.injEq] at hy
      rw [← hy]; exact ha

/-- The second merge attempt of `el_free`: the block `l` below the freed block `h`. -/
theorem el_merge_below_around {L R : List Nat} {l h : Nat}
    (I : el_inv A heap C s (L ++ l :: h :: R) av us) (hh : h ∈ av)
    (P : s.state l = EL_AVAILABLE → ∀ y ∈ L.getLast?, s.state y ≠ EL_AVAILABLE) :
    ∃ L2 x avn, el_inv A heap C (el_merge_block_with_above s l) (L2 ++ x :: R) avn us ∧
      x ∈ avn ∧ L2 <+: L ++ [l] ∧ (el_merge_block_with_above s l).state = s.state ∧
      (∀ y ∈ L2.getLast?, s.state y ≠ EL_AVAILABLE) ∧
      x ≤ h ∧ h + s.size h ≤ x + (el_merge_block_with_above s l).size x := by
  by_cases hl : s.state l = EL_AVAILABLE
  · have hl2 := (I.state_avail_iff (by simp)).1 hl
    obtain ⟨J, jsz, jst, _⟩ := el_merge_do I hl2 hh
    obtain ⟨_, hpos⟩ := el_block_above_next I.wf
    refine ⟨L, l, _, J, List.mem_cons_self _ _, List.prefix_append _ _, jst, P hl, ?_, ?_⟩
    · omega
    · rw [jsz, Function.update_same]
      simp only [EL_BLOCK_OVERHEAD, sizeof_head, sizeof_foot] at *
      omega
  · rw [el_merge_noop_state hl]
    have e : L ++ l :: h :: R = (L ++ [l]) ++ h :: R := by simp
    rw [e] at I
    refine ⟨L ++ [l], h, av, I, hh, List.prefix_refl _, rfl, fun y hy => ?_, le_refl _,
      le_refl _⟩
    simp only [List.getLast?_append, List.getLast?_singleton, Option.mem_def] at hy
    simp at hy
    rw [← hy]; exact hl

end

section
variable {A : el_addrs_t} {heap C : Nat} {s : el_state} {av us : List Nat}

/-- What `el_free` leaves around the freed block `h`: the available block `x` that
contains it lies between the layout `L` below and `R` above, parts of the layout
before the call, and neither neighbour of `x` is Available. -/
theorem el_free_around {b1 b2 : List Nat} {h : Nat}
    (I : el_inv A heap C s (b1 ++ h :: b2) av us) (hh : h ∈ us)
    (P : el_no_adjacent s (b1 ++ h :: b2)) :
    ∃ L R x avn,
      el_inv A heap C (el_free s (h + sizeof_head)) (L ++ x :: R) avn (us.erase h) ∧
      x ∈ avn ∧ L <+: b1 ∧ R <:+ b2 ∧
      (el_free s (h + sizeof_head)).state = Function.update s.state h EL_AVAILABLE ∧
      (∀ y ∈ L.getLast?, s.state y ≠ EL_AVAILABLE) ∧
      (∀ y ∈ R.head?, s.state y ≠ EL_AVAILABLE) ∧
      x ≤ h ∧ h + s.size h ≤ x + (el_free s (h + sizeof_head)).size x := by
  have hnd : (b1 ++ h :: b2).Nodup := el_tiles_nodup _ _ _ I.wf.tiles
  have hnb1 : ∀ y ∈ b1, y ≠ h := by
    intro y hy e
    rw [e] at hy
    exact (List.nodup_append.1 hnd).2.2 hy (List.mem_cons_self _ _) |> False.elim
  have hnb2 : ∀ y ∈ b2, y ≠ h := by
    intro y hy e
    rw [e] at hy
    have := (List.nodup_cons.1 (List.nodup_append.1 hnd).2.1).1
    exact this hy
  rw [el_no_adjacent, List.chain'_split] at P
  obtain ⟨P1, P2⟩ := P
  obtain ⟨I0, msz, _, mst⟩ := el_free_moved_spec I hh
  -- states of the other blocks are those before the call
  have st_of : ∀ y, y ≠ h → (el_free_moved s h).state y = s.state y := by
    intro y hy
    rw [mst, Function.update_noteq hy]
  -- first attempt: the freed block and the block above it
  have PA : ∀ a b3, b2 = a :: b3 → (el_free_moved s h).state a = EL_AVAILABLE →
      ∀ y ∈ b3.head?, (el_free_moved s h).state y ≠ EL_AVAILABLE := by
    intro a b3 e ha y hy
    subst e
    have hy2 : y ∈ b3 := List.mem_of_mem_head? hy
    rw [st_of y (hnb2 y (List.mem_cons_of_mem _ hy2))]
    rw [st_of a (hnb2 a (List.mem_cons_self _ _))] at ha
    rw [List.chain'_cons', List.chain'_cons'] at P2
    intro hya
    exact P2.2.1 y hy ⟨ha, hya⟩
  obtain ⟨R, av1, I1, hh1, hR, st1, nR, sz1⟩ :=
    el_merge_above_around I0 (List.mem_cons_self _ _) PA
  rw [el_free_eq I hh]
  rcases List.eq_nil_or_concat b1 with rfl | ⟨L, l, rfl⟩
  · -- no block below
    have W0 : el_wf A heap C s (h :: b2) av us [] := by simpa using I.wf
    rw [el_block_below_first W0, if_neg (by simp)]
    refine ⟨[], R, h, av1, I1, hh1, List.prefix_refl _, hR, by rw [st1, mst],
      fun y hy => by simp at hy, fun y hy => ?_, le_refl _, ?_⟩
    · have hy2 : y ∈ b2 := hR.subset (List.mem_of_mem_head? hy)
      rw [← st_of y (hnb2 y hy2)]
      exact nR y hy
    · rw [msz] at sz1; omega
  · -- a block below
    have e1 : L.concat l ++ h :: b2 = L ++ l :: h :: b2 := by simp
    have e2 : L.concat l ++ h :: R = L ++ l :: h :: R := by simp
    have e3 : L.concat l = L ++ [l] := by simp
    rw [e1] at I
    rw [e2] at I1
    rw [el_block_below_prev I.wf]
    have hl0 : l ≠ NULL := (I.wf.block_pos (by simp)).1
    rw [if_pos hl0]
    have hlh : l ≠ h := hnb1 l (by simp)
    have PB : (el_merge_block_with_above (el_free_moved s h) h).state l = EL_AVAILABLE →
        ∀ y ∈ L.getLast?, (el_merge_block_with_above (el_free_moved s h) h).state y ≠
          EL_AVAILABLE := by
      intro hl y hy
      have hy2 : y ∈ L := List.mem_of_mem_getLast? hy
      rw [st1, st_of l hlh] at hl
      rw [st1, st_of y (hnb1 y (by simp [hy2]))]
      rw [e3] at P1
      have P3 := (List.chain'_append.1 P1).1
      have P4 := (List.chain'_append.1 P3).2.2 y hy l (by simp)
      intro hya
      exact P4 ⟨hya, hl⟩
    obtain ⟨L2, x, avn, I2, hx, hL2, st2, nL, hxh, hsz⟩ := el_merge_below_around I1 hh1 PB
    refine ⟨L2, R, x, avn, I2, hx, by rw [e3]; exact hL2, hR, by rw [st2, st1, mst],
      fun y hy => ?_, fun y hy => ?_, hxh, ?_⟩
    · have hy2 : y ∈ L ++ [l] := hL2.subset (List.mem_of_mem_getLast? hy)
      have := nL y hy
      rw [st1, st_of y (hnb1 y (by rw [e3]; exact hy2))] at this
      exact this
    · have hy2 : y ∈ b2 := hR.subset (List.mem_of_mem_head? hy)
      rw [← st_of y (hnb2 y hy2)]
      exact nR y hy
    · rw [msz] at sz1; omega

end

section
variable {A : el_addrs_t} {heap C : Nat}

/-- A successful allocation keeps the state flag of every other block. -/
theorem el_malloc_state_frame {s t : el_state} {l1 l2 us : List Nat} {f r x : Nat}
    {bs bsn : List Nat}
    (I : el_inv A heap C s bs (l1 ++ f :: l2) us)
    (J : el_inv A heap C t bsn (r :: (l1 ++ l2)) (f :: us))
    (hx : x ∈ bs) (hxf : x ≠ f) : t.state x = s.state x := by
  rcases I.mem_cases hx with ⟨h1, h2⟩ | ⟨h1, h2⟩
  · rw [h2]
    apply J.avail_state
    rcases List.mem_append.1 h1 with h | h
    · exact List.mem_cons_of_mem _ (List.mem_append_left _ h)
    · rcases List.mem_cons.1 h with h | h
      · exact absurd h hxf
      · exact List.mem_cons_of_mem _ (List.mem_append_right _ h)
  · rw [h2]
    exact J.used_state x (List.mem_cons_of_mem _ h1)

/-- Every state reached by requests that do not wrap satisfies the invariant and has
no two adjacent available blocks. -/
theorem el_reach_no_adjacent {s : el_state} {live : List Nat} (E : el_env_ok A heap C)
    (R : el_reach A heap C s live) :
    ∃ bs av us, el_inv A heap C s bs av us ∧
      live.Perm (us.map (fun b => b + sizeof_head)) ∧ el_no_adjacent s bs := by
  induction R with
  | init s0 h =>
    have hC : EL_BLOCK_OVERHEAD ≤ C := by
      by_contra hc
      have hc2 : C < EL_BLOCK_OVERHEAD := by omega
      simp only [PTR_PLUS_BYTES, el_init, if_pos hc2] at h
      exact absurd h (by decide)
    exact ⟨[heap], [heap], [], (el_init_spec s0 E hC).2.1, List.Perm.refl _,
      List.chain'_singleton _⟩
  | malloc s live n _ hn ih =>
    obtain ⟨bs, av, us, I, hp, P⟩ := ih
    rcases el_malloc_spec I hn with ⟨_, _, h3⟩ |
      ⟨l1, l2, b1, b2, f, _, rfl, rfl, _, _, h6, J, _⟩
    · rw [h3]
      simp only [if_true]
      exact ⟨bs, av, us, I, hp, P⟩
    · have hne : (el_malloc s n).2 ≠ NULL := by
        rw [h6]; simp [NULL, sizeof_head]
      rw [if_neg hne, h6]
      refine ⟨_, _, _, J, by simpa using hp, ?_⟩
      have hnd : (b1 ++ f :: b2).Nodup := el_tiles_nodup _ _ _ I.wf.tiles
      have hnb1 : ∀ y ∈ b1, y ≠ f := by
        intro y hy e
        rw [e] at hy
        exact (List.nodup_append.1 hnd).2.2 hy (List.mem_cons_self _ _)
      have hnb2 : ∀ y ∈ b2, y ≠ f := by
        intro y hy e
        rw [e] at hy
        exact (List.nodup_cons.1 (List.nodup_append.1 hnd).2.1).1 hy
      have st1 : ∀ y ∈ b1, (el_malloc s n).1.state y = s.state y := fun y hy =>
        el_malloc_state_frame I J (List.mem_append_left _ hy) (hnb1 y hy)
      have st2 : ∀ y ∈ b2, (el_malloc s n).1.state y = s.state y := fun y hy =>
        el_malloc_state_frame I J
          (List.mem_append_right _ (List.mem_cons_of_mem _ hy)) (hnb2 y hy)
      have hfu : (el_malloc s n).1.state f ≠ EL_AVAILABLE := by
        rw [J.used_state f (List.mem_cons_self _ _)]; exact el_used_ne_avail
      have hfa : s.state f = EL_AVAILABLE := I.avail_state f (by simp)
      rw [el_no_adjacent, List.chain'_split] at P
      obtain ⟨P1, P2⟩ := P
      rw [el_no_adjacent, List.chain'_split]
      constructor
      · rw [List.chain'_append]
        refine ⟨el_no_adjacent_congr b1 st1 (List.chain'_append.1 P1).1,
          List.chain'_singleton _, fun y _ z hz => ?_⟩
        simp only [List.head?_cons, Option.mem_def, Option.some.injEq] at hz
        rw [← hz]
        exact fun h => hfu h.2
      · rw [List.chain'_cons, List.chain'_cons']
        rw [List.chain'_cons'] at P2
        refine ⟨fun h => hfu h.1, fun y hy h => ?_, el_no_adjacent_congr b2 st2 P2.2⟩
        have hy2 : y ∈ b2 := List.mem_of_mem_head? hy
        rw [st2 y hy2] at h
        exact P2.1 y hy ⟨hfa, h.2⟩
  | free s live p _ hp ih =>
    obtain ⟨bs, av, us, I, hperm, P⟩ := ih
    have hp2 : p ∈ us.map (fun b => b + sizeof_head) := hperm.mem_iff.1 hp
    obtain ⟨h, hh, rfl⟩ := List.mem_map.1 hp2
    have hbs : h ∈ bs := I.wf.members_facts.2.2.2.2.2.2.2 h hh
    obtain ⟨b1, b2, rfl⟩ := List.append_of_mem hbs
    obtain ⟨L, R, x, avn, J, _, hL, hR, st, nL, nR, _, _⟩ := el_free_around I hh P
    refine ⟨_, avn, us.erase h, J, ?_, ?_⟩
    · have hinj : Function.Injective (fun b : Nat => b + sizeof_head) := by
        intro a b hab
        simpa using hab
      have := hperm.erase (h + sizeof_head)
      rw [← List.map_erase hinj] at this
      exact this
    · have hnd : (b1 ++ h :: b2).Nodup := el_tiles_nodup _ _ _ I.wf.tiles
      have hnb1 : ∀ y ∈ b1, y ≠ h := by
        intro y hy e
        rw [e] at hy
        exact (List.nodup_append.1 hnd).2.2 hy (List.mem_cons_self _ _)
      have hnb2 : ∀ y ∈ b2, y ≠ h := by
        intro y hy e
        rw [e] at hy
        exact (List.nodup_cons.1 (List.nodup_append.1 hnd).2.1).1 hy
      have st1 : ∀ y ∈ L, (el_free s (h + sizeof_head)).state y = s.state y := by
        intro y hy
        rw [st, Function.update_noteq (hnb1 y (hL.subset hy))]
      have st2 : ∀ y ∈ R, (el_free s (h + sizeof_head)).state y = s.state y := by
        intro y hy
        rw [st, Function.update_noteq (hnb2 y (hR.subset hy))]
      rw [el_no_adjacent, List.chain'_split] at P
      obtain ⟨P1, P2⟩ := P
      rw [el_no_adjacent, List.chain'_split]
      constructor
      · rw [List.chain'_append]
        obtain ⟨tl, htl⟩ := hL
        rw [← htl] at P1
        refine ⟨el_no_adjacent_congr L st1 (List.chain'_append.1 (List.chain'_append.1 P1).1).1,
          List.chain'_singleton _, fun y hy z _ hyz => ?_⟩
        rw [st1 y (List.mem_of_mem_getLast? hy)] at hyz
        exact nL y hy hyz.1
      · rw [List.chain'_cons']
        rw [List.chain'_cons'] at P2
        refine ⟨fun y hy hyz => ?_, el_no_adjacent_congr R st2 (P2.2.suffix hR)⟩
        rw [st2 y (List.mem_of_mem_head? hy)] at hyz
        exact nR y hy hyz.2

/-- No adjacent free blocks, for requests that do not wrap: right after `el_free(p)`
on a live pointer, the available block `x` that contains the freed block has no
neighbour, as `el_block_above` and `el_block_below` find them, whose state is
Available. -/
theorem el_no_adjacent_free_in_range {s : el_state} {live : List Nat} {p : Nat}
    (E : el_env_ok A heap C) (R : el_reach A heap C s live) (hp : p ∈ live) :
    ∃ x ∈ el_members (el_free s p) .avail,
      x + sizeof_head ≤ p ∧
      p + s.size (p - sizeof_head) ≤ x + sizeof_head + (el_free s p).size x ∧
      (el_free s p).state x = EL_AVAILABLE ∧
      (el_block_above (el_free s p) x ≠ NULL →
        (el_free s p).state (el_block_above (el_free s p) x) ≠ EL_AVAILABLE) ∧
      (el_block_below (el_free s p) x ≠ NULL →
        (el_free s p).state (el_block_below (el_free s p) x) ≠ EL_AVAILABLE) := by
  obtain ⟨bs, av, us, I, hperm, P⟩ := el_reach_no_adjacent E R
  have hp2 : p ∈ us.map (fun b => b + sizeof_head) := hperm.mem_iff.1 hp
  obtain ⟨h, hh, rfl⟩ := List.mem_map.1 hp2
  have hbs : h ∈ bs := I.wf.members_facts.2.2.2.2.2.2.2 h hh
  obtain ⟨b1, b2, rfl⟩ := List.append_of_mem hbs
  obtain ⟨L, R, x, avn, J, hx, hL, hR, st, nL, nR, hxh, hsz⟩ := el_free_around I hh P
  have hnd : (b1 ++ h :: b2).Nodup := el_tiles_nodup _ _ _ I.wf.tiles
  have hnb1 : ∀ y ∈ b1, y ≠ h := by
    intro y hy e
    rw [e] at hy
    exact (List.nodup_append.1 hnd).2.2 hy (List.mem_cons_self _ _)
  have hnb2 : ∀ y ∈ b2, y ≠ h := by
    intro y hy e
    rw [e] at hy
    exact (List.nodup_cons.1 (List.nodup_append.1 hnd).2.1).1 hy
  refine ⟨x, by rw [J.wf.members.1]; exact hx, by omega, ?_, J.avail_state x hx, ?_, ?_⟩
  · have e : h + sizeof_head - sizeof_head = h := by omega
    rw [e]; omega
  · cases R with
    | nil =>
      intro hne
      exact absurd (el_block_above_last J.wf) hne
    | cons y R2 =>
      intro _
      rw [(el_block_above_next J.wf).1, st,
        Function.update_noteq (hnb2 y (hR.subset (List.mem_cons_self _ _)))]
      exact nR y (by simp)
  · rcases List.eq_nil_or_concat L with rfl | ⟨L2, y, rfl⟩
    · intro hne
      have W0 : el_wf A heap C (el_free s (h + sizeof_head)) (x :: R) avn (us.erase h) [] := by
        simpa using J.wf
      exact absurd (el_block_below_first W0) hne
    · intro _
      have e2 : L2.concat y ++ x :: R = L2 ++ y :: x :: R := by simp
      rw [e2] at J
      rw [el_block_below_prev J.wf, st,
        Function.update_noteq (hnb1 y (hL.subset (by simp)))]
      exact nL y (by simp)

end

section
variable {A : el_addrs_t} {heap C : Nat}

/-- The postcondition of a successful allocation, for requests that do not wrap: when
`el_find_first_avail(n)` returns a block `f`, `el_malloc(n)` returns
`f + sizeof(header)`; afterwards `f` has header and footer size `n`, state Used and
heads the used list; the remainder at `f + OVERHEAD + n` has header and footer size
`size f - n - OVERHEAD`, state Available and heads the available list; the used list is
one longer and the available list as long as before. -/
theorem el_malloc_postcondition_in_range {s : el_state} {live : List Nat} {n : Nat}
    (E : el_env_ok A heap C) (R : el_reach A heap C s live)
    (hn : n + EL_BLOCK_OVERHEAD < 2 ^ 64) (hf : el_find_first_avail s n ≠ NULL) :
    (el_malloc s n).2 = el_find_first_avail s n + sizeof_head ∧
    (el_malloc s n).1.size (el_find_first_avail s n) = n ∧
    (el_malloc s n).1.foot (el_get_footer (el_malloc s n).1 (el_find_first_avail s n)) = n ∧
    (el_malloc s n).1.state (el_find_first_avail s n) = EL_USED ∧
    el_members (el_malloc s n).1 .used = el_find_first_avail s n :: el_members s .used ∧
    (el_malloc s n).1.size (el_find_first_avail s n + EL_BLOCK_OVERHEAD + n) =
      s.size (el_find_first_avail s n) - n - EL_BLOCK_OVERHEAD ∧
    (el_malloc s n).1.foot (el_get_footer (el_malloc s n).1
        (el_find_first_avail s n + EL_BLOCK_OVERHEAD + n)) =
      s.size (el_find_first_avail s n) - n - EL_BLOCK_OVERHEAD ∧
    (el_malloc s n).1.state (el_find_first_avail s n + EL_BLOCK_OVERHEAD + n) = EL_AVAILABLE ∧
    (el_members (el_malloc s n).1 .avail).head? =
      some (el_find_first_avail s n + EL_BLOCK_OVERHEAD + n) ∧
    (el_malloc s n).1.ctl.used.length = s.ctl.used.length + 1 ∧
    (el_malloc s n).1.ctl.avail.length = s.ctl.avail.length := by
  obtain ⟨bs, av, us, I, -⟩ := el_reach_inv E R
  rcases el_malloc_spec I hn with ⟨h1, _, _⟩ |
    ⟨l1, l2, b1, b2, f, h1, rfl, rfl, _, _, h6, J, z1, z2, _⟩
  · exact absurd h1 hf
  rw [h1]
  have m1 := J.wf.entry (b := f) (by simp)
  have m2 := J.wf.entry (b := f + EL_BLOCK_OVERHEAD + n) (by simp)
  simp only [PTR_MINUS_PTR, el_entry_of, el_entry.mk.injEq] at m1 m2
  refine ⟨h6, z1, by rw [m1.2.2.2.2, z1], J.used_state f (List.mem_cons_self _ _), ?_, z2,
    by rw [m2.2.2.2.2, z2], J.avail_state _ (List.mem_cons_self _ _), ?_, ?_, ?_⟩
  · rw [J.wf.members.2, I.wf.members.2]
  · rw [J.wf.members.1]; rfl
  · rw [J.wf.used_length, I.wf.used_length]; rfl
  · rw [J.wf.avail_length, I.wf.avail_length]
    simp only [List.length_cons, List.length_append]
    omega

end

/-! ## The guard of `el_merge_block_with_above` -/

/-- The header sizes after a merge attempt: either nothing changed, or both blocks were
Available and only the size of `lower` changed. -/
theorem el_merge_block_with_above_size (s : el_state) (lower : Nat) :
    el_merge_block_with_above s lower = s ∨
    (s.state lower = EL_AVAILABLE ∧ el_block_above s lower ≠ NULL ∧
      s.state (el_block_above s lower) = EL_AVAILABLE ∧
      (el_merge_block_with_above s lower).size =
        Function.update s.size lower
          (wadd (wadd (s.size lower) (s.size (el_block_above s lower))) EL_BLOCK_OVERHEAD)) := by
  by_cases hc : lower = NULL ∨ s.state lower ≠ EL_AVAILABLE ∨ el_block_above s lower = NULL ∨
      s.state (el_block_above s lower) ≠ EL_AVAILABLE
  · left
    simp only [el_merge_block_with_above]
    rw [if_pos hc]
  · right
    have h1 : s.state lower = EL_AVAILABLE := by
      by_contra h; exact hc (Or.inr (Or.inl h))
    have h2 : el_block_above s lower ≠ NULL := fun h => hc (Or.inr (Or.inr (Or.inl h)))
    have h3 : s.state (el_block_above s lower) = EL_AVAILABLE := by
      by_contra h; exact hc (Or.inr (Or.inr (Or.inr h)))
    refine ⟨h1, h2, h3, ?_⟩
    simp only [el_merge_block_with_above]
    rw [if_neg hc]
    simp only [el_add_block_front_frame, set_foot_proj, set_size_proj, el_remove_block_frame]

/-! ## The worked traces are reachable states -/

theorem demo_env : el_env_ok demo_addrs 4096 1024 :=
  ⟨by decide, by decide, by decide, by decide⟩

theorem demo_init_reach : el_reach demo_addrs 4096 1024 demo_init [] :=
  el_reach.init demo_boot (by decide!)

theorem demo_first_reach : el_reach demo_addrs 4096 1024 demo_first.1 [4128] := by
  have h := el_reach.malloc demo_init [] 100 demo_init_reach (by decide)
  have e : (if (el_malloc demo_init 100).2 = NULL then []
      else [(el_malloc demo_init 100).2]) = [4128] := by
    decide!
  rw [e] at h
  exact h

theorem demo_pair_reach : el_reach demo_addrs 4096 1024 demo_pair.1 [4268, 4128] := by
  have h := el_reach.malloc demo_first.1 [4128] 200 demo_first_reach (by decide)
  have e : (if (el_malloc demo_first.1 200).2 = NULL then [4128]
      else [(el_malloc demo_first.1 200).2, 4128]) = [4268, 4128] := by
    decide!
  rw [e] at h
  exact h

theorem demo_hole_reach : el_reach demo_addrs 4096 1024 demo_hole [4268] := by
  have h := el_reach.free demo_pair.1 [4268, 4128] 4128 demo_pair_reach (by decide)
  have e : [4268, 4128].erase 4128 = [4268] := by decide
  have e2 : demo_first.2 = 4128 := by decide!
  rw [e] at h
  rw [demo_hole, e2]
  exact h

theorem demo_first_inv :
    el_inv demo_addrs 4096 1024 demo_first.1 [4096, 4236] [4236] [4096] :=
  (el_two_allocations_inv demo_boot 100 200 demo_env (by decide) (by decide) (by decide)
    (by decide!) (by decide!)).2.2.1

theorem demo_moved_inv :
    el_inv demo_addrs 4096 1024 demo_moved [4096, 4236] [4096, 4236] [] :=
  (el_free_moved_spec demo_first_inv (List.mem_singleton.2 rfl)).1

section
variable {A : el_addrs_t} {heap C : Nat}

/-- The structural invariant in the terms of the listings, for states reached by
requests that do not wrap: the members of the two lists are, up to order, the blocks
that tile the arena; states, lengths and byte counts agree with the membership. -/
theorem el_structure_in_range {s : el_state} {live : List Nat} (E : el_env_ok A heap C)
    (R : el_reach A heap C s live) :
    ∃ bs, el_tiles s heap bs (heap + C) ∧
      (el_members s .avail ++ el_members s .used).Perm bs ∧
      (el_members s .avail ++ el_members s .used).Nodup ∧
      (∀ b ∈ el_members s .avail, s.state b = EL_AVAILABLE) ∧
      (∀ b ∈ el_members s .used, s.state b = EL_USED) ∧
      s.ctl.avail.length = (el_members s .avail).length ∧
      s.ctl.used.length = (el_members s .used).length ∧
      s.ctl.avail.bytes = el_bytes_of s (el_members s .avail) ∧
      s.ctl.used.bytes = el_bytes_of s (el_members s .used) ∧
      s.ctl.heap_start = heap ∧ s.ctl.heap_end = heap + C := by
  obtain ⟨bs, av, us, I, -⟩ := el_reach_inv E R
  have W := I.wf
  rw [W.members.1, W.members.2]
  have hp : (av ++ us).Perm bs := by simpa using W.perm
  exact ⟨bs, W.tiles, hp, hp.nodup_iff.2 (el_tiles_nodup _ _ _ W.tiles), I.avail_state,
    I.used_state, W.avail_length, W.used_length, W.avail_bytes, W.used_bytes, W.heap_start,
    W.heap_end⟩

/-- Repeated requests of `n` bytes from a fresh heap: as long as `k` does not exceed
the quotient `(C - OVERHEAD) / (n + OVERHEAD)`, after `k` calls the available list is the
single block at offset `k * (n + OVERHEAD)`, of size `C - OVERHEAD - k * (n + OVERHEAD)`. -/
theorem el_malloc_repeat_inv (s0 : el_state) (n : Nat) (E : el_env_ok A heap C)
    (hC : EL_BLOCK_OVERHEAD ≤ C) (hn : n + EL_BLOCK_OVERHEAD < 2 ^ 64) :
    ∀ k, k ≤ (C - EL_BLOCK_OVERHEAD) / (n + EL_BLOCK_OVERHEAD) →
      ∃ bs us, el_inv A heap C (el_malloc_repeat (el_init A heap s0 C).1 n k) bs
          [heap + k * (n + EL_BLOCK_OVERHEAD)] us ∧
        (el_malloc_repeat (el_init A heap s0 C).1 n k).size
            (heap + k * (n + EL_BLOCK_OVERHEAD)) =
          C - EL_BLOCK_OVERHEAD - k * (n + EL_BLOCK_OVERHEAD) ∧
        us.length = k := by
  intro k
  induction k with
  | zero =>
    intro _
    obtain ⟨_, I, hs⟩ := el_init_spec s0 E hC
    refine ⟨[heap], [], ?_, ?_, rfl⟩
    · simpa [el_malloc_repeat] using I
    · simpa [el_malloc_repeat] using hs
  | succ k ih =>
    intro hk
    obtain ⟨bs, us, I, hs, hl⟩ := ih (by omega)
    have hq : (k + 1) * (n + EL_BLOCK_OVERHEAD) ≤ C - EL_BLOCK_OVERHEAD :=
      (Nat.le_div_iff_mul_le (by simp [EL_BLOCK_OVERHEAD, sizeof_head])).1 hk
    have hm : (k + 1) * (n + EL_BLOCK_OVERHEAD) =
        k * (n + EL_BLOCK_OVERHEAD) + (n + EL_BLOCK_OVERHEAD) := Nat.succ_mul _ _
    rcases el_malloc_spec I hn with ⟨_, h2, _⟩ |
      ⟨l1, l2, b1, b2, f, _, e1, _, _, _, _, J, _, z2, _⟩
    · have := h2 _ (List.mem_singleton.2 rfl)
      rw [hs] at this
      omega
    · obtain ⟨rfl, rfl, rfl⟩ := singleton_split e1
      simp only [List.nil_append] at J
      have ea : heap + k * (n + EL_BLOCK_OVERHEAD) + EL_BLOCK_OVERHEAD + n =
          heap + (k + 1) * (n + EL_BLOCK_OVERHEAD) := by omega
      rw [ea] at J z2
      refine ⟨_, _, J, ?_, by simp [hl]⟩
      show (el_malloc (el_malloc_repeat (el_init A heap s0 C).1 n k) n).1.size _ = _
      rw [z2, hs]
      omega

/-- Once the quotient is reached every further call returns `NULL` and leaves the
state as it is. -/
theorem el_malloc_repeat_stuck (s0 : el_state) (n : Nat) (E : el_env_ok A heap C)
    (hC : EL_BLOCK_OVERHEAD ≤ C) (hn : n + EL_BLOCK_OVERHEAD < 2 ^ 64) :
    ∀ k, (C - EL_BLOCK_OVERHEAD) / (n + EL_BLOCK_OVERHEAD) ≤ k →
      el_malloc_repeat (el_init A heap s0 C).1 n k =
        el_malloc_repeat (el_init A heap s0 C).1 n
          ((C - EL_BLOCK_OVERHEAD) / (n + EL_BLOCK_OVERHEAD)) ∧
      el_malloc (el_malloc_repeat (el_init A heap s0 C).1 n k) n =
        (el_malloc_repeat (el_init A heap s0 C).1 n k, NULL) := by
  have hd : 0 < n + EL_BLOCK_OVERHEAD := by simp [EL_BLOCK_OVERHEAD, sizeof_head]
  have key : el_malloc (el_malloc_repeat (el_init A heap s0 C).1 n
      ((C - EL_BLOCK_OVERHEAD) / (n + EL_BLOCK_OVERHEAD))) n =
      (el_malloc_repeat (el_init A heap s0 C).1 n
        ((C - EL_BLOCK_OVERHEAD) / (n + EL_BLOCK_OVERHEAD)), NULL) := by
    obtain ⟨bs, us, I, hs, _⟩ := el_malloc_repeat_inv s0 n E hC hn _ (le_refl _)
    have hlt : C - EL_BLOCK_OVERHEAD <
        ((C - EL_BLOCK_OVERHEAD) / (n + EL_BLOCK_OVERHEAD) + 1) * (n + EL_BLOCK_OVERHEAD) :=
      (Nat.div_lt_iff_lt_mul hd).1 (Nat.lt_succ_self _)
    rw [Nat.succ_mul] at hlt
    rcases el_malloc_spec I hn with ⟨_, _, h3⟩ | ⟨l1, l2, b1, b2, f, _, e1, _, h4, _⟩
    · exact h3
    · obtain ⟨rfl, rfl, rfl⟩ := singleton_split e1
      rw [hs] at h4
      omega
  intro k hk
  induction k with
  | zero =>
    have h0 : (C - EL_BLOCK_OVERHEAD) / (n + EL_BLOCK_OVERHEAD) = 0 := Nat.le_zero.1 hk
    rw [h0] at key ⊢
    exact ⟨rfl, key⟩
  | succ k ih =>
    rcases Nat.eq_or_lt_of_le hk with h | h
    · rw [← h]
      exact ⟨rfl, key⟩
    · obtain ⟨i1, i2⟩ := ih (by omega)
      have e : el_malloc_repeat (el_init A heap s0 C).1 n (k + 1) =
          el_malloc_repeat (el_init A heap s0 C).1 n k := by
        show (el_malloc (el_malloc_repeat (el_init A heap s0 C).1 n k) n).1 = _
        rw [i2]
      rw [e]
      exact ⟨i1, i2⟩

end

/-! ## Insert and remove on one well-formed list -/

theorem el_remove_block_list (s : el_state) (l : el_list_id) (b : Nat) :
    ((el_remove_block s l b).list l).beg = (s.list l).beg ∧
    ((el_remove_block s l b).list l).end_ = (s.list l).end_ ∧
    ((el_remove_block s l b).list l).length = wsub (s.list l).length 1 ∧
    ((el_remove_block s l b).list l).bytes =
      wsub (s.list l).bytes (wadd EL_BLOCK_OVERHEAD (s.size b)) := by
  cases l
  · simp only [list_avail]
    exact ⟨(el_remove_block_avail_list s b).1, (el_remove_block_avail_list s b).2.1,
      (el_remove_block_avail_list s b).2.2.1, (el_remove_block_avail_list s b).2.2.2.1⟩
  · simp only [list_used]
    exact ⟨(el_remove_block_used_list s b).1, (el_remove_block_used_list s b).2.1,
      (el_remove_block_used_list s b).2.2.1, (el_remove_block_used_list s b).2.2.2.1⟩

theorem el_add_block_front_list (s : el_state) (l : el_list_id) (b : Nat) :
    ((el_add_block_front s l b).list l).beg = (s.list l).beg ∧
    ((el_add_block_front s l b).list l).end_ = (s.list l).end_ ∧
    ((el_add_block_front s l b).list l).length = wadd (s.list l).length 1 ∧
    ((el_add_block_front s l b).list l).bytes =
      wadd (s.list l).bytes (wadd EL_BLOCK_OVERHEAD (s.size b)) := by
  cases l
  · simp only [list_avail]
    exact ⟨(el_add_block_front_avail_list s b).1, (el_add_block_front_avail_list s b).2.1,
      (el_add_block_front_avail_list s b).2.2.1, (el_add_block_front_avail_list s b).2.2.2.1⟩
  · simp only [list_used]
    exact ⟨(el_add_block_front_used_list s b).1, (el_add_block_front_used_list s b).2.1,
      (el_add_block_front_used_list s b).2.2.1, (el_add_block_front_used_list s b).2.2.2.1⟩

theorem el_blocklist_eq {L M : el_blocklist_t} (h1 : L.beg = M.beg) (h2 : L.end_ = M.end_)
    (h3 : L.length = M.length) (h4 : L.bytes = M.bytes) : L = M := by
  cases L; cases M
  simp only at h1 h2 h3 h4
  simp only [el_blocklist_t.mk.injEq]
  exact ⟨h1, h2, h3, h4⟩

section
variable {s : el_state} {l : el_list_id}

/-- Removing a member from a well-formed list: only it is unlinked, the order of the
others is kept, `length` drops by 1 and `bytes` by the block's overhead and size. -/
theorem el_list_wf.remove {l1 l2 : List Nat} {x : Nat} (W : el_list_wf s l (l1 ++ x :: l2))
    (hlen : (s.list l).length < 2 ^ 64) (hbytes : (s.list l).bytes < 2 ^ 64) :
    el_list_wf (el_remove_block s l x) l (l1 ++ l2) ∧
    ((el_remove_block s l x).list l).beg = (s.list l).beg ∧
    ((el_remove_block s l x).list l).end_ = (s.list l).end_ ∧
    ((el_remove_block s l x).list l).length = (s.list l).length - 1 ∧
    ((el_remove_block s l x).list l).bytes =
      (s.list l).bytes - (EL_BLOCK_OVERHEAD + s.size x) := by
  obtain ⟨r1, r2, r3, r4⟩ := el_remove_block_list s l x
  have hch := (el_chain_append l1 _ x l2 _).1 W.chain
  have hle := W.length_eq
  have hby := W.bytes_eq
  rw [el_bytes_of_append, el_bytes_of_cons] at hby
  simp only [List.length_append, List.length_cons] at hle
  have e1 : wsub (s.list l).length 1 = (s.list l).length - 1 := wsub_eq (by omega) hlen
  have e2 : wadd EL_BLOCK_OVERHEAD (s.size x) = EL_BLOCK_OVERHEAD + s.size x :=
    wadd_eq (by omega)
  have e3 : wsub (s.list l).bytes (EL_BLOCK_OVERHEAD + s.size x) =
      (s.list l).bytes - (EL_BLOCK_OVERHEAD + s.size x) := wsub_eq (by omega) hbytes
  have hnd : ((s.list l).beg :: (l1 ++ l2) ++ [(s.list l).end_]).Nodup := by
    have h := W.nodup
    have hsub : ((s.list l).beg :: (l1 ++ l2) ++ [(s.list l).end_]).Sublist
        ((s.list l).beg :: (l1 ++ x :: l2) ++ [(s.list l).end_]) := by
      simp only [List.cons_append, List.append_assoc]
      exact List.Sublist.cons₂ _ (List.Sublist.append_left (List.sublist_cons_self _ _) _)
    exact hsub.nodup h
  refine ⟨⟨?_, ?_, ?_, ?_, ?_⟩, r1, r2, by rw [r3, e1], by rw [r4, e2, e3]⟩
  · rw [r1, r2]
    exact el_chain_unlink (el_remove_block_next _ _ _) (el_remove_block_prev _ _ _)
      l1 _ l2 _ hch.1 hch.2 W.nodup
  · rw [r1, r2]; exact hnd
  · intro b hb
    exact W.nonnull b (by
      rcases List.mem_append.1 hb with h | h
      · exact List.mem_append_left _ h
      · exact List.mem_append_right _ (List.mem_cons_of_mem _ h))
  · rw [r3, e1, hle]; simp only [List.length_append]; omega
  · rw [r4, e2, e3, hby, el_bytes_of_append,
      el_bytes_of_eq_of_size (el_remove_block_frame s l x).1,
      el_bytes_of_eq_of_size (el_remove_block_frame s l x).1]
    omega

/-- Adding a block that is not a node of a well-formed list: it becomes the first
member, the order of the others is kept, `length` grows by 1 and `bytes` by the block's
overhead and size. -/
theorem el_list_wf.add {xs : List Nat} {b : Nat} (W : el_list_wf s l xs)
    (hb : b ∉ (s.list l).beg :: xs ++ [(s.list l).end_]) (hb0 : b ≠ NULL)
    (hlen : (s.list l).length + 1 < 2 ^ 64)
    (hbytes : (s.list l).bytes + (EL_BLOCK_OVERHEAD + s.size b) < 2 ^ 64) :
    el_list_wf (el_add_block_front s l b) l (b :: xs) ∧
    ((el_add_block_front s l b).list l).beg = (s.list l).beg ∧
    ((el_add_block_front s l b).list l).end_ = (s.list l).end_ ∧
    ((el_add_block_front s l b).list l).length = (s.list l).length + 1 ∧
    ((el_add_block_front s l b).list l).bytes =
      (s.list l).bytes + (EL_BLOCK_OVERHEAD + s.size b) := by
  obtain ⟨r1, r2, r3, r4⟩ := el_add_block_front_list s l b
  have hbb : b ≠ (s.list l).beg := by
    intro h; exact hb (by rw [h]; simp)
  have e1 : wadd (s.list l).length 1 = (s.list l).length + 1 := wadd_eq hlen
  have e2 : wadd EL_BLOCK_OVERHEAD (s.size b) = EL_BLOCK_OVERHEAD + s.size b :=
    wadd_eq (by omega)
  have e3 : wadd (s.list l).bytes (EL_BLOCK_OVERHEAD + s.size b) =
      (s.list l).bytes + (EL_BLOCK_OVERHEAD + s.size b) := wadd_eq hbytes
  refine ⟨⟨?_, ?_, ?_, ?_, ?_⟩, r1, r2, by rw [r3, e1], by rw [r4, e2, e3]⟩
  · rw [r1, r2]
    exact el_chain_link (el_add_block_front_next _ _ _) (el_add_block_front_prev _ _ _ hbb)
      W.chain hb W.nodup
  · rw [r1, r2]
    have h := W.nodup
    simp only [List.cons_append, List.nodup_cons, List.mem_cons, List.mem_append,
      List.mem_singleton, not_or] at h hb ⊢
    obtain ⟨hb1, hb2, hb3⟩ := hb
    exact ⟨⟨Ne.symm hb1, h.1.1, h.1.2⟩, ⟨hb2, hb3⟩, h.2⟩
  · intro y hy
    rcases List.mem_cons.1 hy with rfl | h
    · exact hb0
    · exact W.nonnull y h
  · rw [r3, e1, W.length_eq]; simp
  · rw [r4, e2, e3, W.bytes_eq, el_bytes_of_cons,
      el_bytes_of_eq_of_size (el_add_block_front_frame s l b).1,
      (el_add_block_front_frame s l b).1]
    omega

theorem el_list_wf.members_eq {xs : List Nat} (W : el_list_wf s l xs) :
    el_members s l = xs := by
  have := W.length_eq
  simp only [el_members, this]
  exact el_members_loop_chain s xs _ _ W.chain

end

/-! ## The cases of `el_free` -/

section
variable {A : el_addrs_t} {heap C : Nat} {s : el_state} {bs av us ds : List Nat}

theorem el_wf.get_footer (W : el_wf A heap C s bs av us ds) {b : Nat} (hb : b ∈ bs) :
    el_get_footer s b = b + sizeof_head + s.size b := by
  have h := (W.block_pos hb).2.2
  simp only [EL_BLOCK_OVERHEAD, sizeof_head, sizeof_foot] at h
  have e1 : wadd 32 (s.size b) = 32 + s.size b := wadd_eq (by omega)
  have e2 : wadd b (32 + s.size b) = b + 32 + s.size b := by
    rw [wadd_eq (by omega)]; omega
  simp only [el_get_footer, PTR_PLUS_BYTES, sizeof_head, e1, e2]

theorem el_inv.mirror (I : el_inv A heap C s bs av us) {b : Nat} (hb : b ∈ bs) :
    s.foot (el_get_footer s b) = s.size b := by
  have h := I.wf.entry hb
  simp only [PTR_MINUS_PTR, el_entry_of, el_entry.mk.injEq] at h
  exact h.2.2.2.2

theorem el_merge_block_with_above_used (s : el_state) (lower : Nat) :
    (el_merge_block_with_above s lower).ctl.used = s.ctl.used := by
  simp only [el_merge_block_with_above]
  split
  · rfl
  · simp only [el_add_block_front_avail_list, set_foot_proj, set_size_proj,
      el_remove_block_avail_list]

/-- The first merge attempt of `el_free`, exactly: the freed block `h` absorbs the
block above it when that block is Available, and nothing else changes. -/
theorem el_free_stage_above {b1 b2 : List Nat} {h : Nat}
    (I : el_inv A heap C s (b1 ++ h :: b2) av us) (hh : h ∈ us) :
    ∃ R rest,
      el_inv A heap C (el_merge_block_with_above (el_free_moved s h) h) (b1 ++ h :: R)
        (h :: rest) (us.erase h) ∧
      (el_merge_block_with_above (el_free_moved s h) h).state =
        Function.update s.state h EL_AVAILABLE ∧
      (el_merge_block_with_above (el_free_moved s h) h).size =
        Function.update s.size h (s.size h +
          (if el_block_above s h ≠ NULL ∧ s.state (el_block_above s h) = EL_AVAILABLE
            then s.size (el_block_above s h) + EL_BLOCK_OVERHEAD else 0)) ∧
      R.length +
        (if el_block_above s h ≠ NULL ∧ s.state (el_block_above s h) = EL_AVAILABLE
          then 1 else 0) = b2.length := by
  have hnd : (b1 ++ h :: b2).Nodup := el_tiles_nodup _ _ _ I.wf.tiles
  have hnb2 : ∀ y ∈ b2, y ≠ h := by
    intro y hy e
    rw [e] at hy
    exact (List.nodup_cons.1 (List.nodup_append.1 hnd).2.1).1 hy
  obtain ⟨I0, msz, _, mst⟩ := el_free_moved_spec I hh
  cases b2 with
  | nil =>
    have hU : ¬ (el_block_above s h ≠ NULL ∧ s.state (el_block_above s h) = EL_AVAILABLE) := by
      rw [el_block_above_last I.wf]
      exact fun h => h.1 rfl
    rw [if_neg hU, if_neg hU, el_merge_noop_last I0]
    refine ⟨[], av, I0, mst, ?_, rfl⟩
    rw [msz, Nat.add_zero, Function.update_eq_self]
  | cons a b3 =>
    have hab := (el_block_above_next I.wf).1
    have hah : a ≠ h := hnb2 a (List.mem_cons_self _ _)
    have hsa : (el_free_moved s h).state a = s.state a := by
      rw [mst, Function.update_noteq hah]
    have ha0 : a ≠ NULL := (I.wf.block_pos (by simp)).1
    by_cases ha : s.state a = EL_AVAILABLE
    · have hU : el_block_above s h ≠ NULL ∧ s.state (el_block_above s h) = EL_AVAILABLE := by
        rw [hab]; exact ⟨ha0, ha⟩
      rw [if_pos hU, if_pos hU, hab]
      have ha2 : a ∈ h :: av := (I0.state_avail_iff (by simp)).1 (by rw [hsa]; exact ha)
      obtain ⟨J, jsz, jst, _⟩ := el_merge_do I0 (List.mem_cons_self _ _) ha2
      refine ⟨b3, _, J, by rw [jst, mst], ?_, rfl⟩
      rw [jsz, msz, Nat.add_assoc]
    · have hU : ¬ (el_block_above s h ≠ NULL ∧ s.state (el_block_above s h) = EL_AVAILABLE) := by
        rw [hab]; exact fun h => ha h.2
      rw [if_neg hU, if_neg hU, el_merge_noop_above I0 (by rw [hsa]; exact ha)]
      refine ⟨a :: b3, av, I0, mst, ?_, rfl⟩
      rw [msz, Nat.add_zero, Function.update_eq_self]

/-- What `el_free` leaves, exactly: the block `x` that holds the freed block is the
block below when that one was Available and the freed block otherwise; its size is the
freed block's size plus, for each Available neighbour, that neighbour's size and one
overhead; it heads the available list; no other block's size or state changes. -/
theorem el_free_cases {b1 b2 : List Nat} {h : Nat}
    (I : el_inv A heap C s (b1 ++ h :: b2) av us) (hh : h ∈ us) :
    ∃ bsn avn,
      el_inv A heap C (el_free s (h + sizeof_head)) bsn
        ((if el_block_below s h ≠ NULL ∧ s.state (el_block_below s h) = EL_AVAILABLE
          then el_block_below s h else h) :: avn) (us.erase h) ∧
      (el_free s (h + sizeof_head)).size
          (if el_block_below s h ≠ NULL ∧ s.state (el_block_below s h) = EL_AVAILABLE
            then el_block_below s h else h) =
        s.size h +
          (if el_block_above s h ≠ NULL ∧ s.state (el_block_above s h) = EL_AVAILABLE
            then s.size (el_block_above s h) + EL_BLOCK_OVERHEAD else 0) +
          (if el_block_below s h ≠ NULL ∧ s.state (el_block_below s h) = EL_AVAILABLE
            then s.size (el_block_below s h) + EL_BLOCK_OVERHEAD else 0) ∧
      (∀ y, y ≠ h → s.state y ≠ EL_AVAILABLE →
        (el_free s (h + sizeof_head)).size y = s.size y) ∧
      (el_free s (h + sizeof_head)).state = Function.update s.state h EL_AVAILABLE ∧
      bsn.length +
          (if el_block_above s h ≠ NULL ∧ s.state (el_block_above s h) = EL_AVAILABLE
            then 1 else 0) +
          (if el_block_below s h ≠ NULL ∧ s.state (el_block_below s h) = EL_AVAILABLE
            then 1 else 0) = (b1 ++ h :: b2).length := by
  have hnd : (b1 ++ h :: b2).Nodup := el_tiles_nodup _ _ _ I.wf.tiles
  have hnb1 : ∀ y ∈ b1, y ≠ h := by
    intro y hy e
    rw [e] at hy
    exact (List.nodup_append.1 hnd).2.2 hy (List.mem_cons_self _ _)
  obtain ⟨R, rest, J, jst, jsz, jlen⟩ := el_free_stage_above I hh
  rw [el_free_eq I hh]
  rcases List.eq_nil_or_concat b1 with rfl | ⟨L, l, rfl⟩
  · have W0 : el_wf A heap C s (h :: b2) av us [] := by simpa using I.wf
    have hb0 := el_block_below_first W0
    have hL : ¬ (el_block_below s h ≠ NULL ∧ s.state (el_block_below s h) = EL_AVAILABLE) := by
      rw [hb0]; exact fun h => h.1 rfl
    rw [if_neg hL, if_neg hL, if_neg hL, if_neg (by rw [hb0]; simp)]
    refine ⟨_, rest, J, ?_, ?_, jst, ?_⟩
    · rw [jsz, Function.update_same, Nat.add_zero]
    · intro y hy _
      rw [jsz, Function.update_noteq hy]
    · simp only [List.nil_append, List.length_cons] at jlen ⊢
      omega
  · have e1 : L.concat l ++ h :: b2 = L ++ l :: h :: b2 := by simp
    have e2 : L.concat l ++ h :: R = L ++ l :: h :: R := by simp
    have hlh : l ≠ h := hnb1 l (by simp)
    rw [e1] at I
    rw [e2] at J
    have hbl := el_block_below_prev I.wf
    have hl0 : l ≠ NULL := (I.wf.block_pos (by simp)).1
    have hsl : (el_merge_block_with_above (el_free_moved s h) h).state l = s.state l := by
      rw [jst, Function.update_noteq hlh]
    rw [hbl, if_pos hl0]
    by_cases hl : s.state l = EL_AVAILABLE
    · have hL : l ≠ NULL ∧ s.state l = EL_AVAILABLE := ⟨hl0, hl⟩
      rw [if_pos hL, if_pos hL, if_pos hL]
      have hl2 : l ∈ h :: rest := (J.state_avail_iff (by simp)).1 (by rw [hsl]; exact hl)
      obtain ⟨K, ksz, kst, _⟩ := el_merge_do J hl2 (List.mem_cons_self _ _)
      refine ⟨_, _, K, ?_, ?_, by rw [kst, jst], ?_⟩
      · rw [ksz, Function.update_same, jsz, Function.update_same,
          Function.update_noteq hlh]
        omega
      · intro y hy1 hy2
        have hyl : y ≠ l := by
          rintro rfl
          exact hy2 hl
        rw [ksz, Function.update_noteq hyl, jsz, Function.update_noteq hy1]
      · simp only [List.length_append, List.length_cons, List.length_concat] at jlen ⊢
        omega
    · have hL : ¬ (l ≠ NULL ∧ s.state l = EL_AVAILABLE) := fun h => hl h.2
      rw [if_neg hL, if_neg hL, if_neg hL, el_merge_noop_state (by rw [hsl]; exact hl)]
      refine ⟨_, rest, J, ?_, ?_, jst, ?_⟩
      · rw [jsz, Function.update_same, Nat.add_zero]
      · intro y hy _
        rw [jsz, Function.update_noteq hy]
      · simp only [List.length_append, List.length_cons, List.length_concat] at jlen ⊢
        omega

end

/-! ## Used blocks are left alone -/

section
variable {A : el_addrs_t} {heap C : Nat} {s : el_state} {bs av us ds : List Nat}

/-- Two different blocks of the layout do not overlap. -/
theorem el_wf.disjoint (W : el_wf A heap C s bs av us ds) {b c : Nat} (hb : b ∈ bs)
    (hc : c ∈ bs) (hne : c ≠ b) :
    c + EL_BLOCK_OVERHEAD + s.size c ≤ b ∨ b + EL_BLOCK_OVERHEAD + s.size b ≤ c := by
  obtain ⟨b1, b2, rfl⟩ := List.append_of_mem hb
  obtain ⟨_, _, _, h4, h5, _, _⟩ := W.around
  rcases List.mem_append.1 hc with h | h
  · exact Or.inl (h4 c h)
  · rcases List.mem_cons.1 h with h | h
    · exact absurd h hne
    · exact Or.inr (h5 c h)

/-- A block that stays in the used list across a state change that keeps its size
keeps its footer, in place and in value. -/
theorem el_inv.footer_frame {t : el_state} {bst avt ust : List Nat} {b : Nat}
    (I : el_inv A heap C s bs av us) (J : el_inv A heap C t bst avt ust)
    (hb : b ∈ bs) (hbt : b ∈ bst) (hsz : t.size b = s.size b) :
    el_get_footer t b = el_get_footer s b ∧
    t.foot (el_get_footer t b) = s.foot (el_get_footer s b) := by
  refine ⟨by rw [J.wf.get_footer hbt, I.wf.get_footer hb, hsz], ?_⟩
  rw [J.mirror hbt, I.mirror hb, hsz]

/-- What `el_malloc` leaves of a used block, for a request that does not wrap. -/
theorem el_malloc_used_frame (I : el_inv A heap C s bs av us) {n b : Nat}
    (hn : n + EL_BLOCK_OVERHEAD < 2 ^ 64) (hb : b ∈ us) :
    (el_malloc s n).1.size b = s.size b ∧ (el_malloc s n).1.state b = s.state b ∧
    el_get_footer (el_malloc s n).1 b = el_get_footer s b ∧
    (el_malloc s n).1.foot (el_get_footer (el_malloc s n).1 b) =
      s.foot (el_get_footer s b) := by
  have hbs : b ∈ bs := I.wf.members_facts.2.2.2.2.2.2.2 b hb
  rcases el_malloc_spec I hn with ⟨_, _, h3⟩ |
    ⟨l1, l2, b1, b2, f, _, rfl, rfl, _, _, _, J, _, _, hfr⟩
  · rw [h3]
    exact ⟨rfl, rfl, rfl, rfl⟩
  · have hbf : b ≠ f := by
      rintro rfl
      exact I.wf.members_facts.2.2.2.2.1 b (by simp) hb
    have hsz := hfr b hbs hbf
    have hbt : b ∈ b1 ++ f :: (f + EL_BLOCK_OVERHEAD + n) :: b2 :=
      J.wf.members_facts.2.2.2.2.2.2.2 b (List.mem_cons_of_mem _ hb)
    obtain ⟨g1, g2⟩ := I.footer_frame J hbs hbt hsz
    exact ⟨hsz, el_malloc_state_frame I J hbs hbf, g1, g2⟩

/-- What `el_free` of the block `h` leaves of another used block. -/
theorem el_free_used_frame (I : el_inv A heap C s bs av us) {h b : Nat}
    (hh : h ∈ us) (hb : b ∈ us) (hne : b ≠ h) :
    (el_free s (h + sizeof_head)).size b = s.size b ∧
    (el_free s (h + sizeof_head)).state b = s.state b ∧
    el_get_footer (el_free s (h + sizeof_head)) b = el_get_footer s b ∧
    (el_free s (h + sizeof_head)).foot (el_get_footer (el_free s (h + sizeof_head)) b) =
      s.foot (el_get_footer s b) := by
  have hbs : b ∈ bs := I.wf.members_facts.2.2.2.2.2.2.2 b hb
  have hhs : h ∈ bs := I.wf.members_facts.2.2.2.2.2.2.2 h hh
  obtain ⟨b1, b2, rfl⟩ := List.append_of_mem hhs
  obtain ⟨bsn, avn, J, _, hfr, hst, _⟩ := el_free_cases I hh
  have hbu : s.state b ≠ EL_AVAILABLE := by
    rw [I.used_state b hb]; exact el_used_ne_avail
  have hsz := hfr b hne hbu
  have hbt : b ∈ bsn :=
    J.wf.members_facts.2.2.2.2.2.2.2 b ((List.mem_erase_of_ne hne).2 hb)
  obtain ⟨g1, g2⟩ := I.footer_frame J hbs hbt hsz
  exact ⟨hsz, by rw [hst, Function.update_noteq hne], g1, g2⟩

end

/-! ## Coalescing and double free in the states reached without wrapping -/

section
variable {A : el_addrs_t} {heap C : Nat}

/-- Three-way coalescing in the states reached by requests that do not wrap: let `h` be the
block of a live pointer, `L = el_block_below(h)` and `U = el_block_above(h)`.  After
`el_free` the used list is one shorter.  When `L` and `U` are both Available the block
at `L` heads the available list with header and footer size `L.size + h.size + U.size +
2 * OVERHEAD`, its footer is the one `U` had, and the available list is one shorter.
When only `U` is Available the block at `h` heads the list with size `h.size + U.size +
OVERHEAD`; when only `L` is, the block at `L` does with size `L.size + h.size +
OVERHEAD`; in both cases the length of the available list is unchanged.  When neither
is, `h` heads the list with its size unchanged and the available list is one longer. -/
theorem el_free_coalesce {s : el_state} {live : List Nat} {h : Nat}
    (E : el_env_ok A heap C) (R : el_reach A heap C s live)
    (hp : h + sizeof_head ∈ live) :
    (el_free s (h + sizeof_head)).ctl.used.length + 1 = s.ctl.used.length ∧
    (el_block_below s h ≠ NULL ∧ s.state (el_block_below s h) = EL_AVAILABLE →
      el_block_above s h ≠ NULL ∧ s.state (el_block_above s h) = EL_AVAILABLE →
      (el_members (el_free s (h + sizeof_head)) .avail).head? = some (el_block_below s h) ∧
      (el_free s (h + sizeof_head)).size (el_block_below s h) =
        s.size (el_block_below s h) + s.size h + s.size (el_block_above s h) +
          2 * EL_BLOCK_OVERHEAD ∧
      (el_free s (h + sizeof_head)).foot
          (el_get_footer (el_free s (h + sizeof_head)) (el_block_below s h)) =
        s.size (el_block_below s h) + s.size h + s.size (el_block_above s h) +
          2 * EL_BLOCK_OVERHEAD ∧
      el_get_footer (el_free s (h + sizeof_head)) (el_block_below s h) =
        el_get_footer s (el_block_above s h) ∧
      (el_free s (h + sizeof_head)).state (el_block_below s h) = EL_AVAILABLE ∧
      (el_free s (h + sizeof_head)).ctl.avail.length + 1 = s.ctl.avail.length) ∧
    (¬ (el_block_below s h ≠ NULL ∧ s.state (el_block_below s h) = EL_AVAILABLE) →
      el_block_above s h ≠ NULL ∧ s.state (el_block_above s h) = EL_AVAILABLE →
      (el_members (el_free s (h + sizeof_head)) .avail).head? = some h ∧
      (el_free s (h + sizeof_head)).size h =
        s.size h + s.size (el_block_above s h) + EL_BLOCK_OVERHEAD ∧
      (el_free s (h + sizeof_head)).foot (el_get_footer (el_free s (h + sizeof_head)) h) =
        s.size h + s.size (el_block_above s h) + EL_BLOCK_OVERHEAD ∧
      el_get_footer (el_free s (h + sizeof_head)) h = el_get_footer s (el_block_above s h) ∧
      (el_free s (h + sizeof_head)).ctl.avail.length = s.ctl.avail.length) ∧
    (el_block_below s h ≠ NULL ∧ s.state (el_block_below s h) = EL_AVAILABLE →
      ¬ (el_block_above s h ≠ NULL ∧ s.state (el_block_above s h) = EL_AVAILABLE) →
      (el_members (el_free s (h + sizeof_head)) .avail).head? = some (el_block_below s h) ∧
      (el_free s (h + sizeof_head)).size (el_block_below s h) =
        s.size (el_block_below s h) + s.size h + EL_BLOCK_OVERHEAD ∧
      (el_free s (h + sizeof_head)).foot
          (el_get_footer (el_free s (h + sizeof_head)) (el_block_below s h)) =
        s.size (el_block_below s h) + s.size h + EL_BLOCK_OVERHEAD ∧
      el_get_footer (el_free s (h + sizeof_head)) (el_block_below s h) = el_get_footer s h ∧
      (el_free s (h + sizeof_head)).ctl.avail.length = s.ctl.avail.length) ∧
    (¬ (el_block_below s h ≠ NULL ∧ s.state (el_block_below s h) = EL_AVAILABLE) →
      ¬ (el_block_above s h ≠ NULL ∧ s.state (el_block_above s h) = EL_AVAILABLE) →
      (el_members (el_free s (h + sizeof_head)) .avail).head? = some h ∧
      (el_free s (h + sizeof_head)).size h = s.size h ∧
      (el_free s (h + sizeof_head)).foot (el_get_footer (el_free s (h + sizeof_head)) h) =
        s.size h ∧
      el_get_footer (el_free s (h + sizeof_head)) h = el_get_footer s h ∧
      (el_free s (h + sizeof_head)).ctl.avail.length = s.ctl.avail.length + 1) := by
  obtain ⟨bs, av, us, I, hperm⟩ := el_reach_inv E R
  have hp2 : h + sizeof_head ∈ us.map (fun b => b + sizeof_head) := hperm.mem_iff.1 hp
  obtain ⟨h2, hh, e⟩ := List.mem_map.1 hp2
  have e2 : h2 = h := by simpa using e
  subst e2
  have hbs : h2 ∈ bs := I.wf.members_facts.2.2.2.2.2.2.2 h2 hh
  obtain ⟨b1, b2, rfl⟩ := List.append_of_mem hbs
  obtain ⟨bsn, avn, J, hsz, _, hst, hlen⟩ := el_free_cases I hh
  have hx : (if el_block_below s h2 ≠ NULL ∧ s.state (el_block_below s h2) = EL_AVAILABLE
      then el_block_below s h2 else h2) ∈ bsn :=
    J.wf.members_facts.2.2.2.2.2.2.1 _ (List.mem_cons_self _ _)
  have hmir := J.mirror hx
  have hft := J.wf.get_footer hx
  have hhd : (el_members (el_free s (h2 + sizeof_head)) .avail).head? =
      some (if el_block_below s h2 ≠ NULL ∧ s.state (el_block_below s h2) = EL_AVAILABLE
        then el_block_below s h2 else h2) := by
    rw [J.wf.members.1]; rfl
  have hsta := J.avail_state _ (List.mem_cons_self _ _)
  -- counting the members of the lists against the blocks of the layout
  have c1 := I.wf.perm.length_eq
  have c2 := J.wf.perm.length_eq
  have c3 := List.length_erase_of_mem hh
  have c4 := List.length_pos_of_mem hh
  have c5 := I.wf.avail_length
  have c6 := J.wf.avail_length
  have c7 := I.wf.used_length
  have c8 := J.wf.used_length
  simp only [List.nil_append, List.length_append, List.length_cons] at c1 c2 c6 hlen
  -- the positions of the neighbours
  have fh := I.wf.get_footer hbs
  have posU : el_block_above s h2 ≠ NULL →
      el_get_footer s (el_block_above s h2) =
        h2 + EL_BLOCK_OVERHEAD + s.size h2 + sizeof_head + s.size (el_block_above s h2) := by
    intro hne
    cases b2 with
    | nil => exact absurd (el_block_above_last I.wf) hne
    | cons a b3 =>
      obtain ⟨q1, q2⟩ := el_block_above_next I.wf
      rw [q1, I.wf.get_footer (by simp), ← q2]
  have posL : el_block_below s h2 ≠ NULL →
      h2 = el_block_below s h2 + EL_BLOCK_OVERHEAD + s.size (el_block_below s h2) := by
    intro hne
    rcases List.eq_nil_or_concat b1 with rfl | ⟨L, l, rfl⟩
    · have W0 : el_wf A heap C s (h2 :: b2) av us [] := by simpa using I.wf
      exact absurd (el_block_below_first W0) hne
    · have e1 : L.concat l ++ h2 :: b2 = L ++ l :: h2 :: b2 := by simp
      rw [e1] at I
      rw [el_block_below_prev I.wf]
      exact (el_block_above_next I.wf).2
  refine ⟨by omega, ?_, ?_, ?_, ?_⟩
  · intro hL hU
    rw [if_pos hL] at hhd hmir hft hsta hsz
    rw [if_pos hU, if_pos hL] at hsz hlen
    have pL := posL hL.1
    have pU := posU hU.1
    simp only [EL_BLOCK_OVERHEAD, sizeof_head, sizeof_foot] at *
    refine ⟨hhd, by omega, by omega, by omega, hsta, by omega⟩
  · intro hL hU
    rw [if_neg hL] at hhd hmir hft hsta hsz
    rw [if_pos hU, if_neg hL] at hsz hlen
    have pU := posU hU.1
    simp only [EL_BLOCK_OVERHEAD, sizeof_head, sizeof_foot] at *
    refine ⟨hhd, by omega, by omega, by omega, by omega⟩
  · intro hL hU
    rw [if_pos hL] at hhd hmir hft hsta hsz
    rw [if_neg hU, if_pos hL] at hsz hlen
    have pL := posL hL.1
    simp only [EL_BLOCK_OVERHEAD, sizeof_head, sizeof_foot] at *
    refine ⟨hhd, by omega, by omega, by omega, by omega⟩
  · intro hL hU
    rw [if_neg hL] at hhd hmir hft hsta hsz
    rw [if_neg hU, if_neg hL] at hsz hlen
    simp only [EL_BLOCK_OVERHEAD, sizeof_head, sizeof_foot] at *
    refine ⟨hhd, by omega, by omega, by omega, by omega⟩

/-- Three-way coalescing at work: after `el_init(1024); p1 = el_malloc(100); p2 = el_malloc(200);
el_free(p1)` the block of `p2` (address 4236) lies between two available blocks, and
`el_free(p2)` folds the three into the block at the heap start. -/
theorem el_free_coalesce_witness :
    (el_free demo_hole (4236 + sizeof_head)).ctl.used.length + 1 = demo_hole.ctl.used.length ∧
    (el_members (el_free demo_hole (4236 + sizeof_head)) .avail).head? = some (el_block_below demo_hole 4236) ∧
    (el_free demo_hole (4236 + sizeof_head)).size (el_block_below demo_hole 4236) =
      demo_hole.size (el_block_below demo_hole 4236) + demo_hole.size 4236 + demo_hole.size (el_block_above demo_hole 4236) +
        2 * EL_BLOCK_OVERHEAD ∧
    (el_free demo_hole (4236 + sizeof_head)).foot
        (el_get_footer (el_free demo_hole (4236 + sizeof_head)) (el_block_below demo_hole 4236)) =
      demo_hole.size (el_block_below demo_hole 4236) + demo_hole.size 4236 + demo_hole.size (el_block_above demo_hole 4236) +
        2 * EL_BLOCK_OVERHEAD ∧
    el_get_footer (el_free demo_hole (4236 + sizeof_head)) (el_block_below demo_hole 4236) =
      el_get_footer demo_hole (el_block_above demo_hole 4236) ∧
    (el_free demo_hole (4236 + sizeof_head)).state (el_block_below demo_hole 4236) = EL_AVAILABLE ∧
    (el_free demo_hole (4236 + sizeof_head)).ctl.avail.length + 1 = demo_hole.ctl.avail.length :=
  ⟨(el_free_coalesce demo_env demo_hole_reach (by decide)).1,
    (el_free_coalesce demo_env demo_hole_reach (by decide)).2.1 (by decide!) (by decide!)⟩

/-- Double free in the states reached by requests that do not wrap: a second
`el_free(p)` right after `el_free(p)` of a live pointer leaves the whole allocator state
as the first call left it.  The hypotheses delimit the states in which the objects are
disjoint, so that typed memory is what the machine does; the argument itself is that
the last store of `el_free` to the state field of the header is its own. -/
theorem el_free_twice_in_range {s : el_state} {live : List Nat} {p : Nat}
    (_E : el_env_ok A heap C) (_R : el_reach A heap C s live) (_hp : p ∈ live) :
    el_free (el_free s p) p = el_free s p := by
  have h := el_free_state_self s p
  generalize el_free s p = t at h
  unfold el_free
  simp only [PTR_MINUS_BYTES, h, if_true]

end

/-! ## Typed memory against bytes on the worked traces -/

/-- On the trace `el_init(1024); p1 = el_malloc(100); p2 = el_malloc(200); el_free(p1)`
the code over bytes and the code over typed memory return the same pointers and end in
the same `el_ctl`, with the same members in both lists and the same sizes and states in
the members. -/
theorem flat_agrees_on_demo_hole :
    Flat.trace_first.2 = 4128 ∧ demo_first.2 = 4128 ∧
    (Flat.el_malloc Flat.trace_first.1 200).2 = demo_pair.2 ∧
    (Flat.el_free (Flat.el_malloc Flat.trace_first.1 200).1 4128).ctl = demo_hole.ctl ∧
    Flat.el_members (Flat.el_free (Flat.el_malloc Flat.trace_first.1 200).1 4128) .avail =
      el_members demo_hole .avail ∧
    Flat.el_members (Flat.el_free (Flat.el_malloc Flat.trace_first.1 200).1 4128) .used =
      el_members demo_hole .used ∧
    (∀ b ∈ [4096, 4236, 4476],
      (Flat.el_free (Flat.el_malloc Flat.trace_first.1 200).1 4128).size b =
        demo_hole.size b ∧
      (Flat.el_free (Flat.el_malloc Flat.trace_first.1 200).1 4128).state b =
        demo_hole.state b) := by
  decide!

/-- On the trace of the wrapping request `el_malloc(SIZE_MAX - 39)`, where the sum
`size + EL_BLOCK_OVERHEAD` wraps to 0 and every header and footer still falls on a field
boundary, the code over bytes and the code over typed memory agree as well: same
pointers, same `el_ctl`, same members, same sizes and states in the members. -/
theorem flat_agrees_on_demo_fifth :
    Flat.trace_first.2 = 4128 ∧ demo_first.2 = 4128 ∧
    (Flat.el_malloc Flat.trace_first.1 demo_wrap).2 = demo_second.2 ∧
    (Flat.el_malloc (Flat.el_malloc Flat.trace_first.1 demo_wrap).1 50).2 = 4268 ∧
    demo_third.2 = 4268 ∧
    (Flat.el_free (Flat.el_free
      (Flat.el_malloc (Flat.el_malloc Flat.trace_first.1 demo_wrap).1 50).1 4128) 4268).ctl =
        demo_fifth.ctl ∧
    Flat.el_members (Flat.el_free (Flat.el_free
      (Flat.el_malloc (Flat.el_malloc Flat.trace_first.1 demo_wrap).1 50).1 4128) 4268)
        .avail = el_members demo_fifth .avail ∧
    Flat.el_members (Flat.el_free (Flat.el_free
      (Flat.el_malloc (Flat.el_malloc Flat.trace_first.1 demo_wrap).1 50).1 4128) 4268)
        .used = el_members demo_fifth .used ∧
    (∀ b ∈ [4096, 4236, 4326],
      (Flat.el_free (Flat.el_free
        (Flat.el_malloc (Flat.el_malloc Flat.trace_first.1 demo_wrap).1 50).1 4128) 4268).size b
          = demo_fifth.size b ∧
      (Flat.el_free (Flat.el_free
        (Flat.el_malloc (Flat.el_malloc Flat.trace_first.1 demo_wrap).1 50).1 4128) 4268).state b
          = demo_fifth.state b) := by
  decide!

/-! ## The sentinels after `el_init` -/

section
variable {A : el_addrs_t} {heap C : Nat}

theorem el_wf.used_list_wf {s : el_state} {bs av us ds : List Nat}
    (W : el_wf A heap C s bs av us ds) (hn : ∀ b ∈ us, b ≠ NULL) : el_list_wf s .used us where
  chain := by
    rw [list_used, W.used_beg, W.used_end]; exact W.used_chain
  nodup := by
    rw [list_used, W.used_beg, W.used_end]; exact W.used_nodes_nodup
  nonnull := hn
  length_eq := by rw [list_used]; exact W.used_length
  bytes_eq := by rw [list_used]; exact W.used_bytes

/-- What `el_init_blocklist` leaves in the four sentinel nodes, still there when
`el_init` returns: the states `EL_BEGIN_BLOCK` / `EL_END_BLOCK`, the sizes
`EL_UNINITIALIZED`, and the null links at the two ends of each list. -/
theorem el_init_sentinels (s : el_state) (E : el_env_ok A heap C)
    (h1 : EL_BLOCK_OVERHEAD ≤ C) :
    (el_init A heap s C).1.state A.avail_beg_actual = EL_BEGIN_BLOCK ∧
    (el_init A heap s C).1.state A.avail_end_actual = EL_END_BLOCK ∧
    (el_init A heap s C).1.state A.used_beg_actual = EL_BEGIN_BLOCK ∧
    (el_init A heap s C).1.state A.used_end_actual = EL_END_BLOCK ∧
    (el_init A heap s C).1.size A.avail_beg_actual = EL_UNINITIALIZED ∧
    (el_init A heap s C).1.size A.avail_end_actual = EL_UNINITIALIZED ∧
    (el_init A heap s C).1.size A.used_beg_actual = EL_UNINITIALIZED ∧
    (el_init A heap s C).1.size A.used_end_actual = EL_UNINITIALIZED ∧
    (el_init A heap s C).1.prev A.avail_beg_actual = NULL ∧
    (el_init A heap s C).1.next A.avail_end_actual = NULL ∧
    (el_init A heap s C).1.prev A.used_beg_actual = NULL ∧
    (el_init A heap s C).1.next A.used_end_actual = NULL := by
  rw [el_init_eq A heap s C h1 E.heap_high]
  obtain ⟨f1, f2, f3, f4, f5, f6, f7, f8⟩ := el_init_lists_fields A heap s C
  have hs := E.sentinels_nodup
  simp only [List.nodup_cons, List.mem_cons, List.mem_singleton, List.not_mem_nil,
    List.nodup_nil, not_or, or_false, not_false_eq_true, and_true] at hs
  obtain ⟨⟨n1, n2, n3⟩, ⟨n4, n5⟩, n6⟩ := hs
  have ho := E.sentinels_outside
  simp only [List.mem_cons, List.mem_singleton, List.not_mem_nil, or_false,
    forall_eq_or_imp, forall_eq] at ho
  obtain ⟨o1, o2, o3, o4⟩ := ho
  have h40 : 40 ≤ C := by
    simp only [EL_BLOCK_OVERHEAD, sizeof_head, sizeof_foot] at h1; exact h1
  have m1 : A.avail_beg_actual ≠ heap := by clear f1 f2 f3 f4 f5 f6 f7 f8; omega
  have m2 : A.avail_end_actual ≠ heap := by clear f1 f2 f3 f4 f5 f6 f7 f8; omega
  have m3 : A.used_beg_actual ≠ heap := by clear f1 f2 f3 f4 f5 f6 f7 f8; omega
  have m4 : A.used_end_actual ≠ heap := by clear f1 f2 f3 f4 f5 f6 f7 f8; omega
  have g3 : (el_init_lists A heap s C).size =
      Function.update (Function.update (Function.update (Function.update s.size
        A.avail_beg_actual EL_UNINITIALIZED) A.avail_end_actual EL_UNINITIALIZED)
        A.used_beg_actual EL_UNINITIALIZED) A.used_end_actual EL_UNINITIALIZED := by
    simp only [el_init_lists, el_init_blocklist_mem, el_addrs_t.beg_actual,
      el_addrs_t.end_actual]
  have g4 : (el_init_lists A heap s C).state =
      Function.update (Function.update (Function.update (Function.update s.state
        A.avail_beg_actual EL_BEGIN_BLOCK) A.avail_end_actual EL_END_BLOCK)
        A.used_beg_actual EL_BEGIN_BLOCK) A.used_end_actual EL_END_BLOCK := by
    simp only [el_init_lists, el_init_blocklist_mem, el_addrs_t.beg_actual,
      el_addrs_t.end_actual]
  have hb : heap ≠ (((((el_init_lists A heap s C).set_size heap
        (C - EL_BLOCK_OVERHEAD)).set_state heap EL_AVAILABLE).set_foot
        (heap + sizeof_head + (C - EL_BLOCK_OVERHEAD)) (C - EL_BLOCK_OVERHEAD)).list
        el_list_id.avail).beg := by
    simp only [list_avail, set_foot_proj, set_state_proj, set_size_proj, f4]
    exact Ne.symm m1
  simp only [el_add_block_front_frame, el_add_block_front_next, el_add_block_front_prev _ _ _ hb,
    set_foot_proj, set_state_proj, set_size_proj, list_avail, f4, f7, f8, g3, g4,
    Function.update_apply]
  simp [n1, n2, n3, n4, n5, n6, m1, m2, m3, m4, Ne.symm n1, Ne.symm n2, Ne.symm n3, Ne.symm n4,
    Ne.symm n5, Ne.symm n6, Ne.symm m1, Ne.symm m2, Ne.symm m3, Ne.symm m4]

end

/-! ## The claims -/

section
variable {A : el_addrs_t} {heap C : Nat}

/-- C1 (conservation), evaluated at the input where the code breaks it: after
`el_init(1024)` and `el_malloc(100)` the byte counts of the two lists add up to the
capacity 1024, and after the further call `el_malloc(SIZE_MAX - 39)`, whose
`size + EL_BLOCK_OVERHEAD` wraps to 0, a pointer is returned and the counts add up to
1908 while `heap_bytes` is still 1024. -/
theorem el_conservation_fails_on_wrapping_request :
    (el_init demo_addrs 4096 demo_boot 1024).2 = 0 ∧
    demo_init.ctl.avail.bytes + demo_init.ctl.used.bytes = 1024 ∧
    demo_first.2 = 4128 ∧
    demo_first.1.ctl.avail.bytes + demo_first.1.ctl.used.bytes = 1024 ∧
    demo_second.2 = 4268 ∧
    demo_second.1.ctl.heap_bytes = 1024 ∧
    demo_second.1.ctl.avail.bytes = 884 ∧ demo_second.1.ctl.used.bytes = 1024 ∧
    demo_second.1.ctl.avail.bytes + demo_second.1.ctl.used.bytes = 1908 := by
  decide!

/-- C3 (successful allocation postcondition), evaluated at the input where the code
breaks it: in the state after `el_init(1024); el_malloc(100)`,
`el_find_first_avail(SIZE_MAX - 39)` returns the block `f` at address 4236, of size 844;
`el_malloc(SIZE_MAX - 39)` returns `f + sizeof(header)`, but afterwards `f` still has
header and footer size 844 (not the requested size), its state is Available (not Used)
and it is the first member of both lists; the walk of the used list continues from it
into the end sentinel of the available list (address 48). -/
theorem el_malloc_postcondition_fails_on_wrapping_request :
    el_find_first_avail demo_first.1 demo_wrap = 4236 ∧ demo_first.1.size 4236 = 844 ∧
    demo_second.2 = 4236 + sizeof_head ∧
    demo_second.1.size 4236 = 844 ∧
    demo_second.1.foot (el_get_footer demo_second.1 4236) = 844 ∧
    demo_second.1.state 4236 = EL_AVAILABLE ∧
    el_members demo_second.1 .used = [4236, 48] ∧ demo_addrs.avail_end_actual = 48 ∧
    el_members demo_second.1 .avail = [4236] := by
  decide!

/-- C4 (first fit): for a well-formed available list with members `xs` and every `n`
with `n + EL_BLOCK_OVERHEAD < 2^64`, `el_find_first_avail(n)` returns `NULL` exactly when
no member has size at least `n + EL_BLOCK_OVERHEAD`; otherwise it returns a member of
that size such that no member before it in list order is that large. -/
theorem el_find_first_avail_first_fit {s : el_state} {xs : List Nat} (n : Nat)
    (W : el_list_wf s .avail xs) (hn : n + EL_BLOCK_OVERHEAD < 2 ^ 64) :
    el_members s .avail = xs ∧
    (el_find_first_avail s n = NULL ↔ ∀ b ∈ xs, s.size b < n + EL_BLOCK_OVERHEAD) ∧
    (el_find_first_avail s n ≠ NULL →
      ∃ l1 l2, xs = l1 ++ el_find_first_avail s n :: l2 ∧
        n + EL_BLOCK_OVERHEAD ≤ s.size (el_find_first_avail s n) ∧
        ∀ b ∈ l1, s.size b < n + EL_BLOCK_OVERHEAD) := by
  refine ⟨?_, ?_, ?_⟩
  · have := W.length_eq
    simp only [el_members, this]
    exact el_members_loop_chain s xs _ _ W.chain
  · rcases el_find_first_avail_spec W hn with ⟨h1, h2⟩ | ⟨h1, l1, l2, h2, h3, _⟩
    · exact ⟨fun _ => h2, fun _ => h1⟩
    · refine ⟨fun h => absurd h h1, fun h => ?_⟩
      have := h (el_find_first_avail s n) (by rw [h2]; simp)
      omega
  · intro hne
    rcases el_find_first_avail_spec W hn with ⟨h1, _⟩ | ⟨_, h⟩
    · exact absurd h1 hne
    · exact h

/-- Witness for C4: the available list after `el_init(1024); el_malloc(100)`, whose
single member is the block at address 4236, and the request 200. -/
theorem el_find_first_avail_first_fit_witness :
    el_members demo_first.1 .avail = [4236] ∧
    (el_find_first_avail demo_first.1 200 = NULL ↔
      ∀ b ∈ [4236], demo_first.1.size b < 200 + EL_BLOCK_OVERHEAD) ∧
    (el_find_first_avail demo_first.1 200 ≠ NULL →
      ∃ l1 l2, [4236] = l1 ++ el_find_first_avail demo_first.1 200 :: l2 ∧
        200 + EL_BLOCK_OVERHEAD ≤ demo_first.1.size (el_find_first_avail demo_first.1 200) ∧
        ∀ b ∈ l1, demo_first.1.size b < 200 + EL_BLOCK_OVERHEAD) :=
  el_find_first_avail_first_fit 200
    ⟨⟨by decide!, by decide!, by decide!, by decide!⟩, by decide!, by decide, by decide!,
      by decide!⟩
    (by decide)

/-- C5 (full round trip), as amended: for every `n` with `n + 2 * OVERHEAD <= C`, after
`el_init(C)`, `p = el_malloc(n)`, `el_free(p)` the pointer `p` was the payload of the
block at offset 0, the used list is empty and the available list holds exactly one
block, at offset 0, of size `C - OVERHEAD`, state Available, with matching footer;
`el_ctl` and both listings are those of the state right after `el_init(C)`. -/
theorem el_round_trip_restores (s0 : el_state) (n : Nat) (E : el_env_ok A heap C)
    (hn : n + 2 * EL_BLOCK_OVERHEAD ≤ C) :
    (el_malloc (el_init A heap s0 C).1 n).2 = heap + sizeof_head ∧
    el_members (el_round_trip A heap s0 C n) .used = [] ∧
    el_members (el_round_trip A heap s0 C n) .avail = [heap] ∧
    el_print_blocklist (el_round_trip A heap s0 C n) .avail =
      [⟨0, EL_AVAILABLE, C - EL_BLOCK_OVERHEAD, C - sizeof_foot, C - EL_BLOCK_OVERHEAD⟩] ∧
    (el_round_trip A heap s0 C n).ctl = (el_init A heap s0 C).1.ctl ∧
    el_print_blocklist (el_round_trip A heap s0 C n) .avail =
      el_print_blocklist (el_init A heap s0 C).1 .avail ∧
    el_print_blocklist (el_round_trip A heap s0 C n) .used =
      el_print_blocklist (el_init A heap s0 C).1 .used := by
  have hC : EL_BLOCK_OVERHEAD ≤ C := by omega
  obtain ⟨hp, I⟩ := el_round_trip_inv s0 n E hn
  obtain ⟨_, I1, _⟩ := el_init_spec s0 E hC
  obtain ⟨t1, t2, t3, t4, t5, t6, t7, t8⟩ := I.single hC
  obtain ⟨i1, i2, i3, i4, i5, i6, i7, i8⟩ := I1.single hC
  refine ⟨hp, I.wf.members.2, I.wf.members.1, t8, ?_, by rw [t8, i8], by rw [t7, i7]⟩
  rcases hr : (el_round_trip A heap s0 C n).ctl with ⟨a1, a2, a3, a4, a5⟩
  rcases hi : (el_init A heap s0 C).1.ctl with ⟨c1, c2, c3, c4, c5⟩
  rw [hr] at t2 t3 t4 t5 t6
  rw [hi] at i2 i3 i4 i5 i6
  simp only at t2 t3 t4 t5 t6 i2 i3 i4 i5 i6
  simp only [el_ctl_t.mk.injEq]
  exact ⟨t6.trans i6.symm, t4.trans i4.symm, t5.trans i5.symm, t2.trans i2.symm,
    t3.trans i3.symm⟩

/-- Witness for C5 as amended: capacity 1024 and the largest admitted request, 944. -/
theorem el_round_trip_restores_witness :
    (el_malloc (el_init demo_addrs 4096 demo_boot 1024).1 944).2 = 4096 + sizeof_head ∧
    el_members (el_round_trip demo_addrs 4096 demo_boot 1024 944) .used = [] ∧
    el_members (el_round_trip demo_addrs 4096 demo_boot 1024 944) .avail = [4096] ∧
    el_print_blocklist (el_round_trip demo_addrs 4096 demo_boot 1024 944) .avail =
      [⟨0, EL_AVAILABLE, 1024 - EL_BLOCK_OVERHEAD, 1024 - sizeof_foot,
        1024 - EL_BLOCK_OVERHEAD⟩] ∧
    (el_round_trip demo_addrs 4096 demo_boot 1024 944).ctl =
      (el_init demo_addrs 4096 demo_boot 1024).1.ctl ∧
    el_print_blocklist (el_round_trip demo_addrs 4096 demo_boot 1024 944) .avail =
      el_print_blocklist (el_init demo_addrs 4096 demo_boot 1024).1 .avail ∧
    el_print_blocklist (el_round_trip demo_addrs 4096 demo_boot 1024 944) .used =
      el_print_blocklist (el_init demo_addrs 4096 demo_boot 1024).1 .used :=
  el_round_trip_restores demo_boot 944 ⟨by decide, by decide, by decide, by decide⟩
    (by decide)

/-- C5 as stated fails: with capacity 1024 the request `n = 984 = C - OVERHEAD` is
within the claimed range, yet `el_malloc(984)` returns `NULL` (first fit asks for a block
of size `n + OVERHEAD = 1024`, the only block has 984), so no block is handed out, and
passing that result to `el_free` (which then takes the header at `NULL - 32`, not a
block of the heap) does not leave `el_ctl` as `el_init` left it. -/
theorem el_round_trip_tight_request_fails :
    EL_BLOCK_OVERHEAD ≤ 1024 ∧ 984 ≤ 1024 - EL_BLOCK_OVERHEAD ∧
    (el_malloc (el_init demo_addrs 4096 demo_boot 1024).1 984).2 = NULL ∧
    ¬ ((el_round_trip demo_addrs 4096 demo_boot 1024 984).ctl =
        (el_init demo_addrs 4096 demo_boot 1024).1.ctl) := by
  decide!

/-- C6 (two allocations), evaluated at the input where the code breaks it: after
`el_init(1024)` both `p1 = el_malloc(100)` and `p2 = el_malloc(SIZE_MAX - 39)` return a
pointer; after the first the available list is the one block of size 844 at offset 140;
freeing `p1` then `p2`, or `p2` then `p1`, leaves the used list with length 1 and the
block at address 4236 as its member, not empty. -/
theorem el_two_allocations_fail_on_wrapping_request :
    demo_first.2 = 4128 ∧ demo_second.2 = 4268 ∧
    el_print_blocklist demo_first.1 .avail = [⟨140, EL_AVAILABLE, 844, 1016, 844⟩] ∧
    (el_free (el_free demo_second.1 demo_first.2) demo_second.2).ctl.used.length = 1 ∧
    (el_free (el_free demo_second.1 demo_second.2) demo_first.2).ctl.used.length = 1 ∧
    el_members (el_free (el_free demo_second.1 demo_first.2) demo_second.2) .used = [4236] ∧
    el_members (el_free (el_free demo_second.1 demo_second.2) demo_first.2) .used = [4236] := by
  decide!

/-- C7 (no adjacent free blocks), evaluated at the input where the code breaks it:
after `el_init(1024)`, `p1 = el_malloc(100)`, `el_malloc(SIZE_MAX - 39)`,
`r = el_malloc(50)`, `el_free(p1)`, `el_free(r)`, the freed block at address 4236 and
the block at 4096 right below it (4096 + OVERHEAD + 100 = 4236) are both Available
members of the available list, unmerged; `el_block_below` of the freed block is not
`NULL` and has state Available. -/
theorem el_adjacent_free_blocks_after_wrapping_request :
    demo_first.2 = 4128 ∧ demo_third.2 = 4268 ∧
    demo_third.1.state 4096 = EL_USED ∧ demo_third.1.state 4236 = EL_USED ∧
    el_members demo_fifth .avail = [4236, 4096] ∧
    demo_fifth.state 4236 = EL_AVAILABLE ∧ demo_fifth.state 4096 = EL_AVAILABLE ∧
    demo_fifth.size 4096 = 100 ∧ el_block_above demo_fifth 4096 = 4236 ∧
    el_block_below demo_fifth 4236 ≠ NULL ∧
    demo_fifth.state (el_block_below demo_fifth 4236) = EL_AVAILABLE := by
  decide!

/-- C8 (idempotent double free), evaluated over byte-addressed memory at the input
where the code breaks it: after `el_init(1024); p0 = el_malloc(100);
p1 = el_malloc(SIZE_MAX - 23); el_free(p0)` both calls of `el_malloc` have returned a
pointer (4128 and 4268), and `p1` is live: its block 4236 is the one member of the used
list and has state Used.  The first `el_free(p1)` ends with the state byte of that block
at 116, not `EL_AVAILABLE`, and the lists at lengths 2 and 0.  The second `el_free(p1)`
therefore does not return early: it takes the block out of the used list again and
adds it to the available list again, leaving the available list at length 3 and bytes
4308 and the used list at length `2^64 - 1` and bytes `2^64 - 16`, so `el_ctl` is not
what the first call left. -/
theorem el_free_twice_fails_after_wrapping_request :
    Flat.trace_first.2 = 4128 ∧ Flat.trace_second.2 = 4268 ∧
    Flat.el_members Flat.trace_third .used = [4236] ∧
    Flat.trace_third.state (PTR_MINUS_BYTES Flat.trace_second.2 sizeof_head) = EL_USED ∧
    Flat.trace_fourth.state (PTR_MINUS_BYTES Flat.trace_second.2 sizeof_head) = 116 ∧
    Flat.trace_fourth.ctl.avail = ⟨16, 48, 2, 4292⟩ ∧
    Flat.trace_fourth.ctl.used = ⟨80, 112, 0, 0⟩ ∧
    Flat.trace_fifth.ctl.avail = ⟨16, 48, 3, 4308⟩ ∧
    Flat.trace_fifth.ctl.used = ⟨80, 112, 2 ^ 64 - 1, 2 ^ 64 - 16⟩ ∧
    Flat.trace_fifth.ctl ≠ Flat.trace_fourth.ctl := by
  decide!

/-- C9 (initialisation): for a capacity `C` whose reservation succeeded, `el_init(C)`
returns 1 exactly when `C < OVERHEAD`, and then writes no header, footer or list field.
Otherwise it returns 0 and builds both lists.  The used list is empty, with length 0 and
bytes 0: its `beg` and `end` point at its two sentinel nodes, which are linked to each
other.  The available list has length 1 and bytes `C`, and exactly one member, the block
at offset 0: `beg -> block -> end` is doubly linked through the sentinel nodes of the
available list, and the block has header and footer size `C - OVERHEAD` and state
Available.  The four sentinels have the states `EL_BEGIN_BLOCK` / `EL_END_BLOCK`, size
`EL_UNINITIALIZED` and null outer links, the heap bounds are recorded, and the block
tiles the heap, so the allocator invariant `el_inv` holds. -/
theorem el_init_correct (s0 : el_state) (E : el_env_ok A heap C) :
    ((el_init A heap s0 C).2 = 1 ↔ C < EL_BLOCK_OVERHEAD) ∧
    (C < EL_BLOCK_OVERHEAD →
      (el_init A heap s0 C).1.size = s0.size ∧ (el_init A heap s0 C).1.state = s0.state ∧
      (el_init A heap s0 C).1.next = s0.next ∧ (el_init A heap s0 C).1.prev = s0.prev ∧
      (el_init A heap s0 C).1.foot = s0.foot ∧
      (el_init A heap s0 C).1.ctl.avail = s0.ctl.avail ∧
      (el_init A heap s0 C).1.ctl.used = s0.ctl.used) ∧
    (EL_BLOCK_OVERHEAD ≤ C →
      (el_init A heap s0 C).2 = 0 ∧
      (el_init A heap s0 C).1.ctl.used.length = 0 ∧
      (el_init A heap s0 C).1.ctl.used.bytes = 0 ∧
      el_members (el_init A heap s0 C).1 .used = [] ∧
      (el_init A heap s0 C).1.ctl.avail.length = 1 ∧
      (el_init A heap s0 C).1.ctl.avail.bytes = C ∧
      el_members (el_init A heap s0 C).1 .avail = [heap] ∧
      el_print_blocklist (el_init A heap s0 C).1 .avail =
        [⟨0, EL_AVAILABLE, C - EL_BLOCK_OVERHEAD, C - sizeof_foot, C - EL_BLOCK_OVERHEAD⟩] ∧
      el_inv A heap C (el_init A heap s0 C).1 [heap] [heap] [] ∧
      el_list_wf (el_init A heap s0 C).1 .avail [heap] ∧
      el_list_wf (el_init A heap s0 C).1 .used [] ∧
      (el_init A heap s0 C).1.ctl.avail =
        ⟨A.avail_beg_actual, A.avail_end_actual, 1, C⟩ ∧
      (el_init A heap s0 C).1.ctl.used = ⟨A.used_beg_actual, A.used_end_actual, 0, 0⟩ ∧
      (el_init A heap s0 C).1.ctl.heap_start = heap ∧
      (el_init A heap s0 C).1.ctl.heap_end = heap + C ∧
      (el_init A heap s0 C).1.ctl.heap_bytes = C ∧
      (el_init A heap s0 C).1.next A.avail_beg_actual = heap ∧
      (el_init A heap s0 C).1.prev heap = A.avail_beg_actual ∧
      (el_init A heap s0 C).1.next heap = A.avail_end_actual ∧
      (el_init A heap s0 C).1.prev A.avail_end_actual = heap ∧
      (el_init A heap s0 C).1.next A.used_beg_actual = A.used_end_actual ∧
      (el_init A heap s0 C).1.prev A.used_end_actual = A.used_beg_actual ∧
      (el_init A heap s0 C).1.size heap = C - EL_BLOCK_OVERHEAD ∧
      (el_init A heap s0 C).1.state heap = EL_AVAILABLE ∧
      (el_init A heap s0 C).1.foot (heap + sizeof_head + (C - EL_BLOCK_OVERHEAD)) =
        C - EL_BLOCK_OVERHEAD ∧
      (el_init A heap s0 C).1.state A.avail_beg_actual = EL_BEGIN_BLOCK ∧
      (el_init A heap s0 C).1.state A.avail_end_actual = EL_END_BLOCK ∧
      (el_init A heap s0 C).1.state A.used_beg_actual = EL_BEGIN_BLOCK ∧
      (el_init A heap s0 C).1.state A.used_end_actual = EL_END_BLOCK ∧
      (el_init A heap s0 C).1.size A.avail_beg_actual = EL_UNINITIALIZED ∧
      (el_init A heap s0 C).1.size A.avail_end_actual = EL_UNINITIALIZED ∧
      (el_init A heap s0 C).1.size A.used_beg_actual = EL_UNINITIALIZED ∧
      (el_init A heap s0 C).1.size A.used_end_actual = EL_UNINITIALIZED ∧
      (el_init A heap s0 C).1.prev A.avail_beg_actual = NULL ∧
      (el_init A heap s0 C).1.next A.avail_end_actual = NULL ∧
      (el_init A heap s0 C).1.prev A.used_beg_actual = NULL ∧
      (el_init A heap s0 C).1.next A.used_end_actual = NULL) := by
  by_cases hC : C < EL_BLOCK_OVERHEAD
  · have e : el_init A heap s0 C =
        ({ s0 with ctl := { s0.ctl with heap_bytes := C, heap_start := heap,
                                        heap_end := wadd heap C } }, 1) := by
      simp only [PTR_PLUS_BYTES, PTR_MINUS_BYTES, PTR_MINUS_PTR, el_init, if_pos hC]
    rw [e]
    refine ⟨⟨fun _ => hC, fun _ => rfl⟩, fun _ => ⟨rfl, rfl, rfl, rfl, rfl, rfl, rfl⟩,
      fun h => absurd hC (by omega)⟩
  · have hC2 : EL_BLOCK_OVERHEAD ≤ C := by omega
    obtain ⟨h1, I, _⟩ := el_init_spec s0 E hC2
    obtain ⟨s1, s2, s3, s4, s5, s6, _, s8⟩ := I.single hC2
    have W := I.wf
    have c1 := W.avail_chain
    have c2 := W.used_chain
    simp only [el_chain] at c1 c2
    have hst := I.avail_state heap (List.mem_singleton.2 rfl)
    have hft : (el_init A heap s0 C).1.foot (heap + sizeof_head + (C - EL_BLOCK_OVERHEAD)) =
        C - EL_BLOCK_OVERHEAD := by
      have := W.tiles.2.1
      rw [s1] at this
      exact this
    refine ⟨⟨fun h => ?_, fun h => absurd h hC⟩, fun h => absurd h hC, fun _ => ?_⟩
    · rw [h1] at h; exact absurd h (by decide)
    · refine ⟨h1, ?_, ?_, I.wf.members.2, ?_, ?_, I.wf.members.1, s8, I, I.list_wf,
        W.used_list_wf (fun b hb => absurd hb (List.not_mem_nil b)), s2, s3, s4, s5, s6,
        c1.1, c1.2.1, c1.2.2.1, c1.2.2.2, c2.1, c2.2, s1, hst, hft,
        el_init_sentinels s0 E hC2⟩
      · rw [s3]
      · rw [s3]
      · rw [s2]
      · rw [s2]

/-- Witness for C9: capacity 1024 with the heap at address 4096 and the sentinel nodes
at 16, 48, 80 and 112. -/
theorem el_init_correct_witness :
    ((el_init demo_addrs 4096 demo_boot 1024).2 = 1 ↔ 1024 < EL_BLOCK_OVERHEAD) ∧
    (1024 < EL_BLOCK_OVERHEAD →
      (el_init demo_addrs 4096 demo_boot 1024).1.size = demo_boot.size ∧
      (el_init demo_addrs 4096 demo_boot 1024).1.state = demo_boot.state ∧
      (el_init demo_addrs 4096 demo_boot 1024).1.next = demo_boot.next ∧
      (el_init demo_addrs 4096 demo_boot 1024).1.prev = demo_boot.prev ∧
      (el_init demo_addrs 4096 demo_boot 1024).1.foot = demo_boot.foot ∧
      (el_init demo_addrs 4096 demo_boot 1024).1.ctl.avail = demo_boot.ctl.avail ∧
      (el_init demo_addrs 4096 demo_boot 1024).1.ctl.used = demo_boot.ctl.used) ∧
    (EL_BLOCK_OVERHEAD ≤ 1024 →
      (el_init demo_addrs 4096 demo_boot 1024).2 = 0 ∧
      (el_init demo_addrs 4096 demo_boot 1024).1.ctl.used.length = 0 ∧
      (el_init demo_addrs 4096 demo_boot 1024).1.ctl.used.bytes = 0 ∧
      el_members (el_init demo_addrs 4096 demo_boot 1024).1 .used = [] ∧
      (el_init demo_addrs 4096 demo_boot 1024).1.ctl.avail.length = 1 ∧
      (el_init demo_addrs 4096 demo_boot 1024).1.ctl.avail.bytes = 1024 ∧
      el_members (el_init demo_addrs 4096 demo_boot 1024).1 .avail = [4096] ∧
      el_print_blocklist (el_init demo_addrs 4096 demo_boot 1024).1 .avail =
        [⟨0, EL_AVAILABLE, 1024 - EL_BLOCK_OVERHEAD, 1024 - sizeof_foot, 1024 - EL_BLOCK_OVERHEAD⟩] ∧
      el_inv demo_addrs 4096 1024 (el_init demo_addrs 4096 demo_boot 1024).1 [4096] [4096] [] ∧
      el_list_wf (el_init demo_addrs 4096 demo_boot 1024).1 .avail [4096] ∧
      el_list_wf (el_init demo_addrs 4096 demo_boot 1024).1 .used [] ∧
      (el_init demo_addrs 4096 demo_boot 1024).1.ctl.avail =
        ⟨demo_addrs.avail_beg_actual, demo_addrs.avail_end_actual, 1, 1024⟩ ∧
      (el_init demo_addrs 4096 demo_boot 1024).1.ctl.used = ⟨demo_addrs.used_beg_actual, demo_addrs.used_end_actual, 0, 0⟩ ∧
      (el_init demo_addrs 4096 demo_boot 1024).1.ctl.heap_start = 4096 ∧
      (el_init demo_addrs 4096 demo_boot 1024).1.ctl.heap_end = 4096 + 1024 ∧
      (el_init demo_addrs 4096 demo_boot 1024).1.ctl.heap_bytes = 1024 ∧
      (el_init demo_addrs 4096 demo_boot 1024).1.next demo_addrs.avail_beg_actual = 4096 ∧
      (el_init demo_addrs 4096 demo_boot 1024).1.prev 4096 = demo_addrs.avail_beg_actual ∧
      (el_init demo_addrs 4096 demo_boot 1024).1.next 4096 = demo_addrs.avail_end_actual ∧
      (el_init demo_addrs 4096 demo_boot 1024).1.prev demo_addrs.avail_end_actual = 4096 ∧
      (el_init demo_addrs 4096 demo_boot 1024).1.next demo_addrs.used_beg_actual = demo_addrs.used_end_actual ∧
      (el_init demo_addrs 4096 demo_boot 1024).1.prev demo_addrs.used_end_actual = demo_addrs.used_beg_actual ∧
      (el_init demo_addrs 4096 demo_boot 1024).1.size 4096 = 1024 - EL_BLOCK_OVERHEAD ∧
      (el_init demo_addrs 4096 demo_boot 1024).1.state 4096 = EL_AVAILABLE ∧
      (el_init demo_addrs 4096 demo_boot 1024).1.foot (4096 + sizeof_head + (1024 - EL_BLOCK_OVERHEAD)) =
        1024 - EL_BLOCK_OVERHEAD ∧
      (el_init demo_addrs 4096 demo_boot 1024).1.state demo_addrs.avail_beg_actual = EL_BEGIN_BLOCK ∧
      (el_init demo_addrs 4096 demo_boot 1024).1.state demo_addrs.avail_end_actual = EL_END_BLOCK ∧
      (el_init demo_addrs 4096 demo_boot 1024).1.state demo_addrs.used_beg_actual = EL_BEGIN_BLOCK ∧
      (el_init demo_addrs 4096 demo_boot 1024).1.state demo_addrs.used_end_actual = EL_END_BLOCK ∧
      (el_init demo_addrs 4096 demo_boot 1024).1.size demo_addrs.avail_beg_actual = EL_UNINITIALIZED ∧
      (el_init demo_addrs 4096 demo_boot 1024).1.size demo_addrs.avail_end_actual = EL_UNINITIALIZED ∧
      (el_init demo_addrs 4096 demo_boot 1024).1.size demo_addrs.used_beg_actual = EL_UNINITIALIZED ∧
      (el_init demo_addrs 4096 demo_boot 1024).1.size demo_addrs.used_end_actual = EL_UNINITIALIZED ∧
      (el_init demo_addrs 4096 demo_boot 1024).1.prev demo_addrs.avail_beg_actual = NULL ∧
      (el_init demo_addrs 4096 demo_boot 1024).1.next demo_addrs.avail_end_actual = NULL ∧
      (el_init demo_addrs 4096 demo_boot 1024).1.prev demo_addrs.used_beg_actual = NULL ∧
      (el_init demo_addrs 4096 demo_boot 1024).1.next demo_addrs.used_end_actual = NULL) :=
  el_init_correct demo_boot ⟨by decide, by decide, by decide, by decide⟩

/-- C10 (size mirroring), evaluated at the input where the code breaks it: after
`el_init(1024)`, `p1 = el_malloc(100)`, `el_malloc(SIZE_MAX - 39)`, `el_malloc(50)`,
`el_free(p1)`, the block at the heap start is a member of the available list with
header size 100, while the footer that `el_get_footer` locates for it (address 4228)
holds `SIZE_MAX - 39`. -/
theorem el_size_mirroring_fails_after_wrapping_request :
    el_members demo_fourth .avail = [4096, 4326] ∧
    demo_fourth.size 4096 = 100 ∧
    el_get_footer demo_fourth 4096 = 4228 ∧
    demo_fourth.foot (el_get_footer demo_fourth 4096) = 2 ^ 64 - 40 := by
  decide!

end

section
variable {A : el_addrs_t} {heap C : Nat}

/-- C11 (exhaustion): from `el_init(C)` with `C >= OVERHEAD`, for a request `n` that
does not wrap, let `q = (C - OVERHEAD) / (n + OVERHEAD)`.  After `k` calls `el_malloc(n)`
the available list is a single block; call number `k + 1` returns a pointer exactly
when `k < q`, and then that block has size at least `n + OVERHEAD`; when `q <= k` the
block has size below `n + OVERHEAD`, it is the same state as after `q` calls, and the
call returns `NULL` and changes nothing.  So exactly the first `q` calls succeed. -/
theorem el_malloc_exhaustion (s0 : el_state) (n : Nat) (E : el_env_ok A heap C)
    (hC : EL_BLOCK_OVERHEAD ≤ C) (hn : n + EL_BLOCK_OVERHEAD < 2 ^ 64) (k : Nat) :
    ((el_malloc (el_malloc_repeat (el_init A heap s0 C).1 n k) n).2 ≠ NULL ↔
      k < (C - EL_BLOCK_OVERHEAD) / (n + EL_BLOCK_OVERHEAD)) ∧
    (∃ b, el_members (el_malloc_repeat (el_init A heap s0 C).1 n k) .avail = [b] ∧
      (n + EL_BLOCK_OVERHEAD ≤ (el_malloc_repeat (el_init A heap s0 C).1 n k).size b ↔
        k < (C - EL_BLOCK_OVERHEAD) / (n + EL_BLOCK_OVERHEAD)) ∧
      (el_malloc_repeat (el_init A heap s0 C).1 n k).size b =
        C - EL_BLOCK_OVERHEAD -
          min k ((C - EL_BLOCK_OVERHEAD) / (n + EL_BLOCK_OVERHEAD)) *
            (n + EL_BLOCK_OVERHEAD)) ∧
    ((C - EL_BLOCK_OVERHEAD) / (n + EL_BLOCK_OVERHEAD) ≤ k →
      el_malloc_repeat (el_init A heap s0 C).1 n k =
        el_malloc_repeat (el_init A heap s0 C).1 n
          ((C - EL_BLOCK_OVERHEAD) / (n + EL_BLOCK_OVERHEAD)) ∧
      el_malloc (el_malloc_repeat (el_init A heap s0 C).1 n k) n =
        (el_malloc_repeat (el_init A heap s0 C).1 n k, NULL)) := by
  have hd : 0 < n + EL_BLOCK_OVERHEAD := by simp [EL_BLOCK_OVERHEAD, sizeof_head]
  have hq := Nat.div_mul_le_self (C - EL_BLOCK_OVERHEAD) (n + EL_BLOCK_OVERHEAD)
  have hlt : C - EL_BLOCK_OVERHEAD <
      ((C - EL_BLOCK_OVERHEAD) / (n + EL_BLOCK_OVERHEAD) + 1) * (n + EL_BLOCK_OVERHEAD) :=
    (Nat.div_lt_iff_lt_mul hd).1 (Nat.lt_succ_self _)
  rw [Nat.succ_mul] at hlt
  by_cases hk : k < (C - EL_BLOCK_OVERHEAD) / (n + EL_BLOCK_OVERHEAD)
  · obtain ⟨bs, us, I, hs, _⟩ := el_malloc_repeat_inv s0 n E hC hn k (by omega)
    have hk1 : (k + 1) * (n + EL_BLOCK_OVERHEAD) ≤ C - EL_BLOCK_OVERHEAD :=
      (Nat.le_div_iff_mul_le hd).1 hk
    rw [Nat.succ_mul] at hk1
    have hmin : min k ((C - EL_BLOCK_OVERHEAD) / (n + EL_BLOCK_OVERHEAD)) = k := by omega
    refine ⟨⟨fun _ => hk, fun _ => ?_⟩, ⟨_, I.wf.members.1, ⟨fun _ => hk, fun _ => ?_⟩, ?_⟩,
      fun h => absurd hk (by omega)⟩
    · rcases el_malloc_spec I hn with ⟨_, h2, _⟩ | ⟨l1, l2, b1, b2, f, _, _, _, _, _, h6, _⟩
      · have := h2 _ (List.mem_singleton.2 rfl)
        rw [hs] at this
        omega
      · rw [h6]; simp [NULL, sizeof_head]
    · rw [hs]; omega
    · rw [hs, hmin]
  · have hk2 : (C - EL_BLOCK_OVERHEAD) / (n + EL_BLOCK_OVERHEAD) ≤ k := by omega
    obtain ⟨e1, e2⟩ := el_malloc_repeat_stuck s0 n E hC hn k hk2
    obtain ⟨bs, us, I, hs, _⟩ := el_malloc_repeat_inv s0 n E hC hn _ (le_refl _)
    have hmin : min k ((C - EL_BLOCK_OVERHEAD) / (n + EL_BLOCK_OVERHEAD)) =
        (C - EL_BLOCK_OVERHEAD) / (n + EL_BLOCK_OVERHEAD) := by omega
    refine ⟨⟨fun h => ?_, fun h => absurd h hk⟩,
      ⟨heap + (C - EL_BLOCK_OVERHEAD) / (n + EL_BLOCK_OVERHEAD) * (n + EL_BLOCK_OVERHEAD), ?_,
        ⟨fun h => ?_, fun h => absurd h hk⟩, ?_⟩,
      fun _ => ⟨e1, e2⟩⟩
    · rw [e2] at h; exact absurd rfl h
    · rw [e1]; exact I.wf.members.1
    · rw [e1, hs] at h; omega
    · rw [e1, hs, hmin]

/-- Witness for C11: capacity 1024 and requests of 100 bytes, where
`(1024 - 40) / (100 + 40) = 7`: the call after seven calls is the first to fail. -/
theorem el_malloc_exhaustion_witness :
    ((el_malloc (el_malloc_repeat (el_init demo_addrs 4096 demo_boot 1024).1 100 7) 100).2 ≠
        NULL ↔ 7 < (1024 - EL_BLOCK_OVERHEAD) / (100 + EL_BLOCK_OVERHEAD)) ∧
    (∃ b, el_members (el_malloc_repeat (el_init demo_addrs 4096 demo_boot 1024).1 100 7)
        .avail = [b] ∧
      (100 + EL_BLOCK_OVERHEAD ≤
          (el_malloc_repeat (el_init demo_addrs 4096 demo_boot 1024).1 100 7).size b ↔
        7 < (1024 - EL_BLOCK_OVERHEAD) / (100 + EL_BLOCK_OVERHEAD)) ∧
      (el_malloc_repeat (el_init demo_addrs 4096 demo_boot 1024).1 100 7).size b =
        1024 - EL_BLOCK_OVERHEAD -
          min 7 ((1024 - EL_BLOCK_OVERHEAD) / (100 + EL_BLOCK_OVERHEAD)) *
            (100 + EL_BLOCK_OVERHEAD)) ∧
    ((1024 - EL_BLOCK_OVERHEAD) / (100 + EL_BLOCK_OVERHEAD) ≤ 7 →
      el_malloc_repeat (el_init demo_addrs 4096 demo_boot 1024).1 100 7 =
        el_malloc_repeat (el_init demo_addrs 4096 demo_boot 1024).1 100
          ((1024 - EL_BLOCK_OVERHEAD) / (100 + EL_BLOCK_OVERHEAD)) ∧
      el_malloc (el_malloc_repeat (el_init demo_addrs 4096 demo_boot 1024).1 100 7) 100 =
        (el_malloc_repeat (el_init demo_addrs 4096 demo_boot 1024).1 100 7, NULL)) :=
  el_malloc_exhaustion demo_boot 100 ⟨by decide, by decide, by decide, by decide⟩
    (by decide) (by decide) 7

/-- C12 (out of memory for oversized requests), evaluated at the input where the code
breaks it: the state after `el_init(1024); el_malloc(100)` is reachable, its only
available block has size 844, so none has size at least `n + OVERHEAD = 2^64` for
`n = SIZE_MAX - 39`; yet `el_malloc(n)` returns the pointer 4268, not `NULL`, changes
`el_ctl`, and the block it returns has size 844, smaller than `n`. -/
theorem el_malloc_oversized_request_returns_block :
    el_reach demo_addrs 4096 1024 demo_first.1 [4128] ∧
    el_members demo_first.1 .avail = [4236] ∧
    (∀ b ∈ el_members demo_first.1 .avail,
      demo_first.1.size b < demo_wrap + EL_BLOCK_OVERHEAD) ∧
    demo_wrap + EL_BLOCK_OVERHEAD = 2 ^ 64 ∧
    (el_malloc demo_first.1 demo_wrap).2 = 4268 ∧
    (el_malloc demo_first.1 demo_wrap).2 ≠ NULL ∧
    (el_malloc demo_first.1 demo_wrap).1.ctl ≠ demo_first.1.ctl ∧
    (el_malloc demo_first.1 demo_wrap).1.size 4236 = 844 ∧ 844 < demo_wrap :=
  ⟨demo_first_reach, by decide!⟩

/-- C13 (whole-block hand-over), as amended: in every state in which the only member
of the available list is a block of size `s < n + OVERHEAD` (in particular when
`n <= s`, and when `s == n`), for a request with `n + OVERHEAD < 2^64`, `el_malloc(n)`
does not hand the block over: it returns `NULL` and leaves the whole allocator state
unchanged, so the block stays the only member of the available list. -/
theorem el_malloc_no_whole_block {s : el_state} {b n : Nat}
    (hav : el_members s .avail = [b])
    (h2 : s.size b < n + EL_BLOCK_OVERHEAD) (hn : n + EL_BLOCK_OVERHEAD < 2 ^ 64) :
    el_malloc s n = (s, NULL) ∧ (el_malloc s n).2 = NULL ∧
    el_members (el_malloc s n).1 .avail = [b] := by
  have e : el_malloc s n = (s, NULL) := by
    have hw : wadd n EL_BLOCK_OVERHEAD = n + EL_BLOCK_OVERHEAD := wadd_eq hn
    simp only [el_members, list_avail] at hav
    have hf : el_find_first_avail s n = NULL := by
      simp only [el_find_first_avail]
      cases hlen : s.ctl.avail.length with
      | zero => rfl
      | succ k =>
        rw [hlen] at hav
        simp only [el_members_loop, List.cons.injEq] at hav
        obtain ⟨hb, hk⟩ := hav
        cases k with
        | zero =>
          simp only [el_find_first_avail_loop, Nat.zero_add, hb, hw]
          rw [if_neg (by omega)]
        | succ k => simp [el_members_loop] at hk
    simp only [el_malloc, hf, if_true]
  rw [e]
  exact ⟨rfl, rfl, hav⟩

/-- Witness for C13 as amended: after `el_init(1024); el_malloc(100)` the only
available block has size 844, and the request 844 (`s == n`) is refused. -/
theorem el_malloc_no_whole_block_witness :
    el_malloc demo_first.1 844 = (demo_first.1, NULL) ∧
    (el_malloc demo_first.1 844).2 = NULL ∧
    el_members (el_malloc demo_first.1 844).1 .avail = [4236] :=
  el_malloc_no_whole_block (by decide! : el_members demo_first.1 .avail = [4236])
    (by decide!) (by decide)

/-- C13 as stated fails: after `el_init(1024); el_malloc(100)` the only available block
has size 844; the requests 844 (`s == n`) and 820 (`n <= s < n + OVERHEAD`) both return
`NULL`, and the block stays the only member of the available list. -/
theorem el_malloc_exact_fit_refused :
    el_members demo_first.1 .avail = [4236] ∧ demo_first.1.size 4236 = 844 ∧
    (el_malloc demo_first.1 844).2 = NULL ∧
    el_members (el_malloc demo_first.1 844).1 .avail = [4236] ∧
    el_members (el_malloc demo_first.1 844).1 .used = [4096] ∧
    820 ≤ demo_first.1.size 4236 ∧ demo_first.1.size 4236 < 820 + EL_BLOCK_OVERHEAD ∧
    (el_malloc demo_first.1 820).2 = NULL ∧
    el_members (el_malloc demo_first.1 820).1 .avail = [4236] := by
  decide!

/-- C14 (three-way coalescing), evaluated at the input where the code breaks it: after
`el_init(1024); p1 = el_malloc(100); el_malloc(SIZE_MAX - 39); r = el_malloc(50);
el_free(p1)` the block `B` of the live pointer `r` (address 4236, size 50, Used) lies
between the Available blocks `L` (address 4096, size 100, with `el_block_above(L) = B`)
and `U = el_block_above(B)` (address 4326, size 754), both members of the available
list.  After `el_free(r)` the available list is `[B, L]`: its first member is `B`, not
`L`; `L` still has size 100, not `100 + 50 + 754 + 2 * OVERHEAD`; and the available
list has the length it had, not one less. -/
theorem el_free_coalesce_fails_after_wrapping_request :
    demo_third.2 = 4236 + sizeof_head ∧ demo_fourth.state 4236 = EL_USED ∧
    el_block_above demo_fourth 4096 = 4236 ∧ demo_fourth.state 4096 = EL_AVAILABLE ∧
    el_block_above demo_fourth 4236 = 4326 ∧ demo_fourth.state 4326 = EL_AVAILABLE ∧
    el_members demo_fourth .avail = [4096, 4326] ∧
    demo_fourth.size 4096 = 100 ∧ demo_fourth.size 4236 = 50 ∧ demo_fourth.size 4326 = 754 ∧
    el_members (el_free demo_fourth demo_third.2) .avail = [4236, 4096] ∧
    (el_free demo_fourth demo_third.2).size 4096 = 100 ∧
    (el_free demo_fourth demo_third.2).size 4236 = 844 ∧
    (el_free demo_fourth demo_third.2).state 4096 = EL_AVAILABLE ∧
    (el_free demo_fourth demo_third.2).state 4236 = EL_AVAILABLE ∧
    demo_fourth.ctl.avail.length = 2 ∧
    (el_free demo_fourth demo_third.2).ctl.avail.length = 2 := by
  decide!

/-- C15 (structural invariant), evaluated at the input where the code breaks it: after
`el_init(1024); p1 = el_malloc(100); el_malloc(SIZE_MAX - 39)` the block at address 4236
is a member of the available list and of the used list, its state is Available, the
used list's second member is the end sentinel of the available list (address 48), and
the block of the live pointer `p1` (address 4096, state Used) is a member of neither
list. -/
theorem el_structure_fails_on_wrapping_request :
    demo_first.2 = 4128 ∧ demo_second.2 ≠ NULL ∧
    4236 ∈ el_members demo_second.1 .avail ∧ 4236 ∈ el_members demo_second.1 .used ∧
    demo_second.1.state 4236 = EL_AVAILABLE ∧
    el_members demo_second.1 .used = [4236, demo_addrs.avail_end_actual] ∧
    demo_second.1.state 4096 = EL_USED ∧
    4096 ∉ el_members demo_second.1 .avail ∧ 4096 ∉ el_members demo_second.1 .used ∧
    demo_second.1.ctl.used.bytes = 1024 ∧ demo_second.1.ctl.avail.bytes = 884 := by
  decide!

/-- C16 (live allocations are never disturbed): in a state reached by requests that do
not wrap, the block of every live pointer `p` is a Used member of the used list, lies
inside `[heap_start, heap_end)` from its header to its footer, and does not overlap the
block of any other live pointer; a successful `el_malloc(n)` returns a pointer that was
not live, to a block of size `n`; and neither `el_malloc` (for a request that does not
wrap) nor `el_free` of another live pointer changes the size, the state, the footer
address or the footer size of the block of `p`. -/
theorem el_live_allocations_undisturbed {s : el_state} {live : List Nat}
    (E : el_env_ok A heap C) (R : el_reach A heap C s live) :
    (∀ p ∈ live,
      s.ctl.heap_start + sizeof_head ≤ p ∧
      p + s.size (p - sizeof_head) + sizeof_foot ≤ s.ctl.heap_end ∧
      s.state (p - sizeof_head) = EL_USED ∧
      p - sizeof_head ∈ el_members s .used ∧
      ∀ q ∈ live, q ≠ p →
        q + s.size (q - sizeof_head) + sizeof_foot ≤ p - sizeof_head ∨
        p + s.size (p - sizeof_head) + sizeof_foot ≤ q - sizeof_head) ∧
    (∀ n, n + EL_BLOCK_OVERHEAD < 2 ^ 64 → (el_malloc s n).2 ≠ NULL →
      (el_malloc s n).1.size ((el_malloc s n).2 - sizeof_head) = n ∧
      (el_malloc s n).2 ∉ live) ∧
    (∀ n, n + EL_BLOCK_OVERHEAD < 2 ^ 64 → ∀ p ∈ live,
      (el_malloc s n).1.size (p - sizeof_head) = s.size (p - sizeof_head) ∧
      (el_malloc s n).1.state (p - sizeof_head) = s.state (p - sizeof_head) ∧
      el_get_footer (el_malloc s n).1 (p - sizeof_head) = el_get_footer s (p - sizeof_head) ∧
      (el_malloc s n).1.foot (el_get_footer (el_malloc s n).1 (p - sizeof_head)) =
        s.foot (el_get_footer s (p - sizeof_head))) ∧
    (∀ q ∈ live, ∀ p ∈ live, p ≠ q →
      (el_free s q).size (p - sizeof_head) = s.size (p - sizeof_head) ∧
      (el_free s q).state (p - sizeof_head) = s.state (p - sizeof_head) ∧
      el_get_footer (el_free s q) (p - sizeof_head) = el_get_footer s (p - sizeof_head) ∧
      (el_free s q).foot (el_get_footer (el_free s q) (p - sizeof_head)) =
        s.foot (el_get_footer s (p - sizeof_head))) := by
  obtain ⟨bs, av, us, I, hperm⟩ := el_reach_inv E R
  have hlive : ∀ p ∈ live, ∃ b ∈ us, p = b + sizeof_head ∧ p - sizeof_head = b := by
    intro p hp
    obtain ⟨b, hb, e⟩ := List.mem_map.1 (hperm.mem_iff.1 hp)
    exact ⟨b, hb, e.symm, by rw [← e]; exact Nat.add_sub_cancel _ _⟩
  have husbs := I.wf.members_facts.2.2.2.2.2.2.2
  refine ⟨?_, ?_, ?_, ?_⟩
  · intro p hp
    obtain ⟨b, hb, e1, e2⟩ := hlive p hp
    have hr := I.wf.block_range (husbs b hb)
    rw [e2, I.wf.heap_start, I.wf.heap_end, I.wf.members.2]
    refine ⟨by omega, ?_, I.used_state b hb, hb, ?_⟩
    · simp only [EL_BLOCK_OVERHEAD, sizeof_head, sizeof_foot] at *; omega
    · intro q hq hqp
      obtain ⟨c, hc, f1, f2⟩ := hlive q hq
      have hcb : c ≠ b := by
        rintro rfl
        exact hqp (by rw [f1, e1])
      have hd := I.wf.disjoint (husbs b hb) (husbs c hc) hcb
      rw [f2]
      simp only [EL_BLOCK_OVERHEAD, sizeof_head, sizeof_foot] at *
      omega
  · intro n hn hne
    rcases el_malloc_spec I hn with ⟨_, _, h3⟩ |
      ⟨l1, l2, b1, b2, f, _, rfl, _, _, _, h6, _, z1, _⟩
    · rw [h3] at hne; exact absurd rfl hne
    · rw [h6, Nat.add_sub_cancel]
      refine ⟨z1, fun hmem => ?_⟩
      obtain ⟨b, hb, e1, _⟩ := hlive _ hmem
      have hfb : f = b := by omega
      rw [← hfb] at hb
      exact I.wf.members_facts.2.2.2.2.1 f (by simp) hb
  · intro n hn p hp
    obtain ⟨b, hb, _, e2⟩ := hlive p hp
    rw [e2]
    exact el_malloc_used_frame I hn hb
  · intro q hq p hp hpq
    obtain ⟨b, hb, e1, e2⟩ := hlive p hp
    obtain ⟨c, hc, f1, _⟩ := hlive q hq
    have hbc : b ≠ c := by
      rintro rfl
      exact hpq (by rw [e1, f1])
    rw [e2, f1]
    exact el_free_used_frame I hc hb hbc

/-- Witness for C16: the state after `el_init(1024); el_malloc(100); el_malloc(200)`,
with the two live pointers 4268 and 4128. -/
theorem el_live_allocations_undisturbed_witness :
    (∀ p ∈ [4268, 4128],
      demo_pair.1.ctl.heap_start + sizeof_head ≤ p ∧
      p + demo_pair.1.size (p - sizeof_head) + sizeof_foot ≤ demo_pair.1.ctl.heap_end ∧
      demo_pair.1.state (p - sizeof_head) = EL_USED ∧
      p - sizeof_head ∈ el_members demo_pair.1 .used ∧
      ∀ q ∈ [4268, 4128], q ≠ p →
        q + demo_pair.1.size (q - sizeof_head) + sizeof_foot ≤ p - sizeof_head ∨
        p + demo_pair.1.size (p - sizeof_head) + sizeof_foot ≤ q - sizeof_head) ∧
    (∀ n, n + EL_BLOCK_OVERHEAD < 2 ^ 64 → (el_malloc demo_pair.1 n).2 ≠ NULL →
      (el_malloc demo_pair.1 n).1.size ((el_malloc demo_pair.1 n).2 - sizeof_head) = n ∧
      (el_malloc demo_pair.1 n).2 ∉ [4268, 4128]) ∧
    (∀ n, n + EL_BLOCK_OVERHEAD < 2 ^ 64 → ∀ p ∈ [4268, 4128],
      (el_malloc demo_pair.1 n).1.size (p - sizeof_head) = demo_pair.1.size (p - sizeof_head) ∧
      (el_malloc demo_pair.1 n).1.state (p - sizeof_head) = demo_pair.1.state (p - sizeof_head) ∧
      el_get_footer (el_malloc demo_pair.1 n).1 (p - sizeof_head) = el_get_footer demo_pair.1 (p - sizeof_head) ∧
      (el_malloc demo_pair.1 n).1.foot (el_get_footer (el_malloc demo_pair.1 n).1 (p - sizeof_head)) =
        demo_pair.1.foot (el_get_footer demo_pair.1 (p - sizeof_head))) ∧
    (∀ q ∈ [4268, 4128], ∀ p ∈ [4268, 4128], p ≠ q →
      (el_free demo_pair.1 q).size (p - sizeof_head) = demo_pair.1.size (p - sizeof_head) ∧
      (el_free demo_pair.1 q).state (p - sizeof_head) = demo_pair.1.state (p - sizeof_head) ∧
      el_get_footer (el_free demo_pair.1 q) (p - sizeof_head) = el_get_footer demo_pair.1 (p - sizeof_head) ∧
      (el_free demo_pair.1 q).foot (el_get_footer (el_free demo_pair.1 q) (p - sizeof_head)) =
        demo_pair.1.foot (el_get_footer demo_pair.1 (p - sizeof_head))) :=
  el_live_allocations_undisturbed demo_env demo_pair_reach

/-- C17 (split postcondition and conservation): for a non-null block `b` that lies
inside the address space and every `k` with `k + OVERHEAD <= b.size`,
`el_split_block(b, k)` returns the header `r` at `b + OVERHEAD + k`; afterwards `b` has
header and footer size `k`, `r` has header and footer size `b.size - k - OVERHEAD`, the
footer of `r` is the footer `b` had, `k + OVERHEAD + r.size` is the size `b` had, and no
state flag, link or field of `el_ctl` has changed. -/
theorem el_split_block_postcondition (s : el_state) (b k : Nat) (hb : b ≠ NULL)
    (hfit : b + EL_BLOCK_OVERHEAD + s.size b < 2 ^ 64)
    (hk : k + EL_BLOCK_OVERHEAD ≤ s.size b) :
    (el_split_block s b k).2 = b + EL_BLOCK_OVERHEAD + k ∧
    (el_split_block s b k).1.size b = k ∧
    (el_split_block s b k).1.foot (el_get_footer (el_split_block s b k).1 b) = k ∧
    (el_split_block s b k).1.size (el_split_block s b k).2 =
      s.size b - k - EL_BLOCK_OVERHEAD ∧
    (el_split_block s b k).1.foot
        (el_get_footer (el_split_block s b k).1 (el_split_block s b k).2) =
      s.size b - k - EL_BLOCK_OVERHEAD ∧
    el_get_footer (el_split_block s b k).1 (el_split_block s b k).2 = el_get_footer s b ∧
    k + EL_BLOCK_OVERHEAD + (el_split_block s b k).1.size (el_split_block s b k).2 =
      s.size b ∧
    (el_split_block s b k).1.state = s.state ∧
    (el_split_block s b k).1.next = s.next ∧
    (el_split_block s b k).1.prev = s.prev ∧
    (el_split_block s b k).1.ctl = s.ctl := by
  obtain ⟨f1, f2, f3, f4, f5, f6, f7⟩ := el_split_block_fields s b k hk hb hfit
  have hne : b ≠ b + EL_BLOCK_OVERHEAD + k := by
    simp only [EL_BLOCK_OVERHEAD, sizeof_head, sizeof_foot]; omega
  have hsb : (el_split_block s b k).1.size b = k := by
    rw [f6, Function.update_noteq hne, Function.update_same]
  have hsr : (el_split_block s b k).1.size (b + EL_BLOCK_OVERHEAD + k) =
      s.size b - k - EL_BLOCK_OVERHEAD := by
    rw [f6, Function.update_same]
  have a1 : wadd sizeof_head k = sizeof_head + k :=
    wadd_eq (by simp only [EL_BLOCK_OVERHEAD, sizeof_head, sizeof_foot] at hk hfit ⊢; omega)
  have a2 : wadd b (sizeof_head + k) = b + sizeof_head + k := by
    rw [wadd_eq (by simp only [EL_BLOCK_OVERHEAD, sizeof_head, sizeof_foot] at hk hfit ⊢; omega)]
    omega
  have a3 : wadd sizeof_head (s.size b) = sizeof_head + s.size b :=
    wadd_eq (by simp only [EL_BLOCK_OVERHEAD, sizeof_head, sizeof_foot] at hk hfit ⊢; omega)
  have a4 : wadd b (sizeof_head + s.size b) = b + sizeof_head + s.size b := by
    rw [wadd_eq (by simp only [EL_BLOCK_OVERHEAD, sizeof_head, sizeof_foot] at hk hfit ⊢; omega)]
    omega
  have a5 : wadd sizeof_head (s.size b - k - EL_BLOCK_OVERHEAD) =
      sizeof_head + (s.size b - k - EL_BLOCK_OVERHEAD) :=
    wadd_eq (by simp only [EL_BLOCK_OVERHEAD, sizeof_head, sizeof_foot] at hk hfit ⊢; omega)
  have a6 : wadd (b + EL_BLOCK_OVERHEAD + k)
      (sizeof_head + (s.size b - k - EL_BLOCK_OVERHEAD)) = b + sizeof_head + s.size b := by
    rw [wadd_eq (by simp only [EL_BLOCK_OVERHEAD, sizeof_head, sizeof_foot] at hk hfit ⊢; omega)]
    simp only [EL_BLOCK_OVERHEAD, sizeof_head, sizeof_foot] at hk hfit ⊢
    omega
  have g1 : el_get_footer (el_split_block s b k).1 b = b + sizeof_head + k := by
    simp only [el_get_footer, PTR_PLUS_BYTES, hsb, a1, a2]
  have g2 : el_get_footer s b = b + sizeof_head + s.size b := by
    simp only [el_get_footer, PTR_PLUS_BYTES, a3, a4]
  have g3 : el_get_footer (el_split_block s b k).1 (b + EL_BLOCK_OVERHEAD + k) =
      b + sizeof_head + s.size b := by
    simp only [el_get_footer, PTR_PLUS_BYTES, hsr, a5, a6]
  have hfne : b + sizeof_head + k ≠ b + sizeof_head + s.size b := by
    simp only [EL_BLOCK_OVERHEAD, sizeof_head, sizeof_foot] at hk ⊢; omega
  rw [f1]
  refine ⟨rfl, hsb, ?_, hsr, ?_, by rw [g3, g2], ?_, f5, f3, f4, f2⟩
  · rw [g1, f7, Function.update_noteq hfne, Function.update_same]
  · rw [g3, f7, Function.update_same]
  · rw [hsr]
    simp only [EL_BLOCK_OVERHEAD, sizeof_head, sizeof_foot] at hk ⊢
    omega

/-- Witness for C17: the block of 984 bytes right after `el_init(1024)`, split at
100. -/
theorem el_split_block_postcondition_witness :
    (el_split_block demo_init 4096 100).2 = 4096 + EL_BLOCK_OVERHEAD + 100 ∧
    (el_split_block demo_init 4096 100).1.size 4096 = 100 ∧
    (el_split_block demo_init 4096 100).1.foot
      (el_get_footer (el_split_block demo_init 4096 100).1 4096) = 100 ∧
    (el_split_block demo_init 4096 100).1.size (el_split_block demo_init 4096 100).2 =
      demo_init.size 4096 - 100 - EL_BLOCK_OVERHEAD ∧
    (el_split_block demo_init 4096 100).1.foot
        (el_get_footer (el_split_block demo_init 4096 100).1
          (el_split_block demo_init 4096 100).2) =
      demo_init.size 4096 - 100 - EL_BLOCK_OVERHEAD ∧
    el_get_footer (el_split_block demo_init 4096 100).1
      (el_split_block demo_init 4096 100).2 = el_get_footer demo_init 4096 ∧
    100 + EL_BLOCK_OVERHEAD +
        (el_split_block demo_init 4096 100).1.size (el_split_block demo_init 4096 100).2 =
      demo_init.size 4096 ∧
    (el_split_block demo_init 4096 100).1.state = demo_init.state ∧
    (el_split_block demo_init 4096 100).1.next = demo_init.next ∧
    (el_split_block demo_init 4096 100).1.prev = demo_init.prev ∧
    (el_split_block demo_init 4096 100).1.ctl = demo_init.ctl :=
  el_split_block_postcondition demo_init 4096 100 (by decide) (by decide!) (by decide!)

/-- C18 (merge postcondition): in a state that satisfies the allocator invariant, for
a member `lower` of the available list whose upper neighbour
`above = el_block_above(lower)` exists and is a member of the available list,
`el_merge_block_with_above(lower)` sets the header size of `lower` to
`lower.size + above.size + OVERHEAD` and writes the same value into the footer that
`above` had, which is now the footer of `lower`; the available list becomes `lower`
followed by its former members other than `lower` and `above`, one shorter and with
the same `bytes`; the used list, every state flag and every other header size are
untouched, and the invariant still holds. -/
theorem el_merge_block_with_above_postcondition {s : el_state} {bs av us : List Nat}
    {lower : Nat} (I : el_inv A heap C s bs av us) (hl : lower ∈ el_members s .avail)
    (ha : el_block_above s lower ≠ NULL)
    (ham : el_block_above s lower ∈ el_members s .avail) :
    (el_merge_block_with_above s lower).size lower =
      s.size lower + s.size (el_block_above s lower) + EL_BLOCK_OVERHEAD ∧
    el_get_footer (el_merge_block_with_above s lower) lower =
      el_get_footer s (el_block_above s lower) ∧
    (el_merge_block_with_above s lower).foot (el_get_footer s (el_block_above s lower)) =
      s.size lower + s.size (el_block_above s lower) + EL_BLOCK_OVERHEAD ∧
    el_members (el_merge_block_with_above s lower) .avail =
      lower :: ((el_members s .avail).erase (el_block_above s lower)).erase lower ∧
    (el_merge_block_with_above s lower).ctl.avail.length + 1 = s.ctl.avail.length ∧
    (el_merge_block_with_above s lower).ctl.avail.bytes = s.ctl.avail.bytes ∧
    (el_merge_block_with_above s lower).ctl.used = s.ctl.used ∧
    el_members (el_merge_block_with_above s lower) .used = el_members s .used ∧
    (el_merge_block_with_above s lower).state = s.state ∧
    (∀ x, x ≠ lower → (el_merge_block_with_above s lower).size x = s.size x) ∧
    ∃ bs2, el_inv A heap C (el_merge_block_with_above s lower) bs2
      (lower :: (av.erase (el_block_above s lower)).erase lower) us := by
  rw [I.wf.members.1] at hl ham
  rw [I.wf.members.1, I.wf.members.2]
  have hbs : lower ∈ bs := I.wf.members_facts.2.2.2.2.2.2.1 lower hl
  obtain ⟨b1, b2, rfl⟩ := List.append_of_mem hbs
  cases b2 with
  | nil => exact absurd (el_block_above_last I.wf) ha
  | cons a b3 =>
    obtain ⟨q1, q2⟩ := el_block_above_next I.wf
    rw [q1] at ham ⊢
    obtain ⟨J, jsz, jst, jft⟩ := el_merge_do I hl ham
    have fa := I.wf.get_footer (b := a) (by simp)
    have fl := J.wf.get_footer (b := lower) (by simp)
    have hsl : (el_merge_block_with_above s lower).size lower =
        s.size lower + s.size a + EL_BLOCK_OVERHEAD := by
      rw [jsz, Function.update_same]
    have hfe : el_get_footer (el_merge_block_with_above s lower) lower = el_get_footer s a := by
      rw [fl, fa, hsl, q2]
      simp only [EL_BLOCK_OVERHEAD, sizeof_head, sizeof_foot]
      omega
    have hu := el_merge_block_with_above_used s lower
    have c1 := I.wf.perm.length_eq
    have c2 := J.wf.perm.length_eq
    have c5 := I.wf.avail_length
    have c6 := J.wf.avail_length
    have t1 := I.wf.bytes_total
    have t2 := J.wf.bytes_total
    rw [← I.wf.avail_bytes, ← I.wf.used_bytes] at t1
    rw [← J.wf.avail_bytes, ← J.wf.used_bytes, hu] at t2
    simp only [List.nil_append, List.length_append, List.length_cons] at c1 c2 c6
    simp only [el_bytes_of_nil] at t1 t2
    refine ⟨hsl, hfe, by rw [← hfe, jft], J.wf.members.1, by omega, by omega, hu,
      J.wf.members.2, jst, fun x hx => by rw [jsz, Function.update_noteq hx], _, J⟩

/-- Witness for C18: inside `el_free(p1)` after `el_init(1024); p1 = el_malloc(100)`,
when the freed block (address 4096) has been moved to the available list, it and the
block above it (address 4236) are both members of that list. -/
theorem el_merge_block_with_above_postcondition_witness :
    (el_merge_block_with_above demo_moved 4096).size 4096 =
      demo_moved.size 4096 + demo_moved.size (el_block_above demo_moved 4096) + EL_BLOCK_OVERHEAD ∧
    el_get_footer (el_merge_block_with_above demo_moved 4096) 4096 =
      el_get_footer demo_moved (el_block_above demo_moved 4096) ∧
    (el_merge_block_with_above demo_moved 4096).foot (el_get_footer demo_moved (el_block_above demo_moved 4096)) =
      demo_moved.size 4096 + demo_moved.size (el_block_above demo_moved 4096) + EL_BLOCK_OVERHEAD ∧
    el_members (el_merge_block_with_above demo_moved 4096) .avail =
      4096 :: ((el_members demo_moved .avail).erase (el_block_above demo_moved 4096)).erase 4096 ∧
    (el_merge_block_with_above demo_moved 4096).ctl.avail.length + 1 = demo_moved.ctl.avail.length ∧
    (el_merge_block_with_above demo_moved 4096).ctl.avail.bytes = demo_moved.ctl.avail.bytes ∧
    (el_merge_block_with_above demo_moved 4096).ctl.used = demo_moved.ctl.used ∧
    el_members (el_merge_block_with_above demo_moved 4096) .used = el_members demo_moved .used ∧
    (el_merge_block_with_above demo_moved 4096).state = demo_moved.state ∧
    (∀ x, x ≠ 4096 → (el_merge_block_with_above demo_moved 4096).size x = demo_moved.size x) ∧
    ∃ bs2, el_inv demo_addrs 4096 1024 (el_merge_block_with_above demo_moved 4096) bs2
      (4096 :: ([4096, 4236].erase (el_block_above demo_moved 4096)).erase 4096) [] :=
  el_merge_block_with_above_postcondition demo_moved_inv (by decide!) (by decide!)
    (by decide!)

/-- C19 (no orphan coalescing): `el_merge_block_with_above(lower)` leaves the whole
allocator state unchanged whenever the state of `lower` is not Available, or
`el_block_above(lower)` is `NULL`, or the state of the upper neighbour is not Available;
for a block inside the address space `el_block_above` is `NULL` exactly when the block
ends at or past `heap_end`; and no call changes the header size or the state of a block
whose state is Used. -/
theorem el_merge_block_with_above_no_orphan (s : el_state) (lower : Nat)
    (h : s.state lower ≠ EL_AVAILABLE ∨ el_block_above s lower = NULL ∨
      s.state (el_block_above s lower) ≠ EL_AVAILABLE) :
    el_merge_block_with_above s lower = s ∧
    (lower + EL_BLOCK_OVERHEAD + s.size lower < 2 ^ 64 →
      (el_block_above s lower = NULL ↔
        s.ctl.heap_end ≤ lower + EL_BLOCK_OVERHEAD + s.size lower)) ∧
    ∀ (t : el_state) (l x : Nat), t.state x = EL_USED →
      (el_merge_block_with_above t l).size x = t.size x ∧
      (el_merge_block_with_above t l).state x = EL_USED := by
  refine ⟨?_, ?_, ?_⟩
  · simp only [el_merge_block_with_above]
    rw [if_pos (Or.inr h)]
  · intro hfit
    simp only [EL_BLOCK_OVERHEAD, sizeof_head, sizeof_foot] at hfit
    have e1 : wadd (s.size lower) (32 + 8) = s.size lower + (32 + 8) := wadd_eq (by omega)
    have e2 : wadd lower (s.size lower + (32 + 8)) = lower + (s.size lower + (32 + 8)) :=
      wadd_eq (by omega)
    simp only [el_block_above, PTR_PLUS_BYTES, EL_BLOCK_OVERHEAD, sizeof_head, sizeof_foot,
      e1, e2, NULL]
    constructor
    · intro h0
      by_contra hlt
      rw [if_neg (by omega)] at h0
      omega
    · intro hle
      rw [if_pos (by omega)]
  · intro t l x hx
    refine ⟨?_, by rw [el_merge_block_with_above_state, hx]⟩
    rcases el_merge_block_with_above_size t l with h0 | ⟨h1, _, _, h4⟩
    · rw [h0]
    · have hne : x ≠ l := by
        rintro rfl
        rw [hx] at h1
        exact el_used_ne_avail h1
      rw [h4, Function.update_noteq hne]

/-- Witness for C19: after `el_init(1024); el_malloc(100)` the block at the heap start
is Used, and a merge attempt on it changes nothing. -/
theorem el_merge_block_with_above_no_orphan_witness :
    el_merge_block_with_above demo_first.1 4096 = demo_first.1 ∧
    (4096 + EL_BLOCK_OVERHEAD + demo_first.1.size 4096 < 2 ^ 64 →
      (el_block_above demo_first.1 4096 = NULL ↔
        demo_first.1.ctl.heap_end ≤ 4096 + EL_BLOCK_OVERHEAD + demo_first.1.size 4096)) ∧
    ∀ (t : el_state) (l x : Nat), t.state x = EL_USED →
      (el_merge_block_with_above t l).size x = t.size x ∧
      (el_merge_block_with_above t l).state x = EL_USED :=
  el_merge_block_with_above_no_orphan demo_first.1 4096 (Or.inl (by decide!))

/-- C20 (block list insert and remove): for a well-formed list with members `xs` and
a non-null block `b` that is none of its nodes (the counters staying within `size_t`),
`el_add_block_front` makes `b` the node right after the begin sentinel and the list
well-formed with members `b :: xs`, `length` one more and `bytes` more by
`OVERHEAD + b.size`; `el_remove_block` of `b` right after it gives back a well-formed
list with members `xs` and the list record it had; and `el_remove_block` of any member
`x` leaves the list well-formed with the other members in their order, `length` one
less and `bytes` less by `OVERHEAD + x.size`, no header size or state changed. -/
theorem el_add_remove_block {s : el_state} {l : el_list_id} {xs : List Nat} {b : Nat}
    (W : el_list_wf s l xs) (hb : b ∉ (s.list l).beg :: xs ++ [(s.list l).end_])
    (hb0 : b ≠ NULL) (hlen : (s.list l).length + 1 < 2 ^ 64)
    (hbytes : (s.list l).bytes + (EL_BLOCK_OVERHEAD + s.size b) < 2 ^ 64) :
    (el_list_wf (el_add_block_front s l b) l (b :: xs) ∧
      el_members (el_add_block_front s l b) l = b :: xs ∧
      (el_add_block_front s l b).next ((el_add_block_front s l b).list l).beg = b ∧
      ((el_add_block_front s l b).list l).length = (s.list l).length + 1 ∧
      ((el_add_block_front s l b).list l).bytes =
        (s.list l).bytes + (EL_BLOCK_OVERHEAD + s.size b)) ∧
    (el_list_wf (el_remove_block (el_add_block_front s l b) l b) l xs ∧
      el_members (el_remove_block (el_add_block_front s l b) l b) l = xs ∧
      (el_remove_block (el_add_block_front s l b) l b).list l = s.list l) ∧
    (∀ l1 l2 x, xs = l1 ++ x :: l2 →
      el_list_wf (el_remove_block s l x) l (l1 ++ l2) ∧
      el_members (el_remove_block s l x) l = l1 ++ l2 ∧
      ((el_remove_block s l x).list l).length = (s.list l).length - 1 ∧
      ((el_remove_block s l x).list l).bytes =
        (s.list l).bytes - (EL_BLOCK_OVERHEAD + s.size x) ∧
      (el_remove_block s l x).size = s.size ∧ (el_remove_block s l x).state = s.state) := by
  obtain ⟨V, a1, a2, a3, a4⟩ := W.add hb hb0 hlen hbytes
  have V2 : el_list_wf (el_add_block_front s l b) l ([] ++ b :: xs) := V
  obtain ⟨U, u1, u2, u3, u4⟩ := V2.remove (by rw [a3]; exact hlen) (by rw [a4]; exact hbytes)
  simp only [List.nil_append] at U
  refine ⟨⟨V, V.members_eq, V.chain.1, a3, a4⟩, ⟨U, U.members_eq, ?_⟩, ?_⟩
  · apply el_blocklist_eq
    · rw [u1, a1]
    · rw [u2, a2]
    · rw [u3, a3]; omega
    · rw [u4, a4, (el_add_block_front_frame s l b).1]; omega
  · intro l1 l2 x hx
    subst hx
    obtain ⟨T, _, _, t3, t4⟩ := W.remove (by omega) (by omega)
    exact ⟨T, T.members_eq, t3, t4, (el_remove_block_frame s l x).1,
      (el_remove_block_frame s l x).2.1⟩

/-- Witness for C20: the available list after `el_init(1024); el_malloc(100)`, whose one
member is the block at 4236, and the block at 4096, which is not one of its nodes. -/
theorem el_add_remove_block_witness :
    (el_list_wf (el_add_block_front demo_first.1 .avail 4096) .avail (4096 :: [4236]) ∧
      el_members (el_add_block_front demo_first.1 .avail 4096) .avail = 4096 :: [4236] ∧
      (el_add_block_front demo_first.1 .avail 4096).next
        ((el_add_block_front demo_first.1 .avail 4096).list .avail).beg = 4096 ∧
      ((el_add_block_front demo_first.1 .avail 4096).list .avail).length =
        (demo_first.1.list .avail).length + 1 ∧
      ((el_add_block_front demo_first.1 .avail 4096).list .avail).bytes =
        (demo_first.1.list .avail).bytes + (EL_BLOCK_OVERHEAD + demo_first.1.size 4096)) ∧
    (el_list_wf (el_remove_block (el_add_block_front demo_first.1 .avail 4096) .avail 4096)
        .avail [4236] ∧
      el_members (el_remove_block (el_add_block_front demo_first.1 .avail 4096) .avail 4096)
        .avail = [4236] ∧
      (el_remove_block (el_add_block_front demo_first.1 .avail 4096) .avail 4096).list .avail =
        demo_first.1.list .avail) ∧
    (∀ l1 l2 x, [4236] = l1 ++ x :: l2 →
      el_list_wf (el_remove_block demo_first.1 .avail x) .avail (l1 ++ l2) ∧
      el_members (el_remove_block demo_first.1 .avail x) .avail = l1 ++ l2 ∧
      ((el_remove_block demo_first.1 .avail x).list .avail).length =
        (demo_first.1.list .avail).length - 1 ∧
      ((el_remove_block demo_first.1 .avail x).list .avail).bytes =
        (demo_first.1.list .avail).bytes - (EL_BLOCK_OVERHEAD + demo_first.1.size x) ∧
      (el_remove_block demo_first.1 .avail x).size = demo_first.1.size ∧
      (el_remove_block demo_first.1 .avail x).state = demo_first.1.state) :=
  el_add_remove_block
    ⟨⟨by decide!, by decide!, by decide!, by decide!⟩, by decide!, by decide, by decide!,
      by decide!⟩
    (by decide!) (by decide) (by decide!) (by decide!)

end

/-- C21 (boundary navigation round trip): for a block `b` that lies inside the arena
(the arena inside the address space, its start at least one footer above address 0)
and whose footer mirrors its header size, `el_get_header(el_get_footer(b))` is `b`; when
`el_block_above(b)` is a block `a`, `el_block_below(a)` is `b`; `el_block_above(b)` is
`NULL` exactly when `b + OVERHEAD + b.size >= heap_end`; and `el_block_below(b)` is
`NULL` when `b` is the block at `heap_start`. -/
theorem el_boundary_navigation (s : el_state) (b : Nat)
    (hlow : sizeof_foot ≤ s.ctl.heap_start) (hend : s.ctl.heap_end < 2 ^ 64)
    (hin1 : s.ctl.heap_start ≤ b)
    (hin2 : b + EL_BLOCK_OVERHEAD + s.size b ≤ s.ctl.heap_end)
    (hmir : s.foot (el_get_footer s b) = s.size b) :
    el_get_header s (el_get_footer s b) = b ∧
    (el_block_above s b ≠ NULL → el_block_below s (el_block_above s b) = b) ∧
    (el_block_above s b = NULL ↔ s.ctl.heap_end ≤ b + EL_BLOCK_OVERHEAD + s.size b) ∧
    (b = s.ctl.heap_start → el_block_below s b = NULL) := by
  simp only [EL_BLOCK_OVERHEAD, sizeof_head, sizeof_foot] at hlow hin2
  have e1 : wadd sizeof_head (s.size b) = 32 + s.size b := by
    simp only [sizeof_head]; exact wadd_eq (by omega)
  have e2 : wadd b (32 + s.size b) = b + 32 + s.size b := by
    rw [wadd_eq (by omega)]; omega
  have hft : el_get_footer s b = b + 32 + s.size b := by
    simp only [el_get_footer, PTR_PLUS_BYTES, e1, e2]
  rw [hft] at hmir
  have e3 : wadd (s.size b) sizeof_head = s.size b + 32 := by
    simp only [sizeof_head]; exact wadd_eq (by omega)
  have e4 : wsub (b + 32 + s.size b) (s.size b + 32) = b := by
    rw [wsub_eq (by omega) (by omega)]; omega
  have hhd : el_get_header s (b + 32 + s.size b) = b := by
    simp only [el_get_header, PTR_MINUS_BYTES, hmir, e3, e4]
  have e5 : wadd (s.size b) EL_BLOCK_OVERHEAD = s.size b + 40 := by
    simp only [EL_BLOCK_OVERHEAD, sizeof_head, sizeof_foot]; exact wadd_eq (by omega)
  have e6 : wadd b (s.size b + 40) = b + 40 + s.size b := by
    rw [wadd_eq (by omega)]; omega
  have hab : el_block_above s b =
      if b + 40 + s.size b ≥ s.ctl.heap_end then NULL else b + 40 + s.size b := by
    simp only [el_block_above, PTR_PLUS_BYTES, e5, e6]
  have e7 : wsub (b + 40 + s.size b) sizeof_foot = b + 32 + s.size b := by
    simp only [sizeof_foot]; rw [wsub_eq (by omega) (by omega)]; omega
  have e8 : wsub b sizeof_foot = b - 8 := by
    simp only [sizeof_foot]; exact wsub_eq (by omega) (by omega)
  refine ⟨by rw [hft, hhd], ?_, ?_, ?_⟩
  · intro hne
    by_cases hc : b + 40 + s.size b ≥ s.ctl.heap_end
    · rw [hab, if_pos hc] at hne
      exact absurd rfl hne
    · rw [hab, if_neg hc]
      simp only [el_block_below, PTR_MINUS_BYTES, e7]
      rw [if_neg (by omega), hhd]
  · simp only [EL_BLOCK_OVERHEAD, sizeof_head, sizeof_foot]
    rw [hab]
    constructor
    · intro h0
      by_contra hlt
      rw [if_neg (by omega)] at h0
      simp only [NULL] at h0
      omega
    · intro hle
      rw [if_pos (by omega)]
  · intro hb
    simp only [el_block_below, PTR_MINUS_BYTES, e8]
    rw [if_pos (by omega)]

/-- Witness for C21: the block at the heap start after `el_init(1024); el_malloc(100)`,
whose upper neighbour is the block at address 4236. -/
theorem el_boundary_navigation_witness :
    el_get_header demo_first.1 (el_get_footer demo_first.1 4096) = 4096 ∧
    (el_block_above demo_first.1 4096 ≠ NULL →
      el_block_below demo_first.1 (el_block_above demo_first.1 4096) = 4096) ∧
    (el_block_above demo_first.1 4096 = NULL ↔
      demo_first.1.ctl.heap_end ≤ 4096 + EL_BLOCK_OVERHEAD + demo_first.1.size 4096) ∧
    (4096 = demo_first.1.ctl.heap_start → el_block_below demo_first.1 4096 = NULL) :=
  el_boundary_navigation demo_first.1 4096 (by decide!) (by decide!) (by decide!)
    (by decide!) (by decide!)

end ElMalloc
